import Mathlib

/-!
# ImgOptPass: clamp rewriting over an instruction graph

A shallow embedding of `src/ImgOptPass.cpp` (the select → min/max rewriter and
its driver) together with the properties claimed for it.

Modelling conventions.

* A `Value` of the IR is identified by a `ValueId` (the C++ code compares
  `Value *` pointers; the embedding compares ids).
* A function body is the list of its instructions in layout order (blocks in
  order, instructions in order inside each block); every instruction records
  the block it sits in.  Values that are not instructions of the function
  (arguments, constants, globals) are listed with their types.
* The use list of a value is derived from the operand lists.
* Value names (`"clamp.max"`, ...) and the diagnostic stream `errs()` carry no
  behaviour and are left out.
* A result of `none` stands for undefined behaviour of the C++ code: a member
  call through a pointer to an instruction that is not (or no longer) in the
  function.
-/

namespace ImgOpt

/-! ## Data model -/

/-- Identity of an IR value (a node reference). -/
abbrev ValueId := Nat

/-- IR types, as far as the pass looks at them. -/
inductive Ty where
  | int (bits : Nat)
  | fp (bits : Nat)
  | ptr
  | vec (lanes : Nat) (elem : Ty)
  | other (tag : Nat)
  deriving DecidableEq, Repr

/-- `Type::getScalarType`: the element type of a vector, the type itself otherwise. -/
def Ty.getScalarType : Ty → Ty
  | .vec _ e => e
  | t => t

/-- `Type::isIntegerTy`. -/
def Ty.isIntegerTy : Ty → Bool
  | .int _ => true
  | _ => false

/-- `Type::isFloatingPointTy`. -/
def Ty.isFloatingPointTy : Ty → Bool
  | .fp _ => true
  | _ => false

/-- `ICmpInst::Predicate`. -/
inductive ICmpPred where
  | ICMP_EQ | ICMP_NE
  | ICMP_UGT | ICMP_UGE | ICMP_ULT | ICMP_ULE
  | ICMP_SGT | ICMP_SGE | ICMP_SLT | ICMP_SLE
  deriving DecidableEq, Repr

/-- `FCmpInst::Predicate`. -/
inductive FCmpPred where
  | FCMP_FALSE | FCMP_OEQ | FCMP_OGT | FCMP_OGE | FCMP_OLT | FCMP_OLE | FCMP_ONE | FCMP_ORD
  | FCMP_UNO | FCMP_UEQ | FCMP_UGT | FCMP_UGE | FCMP_ULT | FCMP_ULE | FCMP_UNE | FCMP_TRUE
  deriving DecidableEq, Repr

/-- The predicate of a `CmpInst`: an `ICmpInst` or an `FCmpInst` predicate. -/
inductive CmpPredicate where
  | icmp (p : ICmpPred)
  | fcmp (p : FCmpPred)
  deriving DecidableEq, Repr

/-- The intrinsics the pass emits (`Intrinsic::ID`). -/
inductive IntrinsicID where
  | maxnum | minnum | smax | smin | umax | umin
  deriving DecidableEq, Repr

/-- `enum class ClampKind { None, Min, Max }`. -/
inductive ClampKind where
  | None | Min | Max
  deriving DecidableEq, Repr

/-- Opcodes of `BinaryOperator`; only `And` is looked at. -/
inductive BinaryOps where
  | And
  | otherOp (tag : Nat)
  deriving DecidableEq, Repr

/-- What an instruction is, with its operands. -/
inductive InstKind where
  | select (cond trueVal falseVal : ValueId)
  | cmp (pred : CmpPredicate) (lhs rhs : ValueId)
  | binary (op : BinaryOps) (lhs rhs : ValueId)
  | intrinsic (iid : IntrinsicID) (lhs rhs : ValueId)
  | otherInst (tag : Nat) (operands : List ValueId)
  deriving DecidableEq, Repr

/-- An instruction: its identity, result type, parent block and kind. -/
structure Instruction where
  id : ValueId
  ty : Ty
  parent : Nat
  kind : InstKind
  deriving DecidableEq, Repr

/-- A function body: the non-instruction values it refers to, and its
instructions in layout order. -/
structure Function where
  values : List (ValueId × Ty)
  insts : List Instruction
  deriving DecidableEq, Repr

/-- The operand list of an instruction. -/
def InstKind.operands : InstKind → List ValueId
  | .select c t f => [c, t, f]
  | .cmp _ l r => [l, r]
  | .binary _ l r => [l, r]
  | .intrinsic _ l r => [l, r]
  | .otherInst _ ops => ops

/-- Apply `g` to every operand slot. -/
def InstKind.mapOperands (g : ValueId → ValueId) : InstKind → InstKind
  | .select c t f => .select (g c) (g t) (g f)
  | .cmp p l r => .cmp p (g l) (g r)
  | .binary o l r => .binary o (g l) (g r)
  | .intrinsic i l r => .intrinsic i (g l) (g r)
  | .otherInst t ops => .otherInst t (ops.map g)

/-- The operand list of an instruction. -/
def Instruction.operands (i : Instruction) : List ValueId := i.kind.operands

/-- Apply `g` to every operand slot of an instruction. -/
def Instruction.mapOperands (g : ValueId → ValueId) (i : Instruction) : Instruction :=
  ⟨i.id, i.ty, i.parent, i.kind.mapOperands g⟩

/-! ## Graph primitives (the IR facilities the pass calls) -/

/-- The instruction of the function with identity `v`, if `v` is one. -/
def getInst (F : Function) (v : ValueId) : Option Instruction :=
  F.insts.find? (fun i => i.id == v)

/-- Whether `v` is an instruction that is in the function. -/
def isLive (F : Function) (v : ValueId) : Bool :=
  (getInst F v).isSome

/-- `Value::getType`. -/
def getType (F : Function) (v : ValueId) : Option Ty :=
  match getInst F v with
  | some i => some i.ty
  | none => F.values.lookup v

/-- `Value::use_empty`: no instruction has `v` as an operand. -/
def use_empty (F : Function) (v : ValueId) : Bool :=
  F.insts.all (fun i => !(i.operands.contains v))

/-- Substitution of one value reference for another. -/
def subst (old new : ValueId) (v : ValueId) : ValueId :=
  if v = old then new else v

/-- `Value::replaceAllUsesWith`. -/
def replaceAllUsesWith (F : Function) (old new : ValueId) : Function :=
  ⟨F.values, F.insts.map (Instruction.mapOperands (subst old new))⟩

/-- `Instruction::eraseFromParent`. -/
def eraseFromParent (F : Function) (v : ValueId) : Function :=
  ⟨F.values, F.insts.filter (fun i => i.id != v)⟩

/-- Insert `n` in front of the instruction `pos` of a list. -/
def insertBeforeList (pos : ValueId) (n : Instruction) : List Instruction → List Instruction
  | [] => []
  | i :: rest =>
    if i.id = pos then n :: i :: rest else i :: insertBeforeList pos n rest

/-- What an `IRBuilder` positioned at `pos` does with a new instruction. -/
def insertBefore (F : Function) (pos : ValueId) (n : Instruction) : Function :=
  ⟨F.values, insertBeforeList pos n F.insts⟩

/-- An upper bound of every identity the function mentions. -/
def maxId (F : Function) : Nat :=
  ((F.values.map Prod.fst) ++ (F.insts.map Instruction.id)
    ++ (F.insts.map Instruction.operands).flatten).foldr max 0

/-- The identity of a newly allocated instruction: one that nothing has. -/
def freshId (F : Function) : ValueId := maxId F + 1

/-! ## Part 1 of the source: ClampOpt -/

/-- Source `isIntLessPredicate`. -/
def isIntLessPredicate : ICmpPred → Bool
  | .ICMP_SLT => true
  | .ICMP_SLE => true
  | .ICMP_ULT => true
  | .ICMP_ULE => true
  | _ => false

/-- Source `isIntGreaterPredicate`. -/
def isIntGreaterPredicate : ICmpPred → Bool
  | .ICMP_SGT => true
  | .ICMP_SGE => true
  | .ICMP_UGT => true
  | .ICMP_UGE => true
  | _ => false

/-- Source `isFloatLessPredicate`. -/
def isFloatLessPredicate : FCmpPred → Bool
  | .FCMP_OLT => true
  | .FCMP_OLE => true
  | .FCMP_ULT => true
  | .FCMP_ULE => true
  | _ => false

/-- Source `isFloatGreaterPredicate`. -/
def isFloatGreaterPredicate : FCmpPred → Bool
  | .FCMP_OGT => true
  | .FCMP_OGE => true
  | .FCMP_UGT => true
  | .FCMP_UGE => true
  | _ => false

/-- `ICmpInst::isSigned`. -/
def ICmpPred.isSigned : ICmpPred → Bool
  | .ICMP_SGT => true
  | .ICMP_SGE => true
  | .ICMP_SLT => true
  | .ICMP_SLE => true
  | _ => false

/-- `ICmpInst::isUnsigned`. -/
def ICmpPred.isUnsigned : ICmpPred → Bool
  | .ICMP_UGT => true
  | .ICMP_UGE => true
  | .ICMP_ULT => true
  | .ICMP_ULE => true
  | _ => false

/-- The operands of `v` when `v` is a `CmpInst` of the function
(`dyn_cast<CmpInst>` followed by `getOperand(0)`, `getOperand(1)`). -/
def asCmp (F : Function) (v : ValueId) : Option (CmpPredicate × ValueId × ValueId) :=
  match getInst F v with
  | some ⟨_, _, _, .cmp p l r⟩ => some (p, l, r)
  | _ => none

/-- The lambda `hasCmpWith` of `rewriteNestedSelectClamp`: `Cond` is a
comparison with `Val` as an operand, or an `and` one of whose two operands is
such a comparison. -/
def hasCmpWith (F : Function) (Cond Val : ValueId) : Bool :=
  match getInst F Cond with
  | some ⟨_, _, _, .cmp _ l r⟩ => l == Val || r == Val
  | some ⟨_, _, _, .binary .And x y⟩ =>
    (match asCmp F x with
      | some (_, l, r) => l == Val || r == Val
      | none => false) ||
    (match asCmp F y with
      | some (_, l, r) => l == Val || r == Val
      | none => false)
  | _ => false

/-- Lines 128-142 of the source: the max and min intrinsic of the nested
rewrite, chosen from the scalar type alone. -/
def nestedIntrinsics (ScalarTy : Ty) : Option (IntrinsicID × IntrinsicID) :=
  if ScalarTy.isFloatingPointTy then some (.maxnum, .minnum)
  else if ScalarTy.isIntegerTy then some (.umax, .umin)
  else none

/-- Source `rewriteNestedSelectClamp`.  The result is the returned flag and the
function body after the call. -/
def rewriteNestedSelectClamp (F : Function) (SI : ValueId) : Option (Bool × Function) :=
  match getInst F SI with
  | some ⟨_, Ty, blk, .select OuterCond OuterTrue OuterFalse⟩ =>
    match getInst F OuterTrue with
    | some ⟨_, _, _, .select InnerCond InnerTrue InnerFalse⟩ =>
      let InnerSel := OuterTrue
      let Var := InnerTrue
      let Upper := InnerFalse
      let Lower := OuterFalse
      if getType F Var ≠ some Ty ∨ getType F Upper ≠ some Ty ∨ getType F Lower ≠ some Ty then
        some (false, F)
      else if !hasCmpWith F OuterCond Var || !hasCmpWith F InnerCond Var then
        some (false, F)
      else
        match nestedIntrinsics Ty.getScalarType with
        | none => some (false, F)
        | some (MaxID, MinID) =>
          let Clamped1 := freshId F
          let F1 := insertBefore F SI ⟨Clamped1, Ty, blk, .intrinsic MaxID Var Lower⟩
          let Clamped2 := freshId F1
          let F2 := insertBefore F1 SI ⟨Clamped2, Ty, blk, .intrinsic MinID Clamped1 Upper⟩
          let F3 := replaceAllUsesWith F2 SI Clamped2
          let F4 := eraseFromParent F3 SI
          if isLive F4 InnerSel then
            if use_empty F4 InnerSel then some (true, eraseFromParent F4 InnerSel)
            else some (true, F4)
          else none
    | _ => some (false, F)
  | _ => none

/-- Lines 178-228 of the source `rewriteSelect`: the intrinsic chosen by the
single pattern from the comparison predicate and the identities of the select
and comparison operands; `none` is the `return false` of those lines. -/
def singleIntrinsic (pred : CmpPredicate) (TrueVal FalseVal LHS RHS : ValueId) :
    Option (ClampKind × IntrinsicID) :=
  let IsFloat : Bool := match pred with
    | .fcmp _ => true
    | .icmp _ => false
  let IsSigned : Bool := match pred with
    | .icmp p => p.isSigned
    | .fcmp _ => false
  let IsUnsigned : Bool := match pred with
    | .icmp p => p.isUnsigned
    | .fcmp _ => false
  let IsLess : Bool := match pred with
    | .icmp p => isIntLessPredicate p
    | .fcmp p => isFloatLessPredicate p
  let IsGreater : Bool := match pred with
    | .icmp p => isIntGreaterPredicate p
    | .fcmp p => isFloatGreaterPredicate p
  if (!IsLess && !IsGreater) || (!IsFloat && !IsSigned && !IsUnsigned) then none
  else
    let A := LHS
    let B := RHS
    let Kind : ClampKind :=
      if IsLess then
        if TrueVal = B ∧ FalseVal = A then .Max
        else if TrueVal = A ∧ FalseVal = B then .Min
        else .None
      else if IsGreater then
        if TrueVal = A ∧ FalseVal = B then .Max
        else if TrueVal = B ∧ FalseVal = A then .Min
        else .None
      else .None
    if Kind = .None then none
    else if IsFloat then some (Kind, if Kind = .Max then .maxnum else .minnum)
    else if IsSigned then some (Kind, if Kind = .Max then .smax else .smin)
    else if IsUnsigned then some (Kind, if Kind = .Max then .umax else .umin)
    else none

/-- Source `rewriteSelect`.  The result is the returned flag and the function
body after the call. -/
def rewriteSelect (F : Function) (SI : ValueId) : Option (Bool × Function) :=
  match rewriteNestedSelectClamp F SI with
  | none => none
  | some (true, F') => some (true, F')
  | some (false, F0) =>
    match getInst F0 SI with
    | some ⟨_, SelTy, blk, .select Cond TrueVal FalseVal⟩ =>
      match asCmp F0 Cond with
      | none => some (false, F0)
      | some (pred, LHS, RHS) =>
        let ScalarTy := SelTy.getScalarType
        if !ScalarTy.isIntegerTy && !ScalarTy.isFloatingPointTy then some (false, F0)
        else
          match singleIntrinsic pred TrueVal FalseVal LHS RHS with
          | none => some (false, F0)
          | some (_, IID) =>
            match getType F0 LHS with
            | none => none
            | some OpTy =>
              let NewVal := freshId F0
              let F1 := insertBefore F0 SI ⟨NewVal, OpTy, blk, .intrinsic IID LHS RHS⟩
              let F2 := replaceAllUsesWith F1 SI NewVal
              let F3 := eraseFromParent F2 SI
              if isLive F3 Cond then
                if use_empty F3 Cond then some (true, eraseFromParent F3 Cond)
                else some (true, F3)
              else none
    | _ => none

/-- The worklist of `optimizeClamp`: the selects of the function, in layout order. -/
def selectWorklist (F : Function) : List ValueId :=
  F.insts.filterMap (fun i =>
    match i.kind with
    | .select _ _ _ => some i.id
    | _ => none)

/-- The second loop of `optimizeClamp`, over the collected worklist. -/
def clampLoop : List ValueId → Bool → Function → Option (Bool × Function)
  | [], Changed, F => some (Changed, F)
  | SI :: rest, Changed, F =>
    match rewriteSelect F SI with
    | none => none
    | some (true, F') => clampLoop rest true F'
    | some (false, F') => clampLoop rest Changed F'

/-- Source `optimizeClamp`. -/
def optimizeClamp (F : Function) : Option (Bool × Function) :=
  clampLoop (selectWorklist F) false F

/-- The two verdicts `PreservedAnalyses::none()` and `PreservedAnalyses::all()`. -/
inductive PreservedAnalyses where
  | none
  | all
  deriving DecidableEq, Repr

/-- Source `ImgOptPass::run` (the call of `optimizeMathFunctions` is commented
out in the source). -/
def run (F : Function) : Option (PreservedAnalyses × Function) :=
  match optimizeClamp F with
  | Option.none => Option.none
  | some (Changed, F') =>
    if Changed then some (PreservedAnalyses.none, F') else some (PreservedAnalyses.all, F')

/-! ## Value semantics of the integer instructions involved -/

/-- Two's complement reading of a `w`-bit pattern `x < 2 ^ w`. -/
def toSigned (w : Nat) (x : Nat) : Int :=
  if x < 2 ^ (w - 1) then (x : Int) else (x : Int) - 2 ^ w

/-- Value of `icmp pred a b` on `w`-bit operands (LLVM language reference). -/
def evalICmp (w : Nat) : ICmpPred → Nat → Nat → Bool
  | .ICMP_EQ, a, b => decide (a = b)
  | .ICMP_NE, a, b => decide (a ≠ b)
  | .ICMP_UGT, a, b => decide (b < a)
  | .ICMP_UGE, a, b => decide (b ≤ a)
  | .ICMP_ULT, a, b => decide (a < b)
  | .ICMP_ULE, a, b => decide (a ≤ b)
  | .ICMP_SGT, a, b => decide (toSigned w b < toSigned w a)
  | .ICMP_SGE, a, b => decide (toSigned w b ≤ toSigned w a)
  | .ICMP_SLT, a, b => decide (toSigned w a < toSigned w b)
  | .ICMP_SLE, a, b => decide (toSigned w a ≤ toSigned w b)

/-- Value of the integer min/max intrinsics on `w`-bit operands (LLVM language
reference); the floating-point intrinsics have no integer value. -/
def evalIntMinMax (w : Nat) : IntrinsicID → Nat → Nat → Option Nat
  | .smax, a, b => some (if toSigned w a < toSigned w b then b else a)
  | .smin, a, b => some (if toSigned w b < toSigned w a then b else a)
  | .umax, a, b => some (if a < b then b else a)
  | .umin, a, b => some (if b < a then b else a)
  | .maxnum, _, _ => none
  | .minnum, _, _ => none

/-- Value of `v` in a function whose integer values are `w` bits wide, given the
values `arg` of the non-instruction values; `fuel` bounds the depth of the
operand chain that is followed.  Selects, integer comparisons, `and` and the
integer min/max intrinsics are evaluated. -/
def evalValue (w : Nat) (F : Function) (arg : ValueId → Option Nat) : Nat → ValueId → Option Nat
  | 0, _ => none
  | fuel + 1, v =>
    match getInst F v with
    | none => arg v
    | some ⟨_, _, _, .select c t f⟩ =>
      match evalValue w F arg fuel c, evalValue w F arg fuel t, evalValue w F arg fuel f with
      | some cv, some tv, some fv => some (if cv = 1 then tv else fv)
      | _, _, _ => none
    | some ⟨_, _, _, .cmp (.icmp p) a b⟩ =>
      match evalValue w F arg fuel a, evalValue w F arg fuel b with
      | some av, some bv => some (if evalICmp w p av bv then 1 else 0)
      | _, _ => none
    | some ⟨_, _, _, .binary .And a b⟩ =>
      match evalValue w F arg fuel a, evalValue w F arg fuel b with
      | some av, some bv => some (Nat.land av bv)
      | _, _ => none
    | some ⟨_, _, _, .intrinsic iid a b⟩ =>
      match evalValue w F arg fuel a, evalValue w F arg fuel b with
      | some av, some bv => evalIntMinMax w iid av bv
      | _, _ => none
    | some _ => none

/-! ## Vocabulary of the specification -/

/-- The less family of predicates (spec section 4.1): slt, sle, ult, ule and the
ordered and unordered floating less and less-or-equal. -/
def specLessFamily : CmpPredicate → Bool
  | .icmp .ICMP_SLT => true
  | .icmp .ICMP_SLE => true
  | .icmp .ICMP_ULT => true
  | .icmp .ICMP_ULE => true
  | .fcmp .FCMP_OLT => true
  | .fcmp .FCMP_OLE => true
  | .fcmp .FCMP_ULT => true
  | .fcmp .FCMP_ULE => true
  | _ => false

/-- The greater family of predicates (spec section 4.1): sgt, sge, ugt, uge and
the ordered and unordered floating greater and greater-or-equal. -/
def specGreaterFamily : CmpPredicate → Bool
  | .icmp .ICMP_SGT => true
  | .icmp .ICMP_SGE => true
  | .icmp .ICMP_UGT => true
  | .icmp .ICMP_UGE => true
  | .fcmp .FCMP_OGT => true
  | .fcmp .FCMP_OGE => true
  | .fcmp .FCMP_UGT => true
  | .fcmp .FCMP_UGE => true
  | _ => false

/-- The domains of the spec's builtin table. -/
inductive SpecDomain where
  | Float | Signed | Unsigned
  deriving DecidableEq, Repr

/-- The domain of a less- or greater-family predicate as the spec derives it:
float for a floating comparison, otherwise signed or unsigned after the integer
predicate. -/
def specDomain : CmpPredicate → SpecDomain
  | .fcmp _ => .Float
  | .icmp .ICMP_SGT => .Signed
  | .icmp .ICMP_SGE => .Signed
  | .icmp .ICMP_SLT => .Signed
  | .icmp .ICMP_SLE => .Signed
  | .icmp _ => .Unsigned

/-- The spec's map from (kind, domain) to the canonical binary builtin, for the
kinds Max and Min. -/
def specBuiltin : ClampKind → SpecDomain → Option IntrinsicID
  | .Max, .Float => some .maxnum
  | .Min, .Float => some .minnum
  | .Max, .Signed => some .smax
  | .Min, .Signed => some .smin
  | .Max, .Unsigned => some .umax
  | .Min, .Unsigned => some .umin
  | .None, _ => none

/-- The rewire-then-erase tail shared by both rewrites, as the spec describes
it: every use of `S` is redirected to `r`, `S` is removed, and `dead` is removed
when it is left without uses. -/
def commit (G : Function) (S r dead : ValueId) : Function :=
  let F4 := eraseFromParent (replaceAllUsesWith G S r) S
  if use_empty F4 dead then eraseFromParent F4 dead else F4

/-- The guard of the nested pattern in the spec's words: `cond` is a comparison
having `var` as an operand, or an `and` one of whose two operands is a
comparison having `var` as an operand. -/
def specGuardedBy (F : Function) (cond var : ValueId) : Prop :=
  (∃ ty blk p l r, getInst F cond = some ⟨cond, ty, blk, .cmp p l r⟩ ∧ (l = var ∨ r = var)) ∨
  (∃ ty blk x y, getInst F cond = some ⟨cond, ty, blk, .binary .And x y⟩ ∧
    ∃ c, (c = x ∨ c = y) ∧
      ∃ ty' blk' p l r, getInst F c = some ⟨c, ty', blk', .cmp p l r⟩ ∧ (l = var ∨ r = var))

/-- The body with the chain `t = MaxID(var, lower); r = MinID(t, upper)` built
in front of `outer`, both of type `τ` in block `blk`, paired with the identity
of `r`. -/
def withClampChain (F : Function) (outer : ValueId) (τ : Ty) (blk : Nat)
    (MaxID MinID : IntrinsicID) (var lower upper : ValueId) : Function × ValueId :=
  let t := freshId F
  let F1 := insertBefore F outer ⟨t, τ, blk, .intrinsic MaxID var lower⟩
  let r := freshId F1
  (insertBefore F1 outer ⟨r, τ, blk, .intrinsic MinID t upper⟩, r)

/-- A value is present in the function: it is one of its instructions or one of
the other values it refers to. -/
def present (F : Function) (v : ValueId) : Prop :=
  isLive F v = true ∨ v ∈ F.values.map Prod.fst

/-- Structural validity of the graph: every operand of every instruction refers
to a value that is present. -/
def WellFormed (F : Function) : Prop :=
  ∀ i ∈ F.insts, ∀ v ∈ i.operands, present F v

/-! ## Example functions -/

/-- The type `i32`. -/
def i32 : Ty := .int 32

/-- The type `i1`. -/
def i1 : Ty := .int 1

/-- A `ret`-like user of one value. -/
def retOf (id : ValueId) (v : ValueId) : Instruction := ⟨id, .other 0, 0, .otherInst 0 [v]⟩

/-- Body `%3 = icmp slt %1, %2; %4 = select %3, %2, %1; ret %4` over two `i32`
arguments. -/
def exSltMax : Function :=
  ⟨[(1, i32), (2, i32)],
   [⟨3, i1, 0, .cmp (.icmp .ICMP_SLT) 1 2⟩, ⟨4, i32, 0, .select 3 2 1⟩, retOf 5 4]⟩

/-- Body `%3 = icmp sgt %1, %2; %4 = select %3, %2, %1; ret %4`. -/
def exSgtSwapped : Function :=
  ⟨[(1, i32), (2, i32)],
   [⟨3, i1, 0, .cmp (.icmp .ICMP_SGT) 1 2⟩, ⟨4, i32, 0, .select 3 2 1⟩, retOf 5 4]⟩

/-- Body `%4 = icmp slt %1, %2; %5 = select %4, %3, %1; ret %5`: the select
pairs the comparison's left operand with an unrelated value. -/
def exNoMatch : Function :=
  ⟨[(1, i32), (2, i32), (3, i32)],
   [⟨4, i1, 0, .cmp (.icmp .ICMP_SLT) 1 2⟩, ⟨5, i32, 0, .select 4 3 1⟩, retOf 6 5]⟩

/-- Body `%3 = icmp slt %1, %2; %4 = select %3, %2, %1; br %3; ret %4`: the
comparison also feeds a branch. -/
def exSharedCmp : Function :=
  ⟨[(1, i32), (2, i32)],
   [⟨3, i1, 0, .cmp (.icmp .ICMP_SLT) 1 2⟩, ⟨4, i32, 0, .select 3 2 1⟩,
    ⟨5, .other 0, 0, .otherInst 1 [3]⟩, retOf 6 4]⟩

/-- The nested clamp over `w`-bit integers with predicates `ple` and `pge`:
`%4 = icmp ple %1, %3; %5 = select %4, %1, %3; %6 = icmp pge %1, %2;
%7 = select %6, %5, %2; ret %7`, where `%1` is `var`, `%2` is `lo`, `%3` is `hi`. -/
def exNestedClamp (w : Nat) (ple pge : ICmpPred) : Function :=
  ⟨[(1, .int w), (2, .int w), (3, .int w)],
   [⟨4, i1, 0, .cmp (.icmp ple) 1 3⟩, ⟨5, .int w, 0, .select 4 1 3⟩,
    ⟨6, i1, 0, .cmp (.icmp pge) 1 2⟩, ⟨7, .int w, 0, .select 6 5 2⟩, retOf 8 7]⟩

/-- Argument values `var`, `lo`, `hi` for the nested clamp example. -/
def clampArgs (var lo hi : Nat) : ValueId → Option Nat
  | 1 => some var
  | 2 => some lo
  | 3 => some hi
  | _ => none

/-- The nested clamp with the outer select laid out before the inner one: the
entry block `0` branches to block `2`, which holds
`%4 = icmp ule %1, %3; %5 = select %4, %1, %3` and branches to block `1`, which
holds `%6 = icmp uge %1, %2; %7 = select %6, %5, %2; ret %7`; the layout order of
the blocks is `0, 1, 2`. -/
def exOuterFirst : Function :=
  ⟨[(1, i32), (2, i32), (3, i32)],
   [⟨10, .other 0, 0, .otherInst 2 []⟩,
    ⟨6, i1, 1, .cmp (.icmp .ICMP_UGE) 1 2⟩, ⟨7, i32, 1, .select 6 5 2⟩,
    ⟨8, .other 0, 1, .otherInst 0 [7]⟩,
    ⟨4, i1, 2, .cmp (.icmp .ICMP_ULE) 1 3⟩, ⟨5, i32, 2, .select 4 1 3⟩,
    ⟨11, .other 0, 2, .otherInst 2 []⟩]⟩

/-- Body `%3 = icmp slt %1, %2; %4 = select %3, %2, %1; %5 = call @use(%4)`: a
call whose argument is a select that the pass rewrites. -/
def exCallOfSelect : Function :=
  ⟨[(1, i32), (2, i32)],
   [⟨3, i1, 0, .cmp (.icmp .ICMP_SLT) 1 2⟩, ⟨4, i32, 0, .select 3 2 1⟩,
    ⟨5, .other 0, 0, .otherInst 3 [4]⟩]⟩

/-- Body `%3 = call @pow(%1, %2); %7 = icmp slt %4, %5; %8 = select %7, %6, %4;
ret %3`, with `%1` a `double` argument and `%2` the literal `2.2`: a call of
`pow` with a literal exponent next to a select that pairs the comparison's left
operand with an unrelated value. -/
def exPowCall : Function :=
  ⟨[(1, .fp 64), (2, .fp 64), (4, i32), (5, i32), (6, i32)],
   [⟨3, .fp 64, 0, .otherInst 4 [1, 2]⟩,
    ⟨7, i1, 0, .cmp (.icmp .ICMP_SLT) 4 5⟩, ⟨8, i32, 0, .select 7 6 4⟩, retOf 9 3]⟩

/-! ## IEEE 754 binary64, the C++ type `double`

A finite `double` is a number `m * 2 ^ e` with `|m| < 2 ^ 53` and
`-1074 ≤ e ≤ 971`.  The arithmetic below is the one of the standard in its
default mode: the exact result rounded to the nearest `double`, ties to the
even significand, results of magnitude `2 ^ 1024` and more becoming infinite.
The two zeros are not told apart: subtraction, `fabs` and `<` do not observe
the sign of a zero. -/

/-- A value of type `double`: the number `m * 2 ^ e`, an infinity, or a NaN. -/
inductive Double where
  | finite (m : Int) (e : Int)
  | inf (negative : Bool)
  | nan
  deriving DecidableEq, Repr

/-- The quotient `p / q` of naturals rounded to the nearest natural, ties to
the even one. -/
def roundHalfEven (p q : Nat) : Nat :=
  if 2 * (p % q) < q then p / q
  else if q < 2 * (p % q) then p / q + 1
  else if (p / q) % 2 = 0 then p / q else p / q + 1

/-- The number of binary digits of `n` less one (0 for 0), with `fuel` at
least that large. -/
def log2Fuel : Nat → Nat → Nat
  | 0, _ => 0
  | fuel + 1, n => if n < 2 then 0 else log2Fuel fuel (n / 2) + 1

/-- The largest `d` with `2 ^ d ≤ p / q`, for positive `p` and `q`. -/
def floorLog2 (p q : Nat) : Int :=
  let d : Int := (log2Fuel p p : Int) - (log2Fuel q q : Int)
  if q * 2 ^ d.toNat ≤ p * 2 ^ (-d).toNat then d else d - 1

/-- The `double` nearest to `± p / q` (`q` positive), ties to even: the
significand has 53 binary digits, or fewer at the least exponent `-1074`. -/
def Double.round (negative : Bool) (p q : Nat) : Double :=
  if p = 0 then .finite 0 0
  else
    let k : Int := max (floorLog2 p q - 52) (-1074)
    let n := roundHalfEven (p * 2 ^ (-k).toNat) (q * 2 ^ k.toNat)
    if 971 < k ∨ (k = 971 ∧ n = 2 ^ 53) then .inf negative
    else .finite (if negative then -(n : Int) else (n : Int)) k

/-- The `double` nearest to the number `m * 2 ^ e`. -/
def Double.roundDyadic (m e : Int) : Double :=
  Double.round (decide (m < 0)) (m.natAbs * 2 ^ e.toNat) (2 ^ (-e).toNat)

/-- The value of a decimal literal `d * 10 ^ x` of the source. -/
def Double.ofDecimal (d : Nat) (x : Int) : Double :=
  Double.round false (d * 10 ^ x.toNat) (10 ^ (-x).toNat)

/-- Subtraction of `double`s. -/
def Double.sub : Double → Double → Double
  | .nan, _ => .nan
  | _, .nan => .nan
  | .inf a, .inf b => if a = b then .nan else .inf a
  | .inf a, .finite _ _ => .inf a
  | .finite _ _, .inf b => .inf (!b)
  | .finite m1 e1, .finite m2 e2 =>
    Double.roundDyadic
      (m1 * 2 ^ (e1 - min e1 e2).toNat - m2 * 2 ^ (e2 - min e1 e2).toNat) (min e1 e2)

/-- Division of `double`s; a zero divisor is taken as `+0`. -/
def Double.div : Double → Double → Double
  | .nan, _ => .nan
  | _, .nan => .nan
  | .inf _, .inf _ => .nan
  | .inf a, .finite m _ => .inf (a != decide (m < 0))
  | .finite _ _, .inf _ => .finite 0 0
  | .finite m1 e1, .finite m2 e2 =>
    if m2 = 0 then (if m1 = 0 then .nan else .inf (decide (m1 < 0)))
    else
      Double.round (decide (m1 < 0) != decide (m2 < 0))
        (m1.natAbs * 2 ^ (e1 - e2).toNat) (m2.natAbs * 2 ^ (e2 - e1).toNat)

/-- `fabs`. -/
def Double.fabs : Double → Double
  | .finite m e => .finite (|m|) e
  | .inf _ => .inf false
  | .nan => .nan

/-- The comparison `<` of `double`s: false when an operand is a NaN. -/
def Double.lt : Double → Double → Bool
  | .nan, _ => false
  | _, .nan => false
  | .inf a, .inf b => a && !b
  | .inf a, .finite _ _ => a
  | .finite _ _, .inf b => !b
  | .finite m1 e1, .finite m2 e2 =>
    decide (m1 * 2 ^ (e1 - min e1 e2).toNat < m2 * 2 ^ (e2 - min e1 e2).toNat)

instance : Sub Double := ⟨Double.sub⟩
instance : Div Double := ⟨Double.div⟩
instance : LT Double := ⟨fun a b => Double.lt a b = true⟩
instance (a b : Double) : Decidable (a < b) := inferInstanceAs (Decidable (Double.lt a b = true))
instance : OfScientific Double := ⟨fun d s x => Double.ofDecimal d (if s then -(x : Int) else (x : Int))⟩

/-- The number that a finite `double` is. -/
def Double.toRat : Double → Option ℚ
  | .finite m e => some ((m : ℚ) * (2 : ℚ) ^ e)
  | _ => none

/-! ## Part 2 of the source: MathOpt

The power rewriter looks at calls, float-extension casts, loads, floating
constants and global variables, and creates `llvm.sqrt` calls and `fmul`
instructions.  A floating constant carries its value as a `double`
(`convertToDouble`), and the window tests of the approximation table are the
`double` computations that the source writes.  Types are left out: the pass
only uses the type of the base to pick the `llvm.sqrt` overload.

The builder is modelled as it acts on a base that is not a constant (an
argument or an instruction): every `CreateCall` and `CreateFMul` adds an
instruction.  For a base that is itself a constant the builder's constant
folder gives the value of the product `x * x` as a constant instead of an
`fmul` instruction; the model shows that product unfolded. -/

/-- The initializer of a global variable. -/
inductive Initializer where
  | constantFP (v : Double)
  | otherConstant
  deriving DecidableEq

/-- What a value that is not an instruction is: a floating constant, a global
variable, or a value that is not a constant, such as an argument. -/
inductive MathValue where
  | constantFP (v : Double)
  | globalVariable (isConstant : Bool) (initializer : Option Initializer)
  | otherValue
  deriving DecidableEq

/-- What an instruction is, with its operands.  `call` is a `CallInst` with the
name of the called function (`none` when `getCalledFunction()` is null) and its
arguments; `sqrt` is a call of the `llvm.sqrt` intrinsic, whose name does not
contain `pow`. -/
inductive MathKind where
  | call (callee : Option String) (args : List ValueId)
  | fpext (src : ValueId)
  | load (ptr : ValueId)
  | sqrt (x : ValueId)
  | fmul (a b : ValueId)
  | otherMath (tag : Nat) (operands : List ValueId)
  deriving DecidableEq

/-- An instruction of a function the power rewriter runs on. -/
structure MathInst where
  id : ValueId
  kind : MathKind
  deriving DecidableEq

/-- A function body for the power rewriter: the non-instruction values it
refers to, and its instructions in layout order. -/
structure MathFunction where
  values : List (ValueId × MathValue)
  insts : List MathInst
  deriving DecidableEq

/-- The operand list of an instruction. -/
def MathKind.operands : MathKind → List ValueId
  | .call _ args => args
  | .fpext s => [s]
  | .load p => [p]
  | .sqrt x => [x]
  | .fmul a b => [a, b]
  | .otherMath _ ops => ops

/-- Apply `g` to every operand slot. -/
def MathKind.mapOperands (g : ValueId → ValueId) : MathKind → MathKind
  | .call c args => .call c (args.map g)
  | .fpext s => .fpext (g s)
  | .load p => .load (g p)
  | .sqrt x => .sqrt (g x)
  | .fmul a b => .fmul (g a) (g b)
  | .otherMath t ops => .otherMath t (ops.map g)

/-- The operand list of an instruction. -/
def MathInst.operands (i : MathInst) : List ValueId := i.kind.operands

/-- Apply `g` to every operand slot of an instruction. -/
def MathInst.mapOperands (g : ValueId → ValueId) (i : MathInst) : MathInst :=
  ⟨i.id, i.kind.mapOperands g⟩

/-- The instruction of the function with identity `v`, if `v` is one. -/
def mathGetInst (F : MathFunction) (v : ValueId) : Option MathInst :=
  F.insts.find? (fun i => i.id == v)

/-- Whether `v` is an instruction that is in the function. -/
def mathIsLive (F : MathFunction) (v : ValueId) : Bool :=
  (mathGetInst F v).isSome

/-- `Value::replaceAllUsesWith`. -/
def mathReplaceAllUsesWith (F : MathFunction) (old new : ValueId) : MathFunction :=
  ⟨F.values, F.insts.map (MathInst.mapOperands (subst old new))⟩

/-- `Instruction::eraseFromParent`. -/
def mathEraseFromParent (F : MathFunction) (v : ValueId) : MathFunction :=
  ⟨F.values, F.insts.filter (fun i => i.id != v)⟩

/-- Insert `n` in front of the instruction `pos` of a list. -/
def mathInsertBeforeList (pos : ValueId) (n : MathInst) : List MathInst → List MathInst
  | [] => []
  | i :: rest =>
    if i.id = pos then n :: i :: rest else i :: mathInsertBeforeList pos n rest

/-- What the builder, positioned at `pos`, does with a new instruction. -/
def mathInsertBefore (F : MathFunction) (pos : ValueId) (n : MathInst) : MathFunction :=
  ⟨F.values, mathInsertBeforeList pos n F.insts⟩

/-- The largest identity an instruction mentions: its own or an operand's. -/
def MathInst.bound (i : MathInst) : Nat := max i.id (i.operands.foldr max 0)

/-- An upper bound of every identity the function mentions. -/
def mathMaxId (F : MathFunction) : Nat :=
  max ((F.values.map Prod.fst).foldr max 0) ((F.insts.map MathInst.bound).foldr max 0)

/-- The identity of a newly allocated instruction: one that nothing has. -/
def mathFreshId (F : MathFunction) : ValueId := mathMaxId F + 1

/-- `B.CreateCall(Sqrt, {V})` with the builder positioned at `pos`: the body
after the call and the new instruction. -/
def CreateCallSqrt (F : MathFunction) (pos V : ValueId) : MathFunction × ValueId :=
  (mathInsertBefore F pos ⟨mathFreshId F, .sqrt V⟩, mathFreshId F)

/-- `B.CreateFMul(a, b)` with the builder positioned at `pos`, for operands
that are not both constants: the new `fmul` instruction. -/
def CreateFMul (F : MathFunction) (pos a b : ValueId) : MathFunction × ValueId :=
  (mathInsertBefore F pos ⟨mathFreshId F, .fmul a b⟩, mathFreshId F)

/-- The lambda `sqrtN` of `buildPowerApprox`: `n` nested calls of `llvm.sqrt`. -/
def sqrtN (F : MathFunction) (pos V : ValueId) : Nat → MathFunction × ValueId
  | 0 => (F, V)
  | n + 1 => sqrtN (CreateCallSqrt F pos V).1 pos (CreateCallSqrt F pos V).2 n

/-- Source `buildPowerApprox`, with the builder positioned at `pos`: the body
after the call and the returned value (`none` for `nullptr`).  Where the source
nests two builder calls as arguments of a third, whose order of evaluation C++
leaves open, the left argument is built first. -/
def buildPowerApprox (F : MathFunction) (pos X : ValueId) (ExpVal : Double) :
    MathFunction × Option ValueId :=
  if Double.fabs (ExpVal - 1.0 / 3.0) < 0.01 then
    let s1 := CreateCallSqrt F pos X
    let s2 := CreateCallSqrt s1.1 pos s1.2
    let s3 := CreateCallSqrt s2.1 pos s2.2
    let r := CreateFMul s3.1 pos s3.2 s3.2
    (r.1, some r.2)
  else if Double.fabs (ExpVal - 1.2) < 1e-3 then
    let s1 := CreateCallSqrt F pos X
    let s2 := CreateCallSqrt s1.1 pos s1.2
    let s3 := CreateCallSqrt s2.1 pos s2.2
    let r := CreateFMul s3.1 pos X s3.2
    (r.1, some r.2)
  else if Double.fabs (ExpVal - 2.2) < 0.05 then
    let xx := CreateFMul F pos X X
    let s := sqrtN xx.1 pos X 3
    let r := CreateFMul s.1 pos xx.2 s.2
    (r.1, some r.2)
  else if Double.fabs (ExpVal - 2.4) < 0.05 then
    let xx := CreateFMul F pos X X
    let s := sqrtN xx.1 pos X 2
    let r := CreateFMul s.1 pos xx.2 s.2
    (r.1, some r.2)
  else if Double.fabs (ExpVal - 1.8) < 0.05 then
    let xx := CreateFMul F pos X X
    let s := sqrtN xx.1 pos X 1
    let r := CreateFMul s.1 pos xx.2 s.2
    (r.1, some r.2)
  else if Double.fabs (ExpVal - 1.0 / 2.2) < 0.05 then
    let s := sqrtN F pos X 3
    let q := CreateCallSqrt s.1 pos X
    let r := CreateFMul q.1 pos s.2 q.2
    (r.1, some r.2)
  else if Double.fabs (ExpVal - 1.0 / 2.4) < 0.05 then
    let s := sqrtN F pos X 3
    (s.1, some s.2)
  else if Double.fabs (ExpVal - 1.0 / 1.8) < 0.05 then
    let q := CreateCallSqrt F pos X
    let s := sqrtN q.1 pos X 2
    let r := CreateFMul s.1 pos q.2 s.2
    (r.1, some r.2)
  else (F, none)

/-- Whether the text starts with the pattern. -/
def startsWithChars : List Char → List Char → Bool
  | [], _ => true
  | _ :: _, [] => false
  | p :: ps, c :: cs => p == c && startsWithChars ps cs

/-- Whether the pattern occurs in the text. -/
def containsChars (pat : List Char) : List Char → Bool
  | [] => pat.isEmpty
  | c :: cs => startsWithChars pat (c :: cs) || containsChars pat cs

/-- `StringRef::contains`. -/
def nameContains (Name pat : String) : Bool := containsChars pat.data Name.data

/-- `dyn_cast<ConstantFP>` on a value, with the constant's value. -/
def asConstantFP (F : MathFunction) (v : ValueId) : Option Double :=
  match mathGetInst F v with
  | some _ => none
  | none =>
    match F.values.lookup v with
    | some (.constantFP q) => some q
    | _ => none

/-- Lines 357-372 of the source: the value of the floating initializer of the
global variable that `Exponent` loads from, when `Exponent` is such a load. -/
def loadedInitializer (F : MathFunction) (Exponent : ValueId) : Option Double :=
  match mathGetInst F Exponent with
  | some ⟨_, .load ptr⟩ =>
    match mathGetInst F ptr with
    | some _ => none
    | none =>
      match F.values.lookup ptr with
      | some (.globalVariable _ (some (.constantFP Val))) => some Val
      | _ => none
  | _ => none

/-- The body of the scan loop of `optimizeMathFunctions` for the instruction
`I` (lines 328-372): the function body afterwards and the replacement pushed on
the list for `I`, if any. -/
def mathStep (F : MathFunction) (I : ValueId) : MathFunction × Option ValueId :=
  match mathGetInst F I with
  | some ⟨_, .call (some Name) [X, Exponent0]⟩ =>
    if !(nameContains Name "pow" || nameContains Name "powf" ||
          nameContains Name "llvm.pow" || nameContains Name "cv::pow") then (F, none)
    else
      let Exponent := match mathGetInst F Exponent0 with
        | some ⟨_, .fpext src⟩ => src
        | _ => Exponent0
      let viaLoad (G : MathFunction) : MathFunction × Option ValueId :=
        match loadedInitializer G Exponent with
        | some Val => buildPowerApprox G I X Val
        | none => (G, none)
      match asConstantFP F Exponent with
      | some ExpVal =>
        match buildPowerApprox F I X ExpVal with
        | (F1, some Approx) => (F1, some Approx)
        | (F1, none) => viaLoad F1
      | none => viaLoad F
  | _ => (F, none)

/-- The scan loop of `optimizeMathFunctions` over the instructions `I` of the
function, with the list `Replacements` and the flag `Changed`. -/
def mathScan : List ValueId → MathFunction → List (ValueId × ValueId) → Bool →
    MathFunction × List (ValueId × ValueId) × Bool
  | [], F, Replacements, Changed => (F, Replacements, Changed)
  | I :: rest, F, Replacements, Changed =>
    match mathStep F I with
    | (F1, some Approx) => mathScan rest F1 (Replacements ++ [(I, Approx)]) true
    | (F1, none) => mathScan rest F1 Replacements Changed

/-- The loop over `Replacements` at the end of `optimizeMathFunctions`. -/
def applyReplacements : List (ValueId × ValueId) → MathFunction → MathFunction
  | [], F => F
  | (Old, NewV) :: rest, F =>
    applyReplacements rest (mathEraseFromParent (mathReplaceAllUsesWith F Old NewV) Old)

/-- Source `optimizeMathFunctions`: the returned flag and the body afterwards. -/
def optimizeMathFunctions (F : MathFunction) : Bool × MathFunction :=
  let scanned := mathScan (F.insts.map MathInst.id) F [] false
  (scanned.2.2, applyReplacements scanned.2.1 scanned.1)

/-- Expression trees over the base `x` of a power call. -/
inductive PowTree where
  | x
  | sqrt (t : PowTree)
  | mul (a b : PowTree)
  deriving DecidableEq, Repr

/-- The expression that `v` computes from the base `X` through `llvm.sqrt`
calls and `fmul` instructions; `fuel` bounds the depth that is followed. -/
def treeOf (F : MathFunction) (X : ValueId) : Nat → ValueId → Option PowTree
  | 0, _ => none
  | fuel + 1, v =>
    if v = X then some .x
    else
      match mathGetInst F v with
      | some ⟨_, .sqrt u⟩ => (treeOf F X fuel u).map PowTree.sqrt
      | some ⟨_, .fmul a b⟩ =>
        match treeOf F X fuel a, treeOf F X fuel b with
        | some ta, some tb => some (.mul ta tb)
        | _, _ => none
      | _ => none

/-- The approximation table of spec section 4.2 in priority order, each window
test evaluated in `double` arithmetic: the replacement of the first window that
holds, `none` when none holds. -/
def specPowerTable (e : Double) : Option PowTree :=
  let s3 : PowTree := .sqrt (.sqrt (.sqrt .x))
  if Double.fabs (e - 1.0 / 3.0) < 0.01 then some (.mul s3 s3)
  else if Double.fabs (e - 1.2) < 1e-3 then some (.mul .x s3)
  else if Double.fabs (e - 2.2) < 0.05 then some (.mul (.mul .x .x) s3)
  else if Double.fabs (e - 2.4) < 0.05 then some (.mul (.mul .x .x) (.sqrt (.sqrt .x)))
  else if Double.fabs (e - 1.8) < 0.05 then some (.mul (.mul .x .x) (.sqrt .x))
  else if Double.fabs (e - 1.0 / 2.2) < 0.05 then some (.mul s3 (.sqrt .x))
  else if Double.fabs (e - 1.0 / 2.4) < 0.05 then some s3
  else if Double.fabs (e - 1.0 / 1.8) < 0.05 then some (.mul (.sqrt .x) (.sqrt (.sqrt .x)))
  else none

/-- The approximation table of spec section 4.2 in priority order, with the
exponent and the window bounds taken as exact rationals: the replacement of the
first window that holds, `none` when none holds. -/
def specExactTable (e : ℚ) : Option PowTree :=
  let s3 : PowTree := .sqrt (.sqrt (.sqrt .x))
  if |e - 1 / 3| < 0.01 then some (.mul s3 s3)
  else if |e - 1.2| < 0.001 then some (.mul .x s3)
  else if |e - 2.2| < 0.05 then some (.mul (.mul .x .x) s3)
  else if |e - 2.4| < 0.05 then some (.mul (.mul .x .x) (.sqrt (.sqrt .x)))
  else if |e - 1.8| < 0.05 then some (.mul (.mul .x .x) (.sqrt .x))
  else if |e - 1 / 2.2| < 0.05 then some (.mul s3 (.sqrt .x))
  else if |e - 1 / 2.4| < 0.05 then some s3
  else if |e - 1 / 1.8| < 0.05 then some (.mul (.sqrt .x) (.sqrt (.sqrt .x)))
  else none

/-- The ConstantResolver of the spec: the literal floating constant behind an
exponent operand, after unwrapping at most one float-extension cast and at most
one load from a global variable with a floating initializer. -/
def specConstantResolver (F : MathFunction) (Exponent0 : ValueId) : Option Double :=
  let Exponent := match mathGetInst F Exponent0 with
    | some ⟨_, .fpext src⟩ => src
    | _ => Exponent0
  match asConstantFP F Exponent with
  | some q => some q
  | none => loadedInitializer F Exponent

/-- A call qualifies for the power rewrite, in the words of the spec: its callee
is a known function whose name contains `pow`, it has exactly two arguments, and
its second argument resolves to a constant inside a window of the table. -/
def specQualifies (F : MathFunction) (I : ValueId) : Prop :=
  ∃ Name X Exponent0 q T,
    mathGetInst F I = some ⟨I, .call (some Name) [X, Exponent0]⟩ ∧
    nameContains Name "pow" = true ∧
    specConstantResolver F Exponent0 = some q ∧
    specPowerTable q = some T

/-- A function of two instructions `%3 = call pow(%1, %2); ret %3` with `%2` the
floating literal `e`. -/
def exPowLiteral (e : Double) : MathFunction :=
  ⟨[(1, .otherValue), (2, .constantFP e)],
   [⟨3, .call (some "pow") [1, 2]⟩, ⟨4, .otherMath 0 [3]⟩]⟩

/-- The same call with the exponent read from the global `%2`, whose
initializer is the floating literal `e`:
`%5 = load %2; %3 = call pow(%1, %5); ret %3`. -/
def exPowGlobal (isConstant : Bool) (e : Double) : MathFunction :=
  ⟨[(1, .otherValue), (2, .globalVariable isConstant (some (.constantFP e)))],
   [⟨5, .load 2⟩, ⟨3, .call (some "pow") [1, 5]⟩, ⟨4, .otherMath 0 [3]⟩]⟩

/-- The body `F'` extends `F` by instructions with new identities, the
instruction `pos` being in place: the values are the same, nothing of `F` is
lost and every identity known to `F` denotes in `F'` what it denotes in `F`. -/
def MathExtends (pos : ValueId) (F F' : MathFunction) : Prop :=
  F'.values = F.values ∧ mathIsLive F' pos = true ∧ mathFreshId F ≤ mathFreshId F' ∧
  (∀ u, u < mathFreshId F → mathGetInst F' u = mathGetInst F u) ∧
  (∀ i ∈ F.insts, i ∈ F'.insts)

/-- In `F`, where the builder is positioned at `pos`, the known value `v`
computes the tree `T` from the known base `X` within depth `n`. -/
def TreeAt (pos X : ValueId) (F : MathFunction) (v : ValueId) (T : PowTree) (n : Nat) : Prop :=
  mathIsLive F pos = true ∧ X < mathFreshId F ∧ v < mathFreshId F ∧ treeOf F X n v = some T

/-- The exponent operand is the floating literal `e`, possibly under one
float-extension cast. -/
def specLiteralOperand (F : MathFunction) (E : ValueId) (e : Double) : Prop :=
  asConstantFP F E = some e ∨
  ∃ c, mathGetInst F E = some ⟨E, .fpext c⟩ ∧ asConstantFP F c = some e

/-- The value `l` is a load from a global variable, declared constant or not
according to `isConstant`, whose initializer is the floating literal `e`. -/
def specLoadOfGlobal (F : MathFunction) (l : ValueId) (isConstant : Bool) (e : Double) : Prop :=
  ∃ g, mathGetInst F l = some ⟨l, .load g⟩ ∧ mathGetInst F g = none ∧
    F.values.lookup g = some (.globalVariable isConstant (some (.constantFP e)))

/-- The exponent operand is a load from a global variable whose initializer is
the floating literal `e`, the load possibly under one float-extension cast. -/
def specGlobalOperand (F : MathFunction) (E : ValueId) (isConstant : Bool) (e : Double) : Prop :=
  specLoadOfGlobal F E isConstant e ∨
  ∃ l, mathGetInst F E = some ⟨E, .fpext l⟩ ∧ specLoadOfGlobal F l isConstant e

/-- The list `Replacements` that the scan of `optimizeMathFunctions` collects:
pairs of a call and the value that replaces it. -/
def replacements (F : MathFunction) : List (ValueId × ValueId) :=
  (mathScan (F.insts.map MathInst.id) F [] false).2.1

/-- Where an operand slot ends up pointing once the replacements have been
applied in order. -/
def redirect : List (ValueId × ValueId) → ValueId → ValueId
  | [], v => v
  | (Old, NewV) :: rest, v => redirect rest (subst Old NewV v)

/-- Body `%3 = call pow(%1, 2.2); %4 = call printf(%3)`, with `%2` the literal. -/
def exPowUser : MathFunction :=
  ⟨[(1, .otherValue), (2, .constantFP 2.2)],
   [⟨3, .call (some "pow") [1, 2]⟩, ⟨4, .call (some "printf") [3]⟩]⟩

/-- The instruction `a` is not a square root or a product. -/
def NotNode (G : MathFunction) (a : ValueId) : Prop :=
  (∀ u, mathGetInst G a ≠ some ⟨a, .sqrt u⟩) ∧ ∀ x y, mathGetInst G a ≠ some ⟨a, .fmul x y⟩

/-- The call `I` of `F` passes the filter of `optimizeMathFunctions` with base
`X`, and its exponent resolves to a constant whose table entry is `T`. -/
def QualifiesWith (F : MathFunction) (I X : ValueId) (T : PowTree) : Prop :=
  ∃ Name Exponent0 q,
    mathGetInst F I = some ⟨I, .call (some Name) [X, Exponent0]⟩ ∧
    nameContains Name "pow" = true ∧
    specConstantResolver F Exponent0 = some q ∧
    specPowerTable q = some T

/-- The scan order respects uses, the premise of the idempotence claim: every
instruction is one object (identities are not repeated), and no instruction
uses itself or an instruction that comes later in the scan. -/
def DefBeforeUse (F : Function) : Prop :=
  (F.insts.map Instruction.id).Nodup ∧
  (∀ i ∈ F.insts, i.id ∉ i.operands) ∧
  F.insts.Pairwise (fun i j => j.id ∉ i.operands)

/-- The function `rk` ranks every operand below the instruction that uses it. -/
def Ranked (rk : ValueId → ℚ) (G : Function) : Prop :=
  ∀ i ∈ G.insts, ∀ v ∈ i.operands, rk v < rk i.id

/-- Position of `v` in the scan of a list of instructions, counted from 1;
0 for what is not an instruction of the list. -/
def scanRank : List Instruction → ValueId → Nat
  | [], _ => 0
  | i :: rest, v =>
    if v = i.id then 1 else if scanRank rest v = 0 then 0 else scanRank rest v + 1

/-- The value `v` is `s`, or an operand of an instruction reached from `s`. -/
inductive Reach (G : Function) (s : ValueId) : ValueId → Prop where
  | here : Reach G s s
  | step {u v : ValueId} {i : Instruction} :
      Reach G s u → getInst G u = some i → v ∈ i.operands → Reach G s v

/-- The instruction `v` is a select of the function. -/
def IsSelect (G : Function) (v : ValueId) : Prop :=
  ∃ τ blk c t f, getInst G v = some ⟨v, τ, blk, .select c t f⟩

/-- The loop of `optimizeClamp` with the counter `Count` of the source next to
`Changed`. -/
def clampLoopCount : List ValueId → Bool → Nat → Function → Option (Bool × Nat × Function)
  | [], Changed, Count, F => some (Changed, Count, F)
  | SI :: rest, Changed, Count, F =>
    match rewriteSelect F SI with
    | none => none
    | some (true, F') => clampLoopCount rest true (Count + 1) F'
    | some (false, F') => clampLoopCount rest Changed Count F'

/-- The number of selects `optimizeClamp` rewrote (the `Count` it prints), next
to its result. -/
def optimizeClampCount (F : Function) : Option (Bool × Nat × Function) :=
  clampLoopCount (selectWorklist F) false 0 F


/-- One successful rewrite seen from outside: `G'` is the rewire-then-erase tail
for `S`, `r` and `dead`, run on a body that extends `G` by new intrinsics only. -/
def RewriteStep (G G' : Function) (S r dead : ValueId) : Prop :=
  ∃ Gi, G' = commit Gi S r dead ∧ Gi.values = G.values ∧
    (∀ v, v < freshId G → getInst Gi v = getInst G v) ∧
    (∀ i ∈ Gi.insts, i ∈ G.insts ∨
      (freshId G ≤ i.id ∧ ∃ iid a b, i.kind = .intrinsic iid a b)) ∧
    freshId G ≤ r

/-- What holds between two iterations of the loop of `optimizeClamp`, with
`todo` the part of the worklist still to visit: the body is well formed and
ranked, the selects still to visit are in the body in rank order, and every
other select of the body has been rejected and ranks below them. -/
def LoopInv (G : Function) (todo : List ValueId) : Prop :=
  WellFormed G ∧ ∃ rk : ValueId → ℚ, Ranked rk G ∧
    todo.Pairwise (fun a b => rk a < rk b) ∧
    (∀ S ∈ todo, IsSelect G S) ∧
    ∀ s ∈ selectWorklist G,
      s ∈ todo ∨ (rewriteSelect G s = some (false, G) ∧ ∀ S ∈ todo, rk s < rk S)

/-! # Properties -/


/-! ## Integer semantics of the single pattern -/

theorem toSigned_inj (w a b : Nat) (ha : a < 2 ^ w) (hb : b < 2 ^ w)
    (h : toSigned w a = toSigned w b) : a = b := by
  unfold toSigned at h
  have hp : ((2 ^ w : Nat) : Int) = (2 : Int) ^ w := by push_cast; rfl
  generalize (2 : Int) ^ w = P at h hp
  generalize 2 ^ w = Q at ha hb hp
  generalize 2 ^ (w - 1) = H at h
  split at h <;> split at h <;> omega

/-- **C3.** The single-pattern rewrite preserves integer semantics: for `w`-bit
values of the operands, whenever the single pattern accepts an integer
comparison predicate and operand pairing and chooses the intrinsic `iid`, the
value of `iid (lhs, rhs)` is the value of `select(icmp pred lhs rhs, t, f)`. -/
theorem single_rewrite_int_semantics (w : Nat) (val : ValueId → Nat)
    (hval : ∀ v, val v < 2 ^ w) (pred : ICmpPred) (TrueVal FalseVal LHS RHS : ValueId)
    (k : ClampKind) (iid : IntrinsicID)
    (h : singleIntrinsic (.icmp pred) TrueVal FalseVal LHS RHS = some (k, iid)) :
    evalIntMinMax w iid (val LHS) (val RHS)
      = some (if evalICmp w pred (val LHS) (val RHS) then val TrueVal else val FalseVal) := by
  have inj := toSigned_inj w (val LHS) (val RHS) (hval LHS) (hval RHS)
  have key : (TrueVal = RHS ∧ FalseVal = LHS) ∨ (TrueVal = LHS ∧ FalseVal = RHS) := by
    by_contra hno
    rw [not_or] at hno
    cases pred <;>
      simp [singleIntrinsic, ICmpPred.isSigned, ICmpPred.isUnsigned, isIntLessPredicate,
        isIntGreaterPredicate, hno.1, hno.2] at h
  rcases key with ⟨rfl, rfl⟩ | ⟨rfl, rfl⟩
  · by_cases hAB : FalseVal = TrueVal
    · subst hAB
      cases pred <;>
        simp [singleIntrinsic, ICmpPred.isSigned, ICmpPred.isUnsigned, isIntLessPredicate,
          isIntGreaterPredicate] at h <;>
        obtain ⟨-, rfl⟩ := h <;> simp [evalIntMinMax]
    · have hBA : ¬ TrueVal = FalseVal := fun e => hAB e.symm
      cases pred <;>
        simp [singleIntrinsic, ICmpPred.isSigned, ICmpPred.isUnsigned, isIntLessPredicate,
          isIntGreaterPredicate, hAB, hBA] at h <;>
        obtain ⟨-, rfl⟩ := h <;>
        simp only [evalIntMinMax, evalICmp, decide_eq_true_eq, Option.some.injEq] <;>
        split <;> split <;> omega
  · by_cases hAB : TrueVal = FalseVal
    · subst hAB
      cases pred <;>
        simp [singleIntrinsic, ICmpPred.isSigned, ICmpPred.isUnsigned, isIntLessPredicate,
          isIntGreaterPredicate] at h <;>
        obtain ⟨-, rfl⟩ := h <;> simp [evalIntMinMax]
    · have hBA : ¬ FalseVal = TrueVal := fun e => hAB e.symm
      cases pred <;>
        simp [singleIntrinsic, ICmpPred.isSigned, ICmpPred.isUnsigned, isIntLessPredicate,
          isIntGreaterPredicate, hAB, hBA] at h <;>
        obtain ⟨-, rfl⟩ := h <;>
        simp only [evalIntMinMax, evalICmp, decide_eq_true_eq, Option.some.injEq] <;>
        split <;> split <;> omega

theorem single_rewrite_int_semantics_witness :
    evalIntMinMax 8 .smax 200 100
      = some (if evalICmp 8 .ICMP_SLT 200 100 then 100 else 200) :=
  single_rewrite_int_semantics 8 (fun v => if v = 1 then 200 else 100)
    (fun v => by
      show (if v = 1 then 200 else 100) < 2 ^ 8
      split <;> norm_num)
    .ICMP_SLT 2 1 1 2 .Max .smax (by decide)

/-! ## Basic facts about the graph primitives -/

theorem getInst_some {F : Function} {v : ValueId} {i : Instruction}
    (h : getInst F v = some i) : i ∈ F.insts ∧ i.id = v := by
  unfold getInst at h
  refine ⟨List.mem_of_find?_eq_some h, ?_⟩
  have := List.find?_some h
  simpa using this

theorem isLive_iff {F : Function} {v : ValueId} :
    isLive F v = true ↔ ∃ i ∈ F.insts, i.id = v := by
  unfold isLive getInst
  rw [List.find?_isSome]
  simp

theorem rewriteNestedSelectClamp_false {F F' : Function} {SI : ValueId}
    (h : rewriteNestedSelectClamp F SI = some (false, F')) : F' = F := by
  unfold rewriteNestedSelectClamp at h
  repeat' split at h
  all_goals first
    | exact (Prod.mk.inj (Option.some.inj h)).2.symm
    | (simp at h; done)
    | (simp at h; exact h.symm)
    | (dsimp only at h; split_ifs at h <;> first | (simp at h; done) | (simp at h; exact h.symm))

/-- **C4.** A rejected candidate leaves the graph untouched: when
`rewriteSelect` returns false, the function body after the call is the body
before it. -/
theorem rewriteSelect_false_unchanged (F F' : Function) (SI : ValueId)
    (h : rewriteSelect F SI = some (false, F')) : F' = F := by
  unfold rewriteSelect at h
  split at h
  · simp at h
  · simp at h
  · rename_i F0 hn
    have h0 : F0 = F := rewriteNestedSelectClamp_false hn
    subst h0
    repeat' split at h
    all_goals first
      | exact (Prod.mk.inj (Option.some.inj h)).2.symm
      | (simp at h; done)
      | (simp at h; exact h.symm)
      | (dsimp only at h; split_ifs at h <;> first | (simp at h; done) | (simp at h; exact h.symm))

theorem rewriteSelect_false_unchanged_witness :
    rewriteSelect exNoMatch 5 = some (false, exNoMatch) ∧ exNoMatch = exNoMatch :=
  ⟨by decide, rewriteSelect_false_unchanged exNoMatch exNoMatch 5 (by decide)⟩

theorem mem_insertBeforeList_of_mem {pos : ValueId} {n i : Instruction} {l : List Instruction}
    (h : i ∈ l) : i ∈ insertBeforeList pos n l := by
  induction l with
  | nil => cases h
  | cons a rest ih =>
    unfold insertBeforeList
    split
    · exact List.mem_cons_of_mem _ h
    · rcases List.mem_cons.1 h with rfl | h'
      · exact List.mem_cons_self _ _
      · exact List.mem_cons_of_mem _ (ih h')

theorem mem_insertBeforeList {pos : ValueId} {n i : Instruction} {l : List Instruction}
    (h : i ∈ insertBeforeList pos n l) : i = n ∨ i ∈ l := by
  induction l with
  | nil => cases h
  | cons a rest ih =>
    unfold insertBeforeList at h
    split at h
    · rcases List.mem_cons.1 h with rfl | h'
      · exact Or.inl rfl
      · exact Or.inr h'
    · rcases List.mem_cons.1 h with rfl | h'
      · exact Or.inr (List.mem_cons_self _ _)
      · rcases ih h' with e | m
        · exact Or.inl e
        · exact Or.inr (List.mem_cons_of_mem _ m)

theorem new_mem_insertBeforeList {pos : ValueId} {n : Instruction} {l : List Instruction}
    (h : ∃ j ∈ l, j.id = pos) : n ∈ insertBeforeList pos n l := by
  induction l with
  | nil => obtain ⟨j, hj, _⟩ := h; cases hj
  | cons a rest ih =>
    unfold insertBeforeList
    split
    · exact List.mem_cons_self _ _
    · rename_i hne
      obtain ⟨j, hj, hid⟩ := h
      rcases List.mem_cons.1 hj with rfl | h'
      · exact absurd hid hne
      · exact List.mem_cons_of_mem _ (ih ⟨j, h', hid⟩)

theorem isLive_insertBefore {F : Function} {p v : ValueId} {n : Instruction}
    (h : isLive F v = true) : isLive (insertBefore F p n) v = true := by
  rw [isLive_iff] at h ⊢
  obtain ⟨i, hi, hid⟩ := h
  exact ⟨i, mem_insertBeforeList_of_mem hi, hid⟩

theorem isLive_replaceAllUsesWith {F : Function} {a b v : ValueId} :
    isLive (replaceAllUsesWith F a b) v = true ↔ isLive F v = true := by
  rw [isLive_iff, isLive_iff]
  constructor
  · rintro ⟨i, hi, hid⟩
    obtain ⟨j, hj, rfl⟩ := List.mem_map.1 hi
    exact ⟨j, hj, hid⟩
  · rintro ⟨i, hi, hid⟩
    exact ⟨i.mapOperands (subst a b), List.mem_map.2 ⟨i, hi, rfl⟩, hid⟩

theorem isLive_eraseFromParent {F : Function} {s v : ValueId} :
    isLive (eraseFromParent F s) v = true ↔ isLive F v = true ∧ v ≠ s := by
  rw [isLive_iff, isLive_iff]
  constructor
  · rintro ⟨i, hi, hid⟩
    have hm := List.mem_filter.1 hi
    refine ⟨⟨i, hm.1, hid⟩, ?_⟩
    have := hm.2
    simp at this
    rw [← hid]; exact this
  · rintro ⟨⟨i, hi, hid⟩, hne⟩
    refine ⟨i, List.mem_filter.2 ⟨hi, ?_⟩, hid⟩
    simp [hid, hne]

theorem asCmp_some {F : Function} {v : ValueId} {p : CmpPredicate} {l r : ValueId}
    (h : asCmp F v = some (p, l, r)) :
    ∃ ty blk, getInst F v = some ⟨v, ty, blk, .cmp p l r⟩ := by
  unfold asCmp at h
  split at h
  · rename_i id ty blk p' l' r' heq
    simp at h
    obtain ⟨rfl, rfl, rfl⟩ := h
    have := (getInst_some heq).2
    simp at this
    subst this
    exact ⟨ty, blk, heq⟩
  · simp at h

/-- The rewrite tail finds the comparison still in place. -/
theorem isLive_after_rewire {F : Function} {S d r : ValueId} {n : Instruction}
    (hd : isLive F d = true) (hne : d ≠ S) :
    isLive (eraseFromParent (replaceAllUsesWith (insertBefore F S n) S r) S) d = true := by
  rw [isLive_eraseFromParent, isLive_replaceAllUsesWith]
  exact ⟨isLive_insertBefore hd, hne⟩

theorem rewriteSelect_single_eq {F : Function} {S C t f lhs rhs : ValueId} {τ opTy : Ty}
    {blk : Nat} {pred : CmpPredicate} {k : ClampKind} {iid : IntrinsicID}
    (hS : getInst F S = some ⟨S, τ, blk, .select C t f⟩)
    (hN : rewriteNestedSelectClamp F S = some (false, F))
    (hC : asCmp F C = some (pred, lhs, rhs))
    (hty : τ.getScalarType.isIntegerTy = true ∨ τ.getScalarType.isFloatingPointTy = true)
    (hk : singleIntrinsic pred t f lhs rhs = some (k, iid))
    (hop : getType F lhs = some opTy) :
    rewriteSelect F S = some (true,
      commit (insertBefore F S ⟨freshId F, opTy, blk, .intrinsic iid lhs rhs⟩) S (freshId F) C) := by
  obtain ⟨cty, cblk, hCi⟩ := asCmp_some hC
  have hCS : C ≠ S := by
    rintro rfl
    rw [hS] at hCi
    simp at hCi
  have hlive : isLive F C = true := by simp [isLive, hCi]
  have hl := isLive_after_rewire (S := S) (r := freshId F)
    (n := ⟨freshId F, opTy, blk, .intrinsic iid lhs rhs⟩) hlive hCS
  have hty' : (!τ.getScalarType.isIntegerTy && !τ.getScalarType.isFloatingPointTy) = false := by
    rcases hty with h | h <;> simp [h]
  unfold rewriteSelect
  rw [hN]
  simp only [hS, hC, hk, hop, hty', hl, commit, Bool.false_eq_true, if_false, if_true]
  split <;> rfl

theorem rewriteNestedSelectClamp_not_select {F : Function} {S C t f : ValueId} {τ : Ty}
    {blk : Nat} (hS : getInst F S = some ⟨S, τ, blk, .select C t f⟩)
    (hnot : ∀ i, getInst F t = some i → ∀ c x y, i.kind ≠ .select c x y) :
    rewriteNestedSelectClamp F S = some (false, F) := by
  unfold rewriteNestedSelectClamp
  simp only [hS]
  split
  · rename_i heq
    exact absurd rfl (hnot _ heq _ _ _)
  · rfl

theorem singleIntrinsic_less_max {pred : CmpPredicate} (h : specLessFamily pred = true)
    (lhs rhs : ValueId) :
    ∃ b, specBuiltin .Max (specDomain pred) = some b ∧
      singleIntrinsic pred rhs lhs lhs rhs = some (.Max, b) := by
  rcases pred with p | p <;> cases p <;>
    simp [specLessFamily] at h <;>
    simp [singleIntrinsic, specBuiltin, specDomain, ICmpPred.isSigned, ICmpPred.isUnsigned,
      isIntLessPredicate, isIntGreaterPredicate, isFloatLessPredicate, isFloatGreaterPredicate]

theorem singleIntrinsic_less_min {pred : CmpPredicate} (h : specLessFamily pred = true)
    {lhs rhs : ValueId} (hne : lhs ≠ rhs) :
    ∃ b, specBuiltin .Min (specDomain pred) = some b ∧
      singleIntrinsic pred lhs rhs lhs rhs = some (.Min, b) := by
  rcases pred with p | p <;> cases p <;>
    simp [specLessFamily] at h <;>
    simp [singleIntrinsic, specBuiltin, specDomain, ICmpPred.isSigned, ICmpPred.isUnsigned,
      isIntLessPredicate, isIntGreaterPredicate, isFloatLessPredicate, isFloatGreaterPredicate,
      hne]

theorem singleIntrinsic_greater_max {pred : CmpPredicate} (h : specGreaterFamily pred = true)
    (lhs rhs : ValueId) :
    ∃ b, specBuiltin .Max (specDomain pred) = some b ∧
      singleIntrinsic pred lhs rhs lhs rhs = some (.Max, b) := by
  rcases pred with p | p <;> cases p <;>
    simp [specGreaterFamily] at h <;>
    simp [singleIntrinsic, specBuiltin, specDomain, ICmpPred.isSigned, ICmpPred.isUnsigned,
      isIntLessPredicate, isIntGreaterPredicate, isFloatLessPredicate, isFloatGreaterPredicate]

theorem singleIntrinsic_greater_min {pred : CmpPredicate} (h : specGreaterFamily pred = true)
    {lhs rhs : ValueId} (hne : lhs ≠ rhs) :
    ∃ b, specBuiltin .Min (specDomain pred) = some b ∧
      singleIntrinsic pred rhs lhs lhs rhs = some (.Min, b) := by
  have hne' : ¬ rhs = lhs := fun e => hne e.symm
  rcases pred with p | p <;> cases p <;>
    simp [specGreaterFamily] at h <;>
    simp [singleIntrinsic, specBuiltin, specDomain, ICmpPred.isSigned, ICmpPred.isUnsigned,
      isIntLessPredicate, isIntGreaterPredicate, isFloatLessPredicate, isFloatGreaterPredicate,
      hne, hne']

theorem singleIntrinsic_no_pairing {pred : CmpPredicate} {t f lhs rhs : ValueId}
    (h1 : ¬ (t = rhs ∧ f = lhs)) (h2 : ¬ (t = lhs ∧ f = rhs)) :
    singleIntrinsic pred t f lhs rhs = none := by
  rcases pred with p | p <;> cases p <;>
    simp [singleIntrinsic, ICmpPred.isSigned, ICmpPred.isUnsigned,
      isIntLessPredicate, isIntGreaterPredicate, isFloatLessPredicate, isFloatGreaterPredicate,
      h1, h2]

/-- **C1.** Single pattern, less family: with `lhs ≠ rhs`, a true value that is
not a select, an integer or floating scalar type and a less-family predicate,
`select(cmp(pred, lhs, rhs), rhs, lhs)` is replaced by the Max builtin of the
predicate's domain applied to `(lhs, rhs)` and `select(cmp(pred, lhs, rhs), lhs,
rhs)` by the Min builtin; `rewriteSelect` returns true. -/
theorem rewriteSelect_less_family (F : Function) (S C t f lhs rhs : ValueId) (τ opTy : Ty)
    (blk : Nat) (pred : CmpPredicate)
    (hS : getInst F S = some ⟨S, τ, blk, .select C t f⟩)
    (hC : asCmp F C = some (pred, lhs, rhs))
    (hne : lhs ≠ rhs)
    (hnot : ∀ i, getInst F t = some i → ∀ c x y, i.kind ≠ .select c x y)
    (hty : τ.getScalarType.isIntegerTy = true ∨ τ.getScalarType.isFloatingPointTy = true)
    (hless : specLessFamily pred = true)
    (hop : getType F lhs = some opTy) :
    (t = rhs ∧ f = lhs →
      ∃ b, specBuiltin .Max (specDomain pred) = some b ∧
        rewriteSelect F S = some (true,
          commit (insertBefore F S ⟨freshId F, opTy, blk, .intrinsic b lhs rhs⟩) S (freshId F) C)) ∧
    (t = lhs ∧ f = rhs →
      ∃ b, specBuiltin .Min (specDomain pred) = some b ∧
        rewriteSelect F S = some (true,
          commit (insertBefore F S ⟨freshId F, opTy, blk, .intrinsic b lhs rhs⟩) S (freshId F) C)) := by
  have hN := rewriteNestedSelectClamp_not_select hS hnot
  constructor
  · rintro ⟨rfl, rfl⟩
    obtain ⟨b, hb, hk⟩ := singleIntrinsic_less_max hless f t
    exact ⟨b, hb, rewriteSelect_single_eq hS hN hC hty hk hop⟩
  · rintro ⟨rfl, rfl⟩
    obtain ⟨b, hb, hk⟩ := singleIntrinsic_less_min hless hne
    exact ⟨b, hb, rewriteSelect_single_eq hS hN hC hty hk hop⟩

/-- **C2 (as amended).** Single pattern, greater family: with `lhs ≠ rhs`, a
true value that is not a select, an integer or floating scalar type and a
greater-family predicate, `select(cmp(pred, lhs, rhs), lhs, rhs)` is replaced by
the Max builtin of the predicate's domain applied to `(lhs, rhs)` and
`select(cmp(pred, lhs, rhs), rhs, lhs)` by the Min builtin. -/
theorem rewriteSelect_greater_family (F : Function) (S C t f lhs rhs : ValueId) (τ opTy : Ty)
    (blk : Nat) (pred : CmpPredicate)
    (hS : getInst F S = some ⟨S, τ, blk, .select C t f⟩)
    (hC : asCmp F C = some (pred, lhs, rhs))
    (hne : lhs ≠ rhs)
    (hnot : ∀ i, getInst F t = some i → ∀ c x y, i.kind ≠ .select c x y)
    (hty : τ.getScalarType.isIntegerTy = true ∨ τ.getScalarType.isFloatingPointTy = true)
    (hgreater : specGreaterFamily pred = true)
    (hop : getType F lhs = some opTy) :
    (t = lhs ∧ f = rhs →
      ∃ b, specBuiltin .Max (specDomain pred) = some b ∧
        rewriteSelect F S = some (true,
          commit (insertBefore F S ⟨freshId F, opTy, blk, .intrinsic b lhs rhs⟩) S (freshId F) C)) ∧
    (t = rhs ∧ f = lhs →
      ∃ b, specBuiltin .Min (specDomain pred) = some b ∧
        rewriteSelect F S = some (true,
          commit (insertBefore F S ⟨freshId F, opTy, blk, .intrinsic b lhs rhs⟩) S (freshId F) C)) := by
  have hN := rewriteNestedSelectClamp_not_select hS hnot
  constructor
  · rintro ⟨rfl, rfl⟩
    obtain ⟨b, hb, hk⟩ := singleIntrinsic_greater_max hgreater t f
    exact ⟨b, hb, rewriteSelect_single_eq hS hN hC hty hk hop⟩
  · rintro ⟨rfl, rfl⟩
    obtain ⟨b, hb, hk⟩ := singleIntrinsic_greater_min hgreater hne
    exact ⟨b, hb, rewriteSelect_single_eq hS hN hC hty hk hop⟩

theorem rewriteSelect_less_family_witness :
    ∃ b, specBuiltin .Max (specDomain (.icmp .ICMP_SLT)) = some b ∧
      rewriteSelect exSltMax 4 = some (true,
        commit (insertBefore exSltMax 4 ⟨freshId exSltMax, i32, 0, .intrinsic b 1 2⟩) 4
          (freshId exSltMax) 3) :=
  (rewriteSelect_less_family exSltMax 4 3 2 1 1 2 i32 i32 0 (.icmp .ICMP_SLT)
    (by decide) (by decide) (by decide) (fun i h => by
      have hn : getInst exSltMax 2 = none := by decide
      rw [hn] at h
      cases h) (Or.inl rfl) rfl
    (by decide)).1 ⟨rfl, rfl⟩

/-- **C2 (counterexample).** For `%3 = icmp sgt %1, %2; %4 = select %3, %2, %1`
(greater family, true value the right operand, false value the left operand)
the clamp kind is Min and the select is replaced by `smin(%1, %2)`, not by a
max builtin. -/
theorem greater_swapped_is_min :
    specGreaterFamily (.icmp .ICMP_SGT) = true ∧
    getInst exSgtSwapped 4 = some ⟨4, i32, 0, .select 3 2 1⟩ ∧
    asCmp exSgtSwapped 3 = some (.icmp .ICMP_SGT, 1, 2) ∧
    singleIntrinsic (.icmp .ICMP_SGT) 2 1 1 2 = some (.Min, .smin) ∧
    rewriteSelect exSgtSwapped 4 = some (true,
      ⟨[(1, i32), (2, i32)], [⟨6, i32, 0, .intrinsic .smin 1 2⟩, retOf 5 6]⟩) := by
  decide

theorem rewriteSelect_greater_family_witness :
    ∃ b, specBuiltin .Min (specDomain (.icmp .ICMP_SGT)) = some b ∧
      rewriteSelect exSgtSwapped 4 = some (true,
        commit (insertBefore exSgtSwapped 4 ⟨freshId exSgtSwapped, i32, 0, .intrinsic b 1 2⟩) 4
          (freshId exSgtSwapped) 3) :=
  (rewriteSelect_greater_family exSgtSwapped 4 3 2 1 1 2 i32 i32 0 (.icmp .ICMP_SGT)
    (by decide) (by decide) (by decide) (fun i h => by
      have hn : getInst exSgtSwapped 2 = none := by decide
      rw [hn] at h
      cases h) (Or.inl rfl) rfl
    (by decide)).2 ⟨rfl, rfl⟩

theorem rewriteSelect_no_pairing {F : Function} {S C t f lhs rhs : ValueId} {τ : Ty}
    {blk : Nat} {pred : CmpPredicate}
    (hS : getInst F S = some ⟨S, τ, blk, .select C t f⟩)
    (hC : asCmp F C = some (pred, lhs, rhs))
    (h1 : ¬ (t = rhs ∧ f = lhs)) (h2 : ¬ (t = lhs ∧ f = rhs))
    (hN : rewriteNestedSelectClamp F S = some (false, F)) :
    rewriteSelect F S = some (false, F) := by
  unfold rewriteSelect
  rw [hN]
  simp only [hS, hC, singleIntrinsic_no_pairing h1 h2]
  split <;> rfl

theorem clampLoop_all_rejected {F : Function} (wl : List ValueId) (b : Bool)
    (h : ∀ S ∈ wl, rewriteSelect F S = some (false, F)) :
    clampLoop wl b F = some (b, F) := by
  induction wl with
  | nil => rfl
  | cons S rest ih =>
    unfold clampLoop
    rw [h S (List.mem_cons_self _ _)]
    exact ih (fun S' hS' => h S' (List.mem_cons_of_mem _ hS'))

/-- **C5 (counterexample).** In the nested clamp the outer select
`%7 = select(%6 = icmp sge %1, %2; %5; %2)` pairs neither `(rhs, lhs)` nor
`(lhs, rhs)` of its comparison, yet `rewriteSelect` rewrites it (through the
nested pattern) and returns true; the driver reports a change for a function
whose selects are fed by comparisons. -/
theorem nested_outer_rewritten_without_pairing :
    getInst (exNestedClamp 32 .ICMP_ULE .ICMP_UGE) 7 = some ⟨7, .int 32, 0, .select 6 5 2⟩ ∧
    asCmp (exNestedClamp 32 .ICMP_ULE .ICMP_UGE) 6 = some (.icmp .ICMP_UGE, 1, 2) ∧
    ¬ ((5 : ValueId) = 2 ∧ (2 : ValueId) = 1) ∧ ¬ ((5 : ValueId) = 1 ∧ (2 : ValueId) = 2) ∧
    rewriteSelect (exNestedClamp 32 .ICMP_ULE .ICMP_UGE) 7 = some (true,
      ⟨[(1, .int 32), (2, .int 32), (3, .int 32)],
       [⟨4, i1, 0, .cmp (.icmp .ICMP_ULE) 1 3⟩, ⟨6, i1, 0, .cmp (.icmp .ICMP_UGE) 1 2⟩,
        ⟨9, .int 32, 0, .intrinsic .umax 1 2⟩, ⟨10, .int 32, 0, .intrinsic .umin 9 3⟩,
        retOf 8 10]⟩) := by
  decide

/-- **C5 (as amended).** A select fed by a comparison whose `(t, f)` is neither
`(rhs, lhs)` nor `(lhs, rhs)` and which the nested pattern rejects is left
unmodified and `rewriteSelect` returns false; for a function all of whose
selects are of that kind `optimizeClamp` returns false and `run` returns the
verdict "all analyses preserved", the body being unchanged. -/
theorem no_pairing_no_change (F : Function) :
    (∀ S τ blk C t f pred lhs rhs,
      getInst F S = some ⟨S, τ, blk, .select C t f⟩ →
      asCmp F C = some (pred, lhs, rhs) →
      ¬ (t = rhs ∧ f = lhs) → ¬ (t = lhs ∧ f = rhs) →
      rewriteNestedSelectClamp F S = some (false, F) →
      rewriteSelect F S = some (false, F)) ∧
    ((∀ S ∈ selectWorklist F, ∃ τ blk C t f pred lhs rhs,
        getInst F S = some ⟨S, τ, blk, .select C t f⟩ ∧
        asCmp F C = some (pred, lhs, rhs) ∧
        ¬ (t = rhs ∧ f = lhs) ∧ ¬ (t = lhs ∧ f = rhs) ∧
        rewriteNestedSelectClamp F S = some (false, F)) →
      optimizeClamp F = some (false, F) ∧ run F = some (PreservedAnalyses.all, F)) := by
  refine ⟨fun S τ blk C t f pred lhs rhs hS hC h1 h2 hN =>
    rewriteSelect_no_pairing hS hC h1 h2 hN, fun hall => ?_⟩
  have hopt : optimizeClamp F = some (false, F) := by
    unfold optimizeClamp
    apply clampLoop_all_rejected
    intro S hS
    obtain ⟨τ, blk, C, t, f, pred, lhs, rhs, hS', hC, h1, h2, hN⟩ := hall S hS
    exact rewriteSelect_no_pairing hS' hC h1 h2 hN
  refine ⟨hopt, ?_⟩
  unfold run
  rw [hopt]
  rfl

theorem no_pairing_no_change_witness :
    rewriteSelect exNoMatch 5 = some (false, exNoMatch) ∧
    optimizeClamp exNoMatch = some (false, exNoMatch) ∧
    run exNoMatch = some (PreservedAnalyses.all, exNoMatch) :=
  ⟨(no_pairing_no_change exNoMatch).1 5 i32 0 4 3 1 (.icmp .ICMP_SLT) 1 2
      (by decide) (by decide) (by decide) (by decide) (by decide),
   (no_pairing_no_change exNoMatch).2 (by
      intro S hS
      have hS5 : S = 5 := by
        have : S ∈ [5] := hS
        simpa using this
      subst hS5
      exact ⟨i32, 0, 4, 3, 1, .icmp .ICMP_SLT, 1, 2, by decide, by decide, by decide,
        by decide, by decide⟩)⟩

/-! ## The nested pattern -/

theorem hasCmpWith_of_specGuardedBy {F : Function} {cond var : ValueId}
    (h : specGuardedBy F cond var) : hasCmpWith F cond var = true := by
  unfold hasCmpWith
  rcases h with ⟨ty, blk, p, l, r, hc, hv⟩ | ⟨ty, blk, x, y, hc, c, hcxy, ty', blk', p, l, r, hcc, hv⟩
  · rw [hc]
    rcases hv with rfl | rfl <;> simp
  · rw [hc]
    have hcmp : asCmp F c = some (p, l, r) := by simp [asCmp, hcc]
    have hlr : (l == var || r == var) = true := by
      rcases hv with rfl | rfl <;> simp
    rcases hcxy with rfl | rfl
    · simp only [hcmp, hlr, Bool.true_or]
    · simp only [hcmp, hlr, Bool.or_true]

theorem specGuardedBy_of_hasCmpWith {F : Function} {cond var : ValueId}
    (h : hasCmpWith F cond var = true) : specGuardedBy F cond var := by
  unfold hasCmpWith at h
  split at h
  · rename_i id ty blk p l r heq
    have hid := (getInst_some heq).2
    simp only at hid
    subst hid
    refine Or.inl ⟨ty, blk, p, l, r, heq, ?_⟩
    simpa using h
  · rename_i id ty blk x y heq
    have hid := (getInst_some heq).2
    simp only at hid
    subst hid
    rw [Bool.or_eq_true] at h
    rcases h with h | h
    · split at h
      · rename_i p l r hx
        obtain ⟨ty', blk', hx'⟩ := asCmp_some hx
        exact Or.inr ⟨ty, blk, x, y, heq, x, Or.inl rfl, ty', blk', p, l, r, hx', by simpa using h⟩
      · simp at h
    · split at h
      · rename_i p l r hy
        obtain ⟨ty', blk', hy'⟩ := asCmp_some hy
        exact Or.inr ⟨ty, blk, x, y, heq, y, Or.inr rfl, ty', blk', p, l, r, hy', by simpa using h⟩
      · simp at h
  · simp at h

theorem isLive_rewired {G : Function} {S d r : ValueId} :
    isLive (eraseFromParent (replaceAllUsesWith G S r) S) d = true ↔
      isLive G d = true ∧ d ≠ S := by
  rw [isLive_eraseFromParent, isLive_replaceAllUsesWith]

theorem rewriteNestedSelectClamp_eq {F : Function}
    {outer inner condOuter condInner var upper lower : ValueId} {τ τi : Ty} {blk blki : Nat}
    {MaxID MinID : IntrinsicID}
    (hO : getInst F outer = some ⟨outer, τ, blk, .select condOuter inner lower⟩)
    (hI : getInst F inner = some ⟨inner, τi, blki, .select condInner var upper⟩)
    (hdist : inner ≠ outer)
    (hvar : getType F var = some τ) (hup : getType F upper = some τ)
    (hlo : getType F lower = some τ)
    (hco : hasCmpWith F condOuter var = true) (hci : hasCmpWith F condInner var = true)
    (hint : nestedIntrinsics τ.getScalarType = some (MaxID, MinID)) :
    rewriteNestedSelectClamp F outer = some (true,
      commit (withClampChain F outer τ blk MaxID MinID var lower upper).1 outer
        (withClampChain F outer τ blk MaxID MinID var lower upper).2 inner) := by
  have hlive : isLive F inner = true := by simp [isLive, hI]
  have hl : isLive (eraseFromParent (replaceAllUsesWith
      (withClampChain F outer τ blk MaxID MinID var lower upper).1 outer
      (withClampChain F outer τ blk MaxID MinID var lower upper).2) outer) inner = true :=
    isLive_rewired.2 ⟨isLive_insertBefore (isLive_insertBefore hlive), hdist⟩
  unfold withClampChain at hl ⊢
  unfold rewriteNestedSelectClamp
  simp only [hO, hI, hvar, hup, hlo, hco, hci, hint, commit] at hl ⊢
  simp only [ne_eq, not_true_eq_false, or_self, if_false, Bool.not_true, Bool.or_self,
    Bool.false_eq_true, hl, if_true]
  split <;> rfl

/-- **C8.** Nested pattern applied to the outer select: when `inner` is a
select distinct from `outer`, `var`, `upper` and `lower` have the type of
`outer`, and both conditions are guarded by `var`, `rewriteSelect(outer)`
returns true with `t = max(var, lower)` and `r = min(t, upper)` inserted before
`outer`, every use of `outer` redirected to `r`, `outer` removed and `inner`
removed exactly when it is left without uses; the builtins are maxnum/minnum
for a floating scalar type and umax/umin for an integer one; for any other
scalar type `rewriteSelect` returns false and the body is unchanged. -/
theorem rewriteSelect_nested_clamp (F : Function)
    (outer inner condOuter condInner var upper lower : ValueId) (τ τi : Ty) (blk blki : Nat)
    (hO : getInst F outer = some ⟨outer, τ, blk, .select condOuter inner lower⟩)
    (hI : getInst F inner = some ⟨inner, τi, blki, .select condInner var upper⟩)
    (hdist : inner ≠ outer)
    (hvar : getType F var = some τ) (hup : getType F upper = some τ)
    (hlo : getType F lower = some τ)
    (hco : specGuardedBy F condOuter var) (hci : specGuardedBy F condInner var) :
    (τ.getScalarType.isFloatingPointTy = true →
      rewriteSelect F outer = some (true,
        commit (withClampChain F outer τ blk .maxnum .minnum var lower upper).1 outer
          (withClampChain F outer τ blk .maxnum .minnum var lower upper).2 inner)) ∧
    (τ.getScalarType.isIntegerTy = true →
      rewriteSelect F outer = some (true,
        commit (withClampChain F outer τ blk .umax .umin var lower upper).1 outer
          (withClampChain F outer τ blk .umax .umin var lower upper).2 inner)) ∧
    (τ.getScalarType.isFloatingPointTy = false → τ.getScalarType.isIntegerTy = false →
      rewriteSelect F outer = some (false, F)) := by
  have hco' := hasCmpWith_of_specGuardedBy hco
  have hci' := hasCmpWith_of_specGuardedBy hci
  refine ⟨fun hfp => ?_, fun hi => ?_, fun hnfp hni => ?_⟩
  · have hint : nestedIntrinsics τ.getScalarType = some (.maxnum, .minnum) := by
      simp [nestedIntrinsics, hfp]
    unfold rewriteSelect
    rw [rewriteNestedSelectClamp_eq hO hI hdist hvar hup hlo hco' hci' hint]
  · have hnfp : τ.getScalarType.isFloatingPointTy = false := by
      cases hτ : τ.getScalarType <;> simp [hτ, Ty.isIntegerTy, Ty.isFloatingPointTy] at hi ⊢
    have hint : nestedIntrinsics τ.getScalarType = some (.umax, .umin) := by
      simp [nestedIntrinsics, hi, hnfp]
    unfold rewriteSelect
    rw [rewriteNestedSelectClamp_eq hO hI hdist hvar hup hlo hco' hci' hint]
  · have hN : rewriteNestedSelectClamp F outer = some (false, F) := by
      unfold rewriteNestedSelectClamp
      simp [hO, hI, hvar, hup, hlo, hco', hci', nestedIntrinsics, hnfp, hni]
    unfold rewriteSelect
    rw [hN]
    simp only [hO, hni, hnfp]
    split <;> simp

theorem rewriteSelect_nested_clamp_witness :
    rewriteSelect (exNestedClamp 32 .ICMP_ULE .ICMP_UGE) 7 = some (true,
      commit (withClampChain (exNestedClamp 32 .ICMP_ULE .ICMP_UGE) 7 (.int 32) 0
          .umax .umin 1 2 3).1 7
        (withClampChain (exNestedClamp 32 .ICMP_ULE .ICMP_UGE) 7 (.int 32) 0
          .umax .umin 1 2 3).2 5) :=
  (rewriteSelect_nested_clamp (exNestedClamp 32 .ICMP_ULE .ICMP_UGE) 7 5 6 4 1 3 2
    (.int 32) (.int 32) 0 0 (by decide) (by decide) (by decide) (by decide) (by decide)
    (by decide)
    (Or.inl ⟨i1, 0, .icmp .ICMP_UGE, 1, 2, by decide, Or.inl rfl⟩)
    (Or.inl ⟨i1, 0, .icmp .ICMP_ULE, 1, 3, by decide, Or.inl rfl⟩)).2.1 rfl

/-! ## Shape of a successful rewrite -/

theorem le_foldr_max {l : List Nat} {x : Nat} (h : x ∈ l) : x ≤ l.foldr max 0 := by
  induction l with
  | nil => cases h
  | cons a rest ih =>
    simp only [List.foldr_cons]
    rcases List.mem_cons.1 h with rfl | h'
    · exact le_max_left _ _
    · exact le_trans (ih h') (le_max_right _ _)

theorem id_lt_freshId {F : Function} {i : Instruction} (h : i ∈ F.insts) :
    i.id < freshId F := by
  unfold freshId maxId
  apply Nat.lt_succ_of_le
  apply le_foldr_max
  simp only [List.mem_append, List.mem_map]
  exact Or.inl (Or.inr ⟨i, h, rfl⟩)

theorem not_isLive_freshId (F : Function) : isLive F (freshId F) = false := by
  rw [Bool.eq_false_iff]
  intro h
  obtain ⟨i, hi, hid⟩ := isLive_iff.1 h
  have hlt := id_lt_freshId hi
  rw [hid] at hlt
  exact lt_irrefl _ hlt

theorem isLive_of_getInst {F : Function} {v : ValueId} {i : Instruction}
    (h : getInst F v = some i) : isLive F v = true := by
  simp [isLive, h]

theorem select_ne_cmp {F : Function} {S C : ValueId} {τ : Ty} {blk : Nat} {c t f : ValueId}
    {p : CmpPredicate} {l r : ValueId}
    (hS : getInst F S = some ⟨S, τ, blk, .select c t f⟩)
    (hC : asCmp F C = some (p, l, r)) : C ≠ S := by
  obtain ⟨cty, cblk, hCi⟩ := asCmp_some hC
  rintro rfl
  rw [hS] at hCi
  simp at hCi

theorem getInst_select_id {F : Function} {S id : ValueId} {τ : Ty} {blk : Nat}
    {c t f : ValueId}
    (h : getInst F S = some ⟨id, τ, blk, .select c t f⟩) : id = S :=
  (getInst_some h).2

/-- Inversion of a successful `rewriteSelect`: the result is the rewire-then-erase
tail applied either to the nested chain (with the inner select as the
instruction that may die) or to the single new intrinsic (with the comparison
as the instruction that may die). -/
theorem rewriteSelect_true_shape {F F' : Function} {S : ValueId} {τ : Ty} {blk : Nat}
    {C t f : ValueId}
    (hS : getInst F S = some ⟨S, τ, blk, .select C t f⟩)
    (h : rewriteSelect F S = some (true, F')) :
    (∃ τi blki ci var upper mx mn,
        getInst F t = some ⟨t, τi, blki, .select ci var upper⟩ ∧ t ≠ S ∧
        F' = commit (withClampChain F S τ blk mx mn var f upper).1 S
          (withClampChain F S τ blk mx mn var f upper).2 t) ∨
    (∃ pred lhs rhs k iid opTy,
        asCmp F C = some (pred, lhs, rhs) ∧
        singleIntrinsic pred t f lhs rhs = some (k, iid) ∧
        getType F lhs = some opTy ∧
        F' = commit (insertBefore F S ⟨freshId F, opTy, blk, .intrinsic iid lhs rhs⟩) S
          (freshId F) C) := by
  unfold rewriteSelect at h
  split at h
  · simp at h
  · -- the nested pattern rewrote
    rename_i F1 hn
    have hF : F1 = F' := by simpa using h
    subst hF
    left
    unfold rewriteNestedSelectClamp at hn
    simp only [hS] at hn
    split at hn
    · rename_i iid τi blki ci var upper heq
      have hid : iid = t := getInst_select_id heq
      subst hid
      split_ifs at hn with h1 h2
      · simp at hn
      · simp at hn
      · split at hn
        · simp at hn
        · rename_i mx mn hint
          split_ifs at hn with hl hu
          · refine ⟨τi, blki, ci, var, upper, mx, mn, heq, (isLive_rewired.1 hl).2, ?_⟩
            simp only [Option.some.injEq, Prod.mk.injEq, true_and] at hn
            rw [← hn]
            simp [commit, withClampChain, hu]
          · refine ⟨τi, blki, ci, var, upper, mx, mn, heq, (isLive_rewired.1 hl).2, ?_⟩
            simp only [Option.some.injEq, Prod.mk.injEq, true_and] at hn
            rw [← hn]
            simp [commit, withClampChain, hu]
    · simp at hn
  · rename_i F0 hn
    have h0 : F0 = F := rewriteNestedSelectClamp_false hn
    subst h0
    right
    simp only [hS] at h
    split at h
    · simp at h
    · rename_i pred lhs rhs hC
      split_ifs at h with hty
      · simp at h
      · split at h
        · simp at h
        · rename_i k iid hk
          split at h
          · simp at h
          · rename_i opTy hop
            split_ifs at h with hl hu
            · refine ⟨pred, lhs, rhs, k, iid, opTy, hC, hk, hop, ?_⟩
              simp only [Option.some.injEq, Prod.mk.injEq, true_and] at h
              rw [← h]
              simp [commit, hu]
            · refine ⟨pred, lhs, rhs, k, iid, opTy, hC, hk, hop, ?_⟩
              simp only [Option.some.injEq, Prod.mk.injEq, true_and] at h
              rw [← h]
              simp [commit, hu]

/-- A `false` result of `rewriteSelect` comes with the body it was given. -/
theorem rewriteSelect_rejected_body {F F' : Function} {SI : ValueId}
    (h : rewriteSelect F SI = some (false, F')) : F' = F := by
  unfold rewriteSelect at h
  split at h
  · simp at h
  · simp at h
  · rename_i F0 hn
    have h0 : F0 = F := rewriteNestedSelectClamp_false hn
    subst h0
    repeat' split at h
    all_goals first
      | exact (Prod.mk.inj (Option.some.inj h)).2.symm
      | (simp at h; done)
      | (simp at h; exact h.symm)
      | (dsimp only at h; split_ifs at h <;> first | (simp at h; done) | (simp at h; exact h.symm))

/-! ## The rewire-then-erase tail keeps the graph valid -/

theorem operands_mapOperands (g : ValueId → ValueId) (i : Instruction) :
    (i.mapOperands g).operands = i.operands.map g := by
  obtain ⟨id, ty, blk, k⟩ := i
  cases k <;> rfl

theorem use_empty_iff {F : Function} {v : ValueId} :
    use_empty F v = true ↔ ∀ i ∈ F.insts, v ∉ i.operands := by
  unfold use_empty
  simp [List.all_eq_true]

theorem mem_rewired {G : Function} {S r : ValueId} {i : Instruction} :
    i ∈ (eraseFromParent (replaceAllUsesWith G S r) S).insts ↔
      ∃ j ∈ G.insts, j.id ≠ S ∧ i = j.mapOperands (subst S r) := by
  simp only [eraseFromParent, replaceAllUsesWith, List.mem_filter, List.mem_map]
  constructor
  · rintro ⟨⟨j, hj, rfl⟩, hne⟩
    refine ⟨j, hj, ?_, rfl⟩
    simpa [Instruction.mapOperands] using hne
  · rintro ⟨j, hj, hne, rfl⟩
    refine ⟨⟨j, hj, rfl⟩, ?_⟩
    simpa [Instruction.mapOperands] using hne

theorem commit_eq (G : Function) (S r dead : ValueId) :
    commit G S r dead =
      if use_empty (eraseFromParent (replaceAllUsesWith G S r) S) dead = true then
        eraseFromParent (eraseFromParent (replaceAllUsesWith G S r) S) dead
      else eraseFromParent (replaceAllUsesWith G S r) S := rfl

theorem mem_commit {G : Function} {S r dead : ValueId} {i : Instruction}
    (h : i ∈ (commit G S r dead).insts) :
    i ∈ (eraseFromParent (replaceAllUsesWith G S r) S).insts ∧
      (use_empty (eraseFromParent (replaceAllUsesWith G S r) S) dead = true → i.id ≠ dead) := by
  rw [commit_eq] at h
  split at h
  · rename_i hu
    have hm := List.mem_filter.1 h
    refine ⟨hm.1, fun _ => ?_⟩
    simpa using hm.2
  · rename_i hu
    exact ⟨h, fun hu' => absurd hu' hu⟩

theorem mem_commit_of {G : Function} {S r dead : ValueId} {i : Instruction}
    (h : i ∈ (eraseFromParent (replaceAllUsesWith G S r) S).insts)
    (hd : use_empty (eraseFromParent (replaceAllUsesWith G S r) S) dead = true → i.id ≠ dead) :
    i ∈ (commit G S r dead).insts := by
  rw [commit_eq]
  split
  · rename_i hu
    refine List.mem_filter.2 ⟨h, ?_⟩
    simpa using hd hu
  · exact h

theorem commit_values (G : Function) (S r dead : ValueId) :
    (commit G S r dead).values = G.values := by
  rw [commit_eq]
  split <;> rfl

theorem isLive_commit {G : Function} {S r dead v : ValueId} :
    isLive (commit G S r dead) v = true ↔
      isLive G v = true ∧ v ≠ S ∧
        (use_empty (eraseFromParent (replaceAllUsesWith G S r) S) dead = true → v ≠ dead) := by
  rw [commit_eq]
  split
  · rename_i hu
    rw [isLive_eraseFromParent, isLive_rewired]
    constructor
    · rintro ⟨⟨h1, h2⟩, h3⟩
      exact ⟨h1, h2, fun _ => h3⟩
    · rintro ⟨h1, h2, h3⟩
      exact ⟨⟨h1, h2⟩, h3 hu⟩
  · rename_i hu
    rw [isLive_rewired]
    constructor
    · rintro ⟨h1, h2⟩
      exact ⟨h1, h2, fun hu' => absurd hu' hu⟩
    · rintro ⟨h1, h2, _⟩
      exact ⟨h1, h2⟩

theorem not_mem_operands_rewired {G : Function} {S r : ValueId} (hrS : r ≠ S)
    {i : Instruction} (h : i ∈ (eraseFromParent (replaceAllUsesWith G S r) S).insts) :
    S ∉ i.operands := by
  obtain ⟨j, _, _, rfl⟩ := mem_rewired.1 h
  rw [operands_mapOperands]
  intro hm
  obtain ⟨u, _, hu⟩ := List.mem_map.1 hm
  unfold subst at hu
  split at hu
  · exact hrS hu
  · rename_i hne
    exact hne hu

theorem use_empty_commit_self {G : Function} {S r dead : ValueId} (hrS : r ≠ S) :
    use_empty (commit G S r dead) S = true := by
  rw [use_empty_iff]
  intro i hi
  exact not_mem_operands_rewired hrS (mem_commit hi).1

theorem use_empty_commit_dead {G : Function} {S r dead : ValueId}
    (hu : use_empty (eraseFromParent (replaceAllUsesWith G S r) S) dead = true) :
    use_empty (commit G S r dead) dead = true := by
  rw [use_empty_iff] at hu ⊢
  intro i hi
  exact hu i (mem_commit hi).1

theorem WellFormed_commit {G : Function} {S r dead : ValueId}
    (hG : WellFormed G) (hr : present G r) (hrS : r ≠ S) :
    WellFormed (commit G S r dead) := by
  intro i hi v hv
  obtain ⟨hi4, hid⟩ := mem_commit hi
  have hvS : v ≠ S := fun e => not_mem_operands_rewired hrS hi4 (e ▸ hv)
  have hvd : use_empty (eraseFromParent (replaceAllUsesWith G S r) S) dead = true → v ≠ dead := by
    intro hu e
    exact (use_empty_iff.1 hu) i hi4 (e ▸ hv)
  obtain ⟨j, hj, _, rfl⟩ := mem_rewired.1 hi4
  rw [operands_mapOperands] at hv
  obtain ⟨u, hu, rfl⟩ := List.mem_map.1 hv
  have hp : present G (subst S r u) := by
    unfold subst
    split
    · exact hr
    · exact hG j hj u hu
  rcases hp with hl | hval
  · exact Or.inl (isLive_commit.2 ⟨hl, hvS, hvd⟩)
  · right
    rw [commit_values]
    exact hval

theorem present_insertBefore {F : Function} {p v : ValueId} {n : Instruction}
    (h : present F v) : present (insertBefore F p n) v := by
  rcases h with h | h
  · exact Or.inl (isLive_insertBefore h)
  · exact Or.inr h

theorem WellFormed_insertBefore {F : Function} {p : ValueId} {n : Instruction}
    (hF : WellFormed F) (hn : ∀ v ∈ n.operands, present (insertBefore F p n) v) :
    WellFormed (insertBefore F p n) := by
  intro i hi v hv
  rcases mem_insertBeforeList hi with rfl | hi'
  · exact hn v hv
  · exact present_insertBefore (hF i hi' v hv)

theorem isLive_insertBefore_new {F : Function} {p : ValueId} {n : Instruction}
    (hp : isLive F p = true) : isLive (insertBefore F p n) n.id = true := by
  rw [isLive_iff] at hp ⊢
  exact ⟨n, new_mem_insertBeforeList hp, rfl⟩

/-- What the rewire-then-erase tail guarantees when it is run on a valid graph
`G` that extends `F` by new instructions, one of which is `r`. -/
theorem commit_valid {F G : Function} {S r dead : ValueId}
    (hsub : ∀ i ∈ F.insts, i ∈ G.insts)
    (hG : WellFormed G) (hr : isLive G r = true) (hrS : r ≠ S) :
    WellFormed (commit G S r dead) ∧
    (∀ v, isLive F v = true → isLive (commit G S r dead) v = false →
      use_empty (commit G S r dead) v = true) ∧
    isLive (commit G S r dead) S = false ∧
    (∀ J ∈ F.insts, isLive (commit G S r dead) J.id = true →
      J.mapOperands (subst S r) ∈ (commit G S r dead).insts) := by
  refine ⟨WellFormed_commit hG (Or.inl hr) hrS, ?_, ?_, ?_⟩
  · intro v hv hnl
    have hGv : isLive G v = true := by
      obtain ⟨i, hi, hid⟩ := isLive_iff.1 hv
      exact isLive_iff.2 ⟨i, hsub i hi, hid⟩
    by_cases hvS : v = S
    · subst hvS
      exact use_empty_commit_self hrS
    · by_cases hu : use_empty (eraseFromParent (replaceAllUsesWith G S r) S) dead = true
      · by_cases hvd : v = dead
        · subst hvd
          exact use_empty_commit_dead hu
        · have := (@isLive_commit G S r dead v).2
            ⟨hGv, hvS, fun _ => hvd⟩
          rw [this] at hnl
          cases hnl
      · have := (@isLive_commit G S r dead v).2
          ⟨hGv, hvS, fun hu' => absurd hu' hu⟩
        rw [this] at hnl
        cases hnl
  · rw [Bool.eq_false_iff]
    intro h
    exact (isLive_commit.1 h).2.1 rfl
  · intro J hJ hl
    obtain ⟨_, hJS, hJd⟩ := isLive_commit.1 hl
    exact mem_commit_of (mem_rewired.2 ⟨J, hsub J hJ, hJS, rfl⟩) hJd

/-! ## C6: the graph stays structurally valid -/

theorem lookup_isSome_of_mem {l : List (ValueId × Ty)} {v : ValueId}
    (h : v ∈ l.map Prod.fst) : ∃ ty, l.lookup v = some ty := by
  induction l with
  | nil => cases h
  | cons a rest ih =>
    obtain ⟨k, ty⟩ := a
    by_cases hk : v = k
    · subst hk
      exact ⟨ty, by simp [List.lookup]⟩
    · have hm : v ∈ rest.map Prod.fst := by
        rcases List.mem_cons.1 h with e | m
        · exact absurd e hk
        · exact m
      obtain ⟨ty', hty'⟩ := ih hm
      refine ⟨ty', ?_⟩
      have hb : (v == k) = false := by simpa using hk
      simp [List.lookup, hb, hty']

theorem getType_isSome_of_present {F : Function} {v : ValueId} (h : present F v) :
    ∃ ty, getType F v = some ty := by
  unfold getType
  split
  · exact ⟨_, rfl⟩
  · rcases h with hl | hv
    · rename_i hnone
      simp [isLive, hnone] at hl
    · exact lookup_isSome_of_mem hv

theorem rewriteNestedSelectClamp_defined {F : Function} {S C t f : ValueId} {τ : Ty}
    {blk : Nat} (hS : getInst F S = some ⟨S, τ, blk, .select C t f⟩) (hne : t ≠ S) :
    ∃ b F', rewriteNestedSelectClamp F S = some (b, F') := by
  unfold rewriteNestedSelectClamp
  simp only [hS]
  split
  · rename_i heq
    have hlt : isLive F t = true := isLive_of_getInst heq
    split_ifs
    · exact ⟨_, _, rfl⟩
    · exact ⟨_, _, rfl⟩
    · split
      · exact ⟨_, _, rfl⟩
      · rw [if_pos (isLive_rewired.2 ⟨isLive_insertBefore (isLive_insertBefore hlt), hne⟩)]
        split <;> exact ⟨_, _, rfl⟩
  · exact ⟨_, _, rfl⟩

theorem rewriteSelect_defined {F : Function} {S C t f : ValueId} {τ : Ty} {blk : Nat}
    (hwf : WellFormed F) (hS : getInst F S = some ⟨S, τ, blk, .select C t f⟩) (hne : t ≠ S) :
    ∃ b F', rewriteSelect F S = some (b, F') := by
  obtain ⟨b, F0, hN⟩ := rewriteNestedSelectClamp_defined hS hne
  unfold rewriteSelect
  rw [hN]
  cases b
  · have h0 : F0 = F := rewriteNestedSelectClamp_false hN
    subst h0
    simp only [hS]
    split
    · exact ⟨_, _, rfl⟩
    · rename_i pred lhs rhs hC
      obtain ⟨cty, cblk, hCi⟩ := asCmp_some hC
      have hpl : present F0 lhs :=
        hwf _ (getInst_some hCi).1 lhs (by simp [Instruction.operands, InstKind.operands])
      obtain ⟨opTy, hop⟩ := getType_isSome_of_present hpl
      split_ifs
      · exact ⟨_, _, rfl⟩
      · split
        · exact ⟨_, _, rfl⟩
        · simp only [hop]
          rw [if_pos (isLive_rewired.2
            ⟨isLive_insertBefore (isLive_of_getInst hCi), select_ne_cmp hS hC⟩)]
          split <;> exact ⟨_, _, rfl⟩
  · exact ⟨_, _, rfl⟩

theorem getInst_isSome_of_isLive {F : Function} {v : ValueId} (h : isLive F v = true) :
    ∃ i, getInst F v = some i := by
  unfold isLive at h
  exact Option.isSome_iff_exists.1 h

theorem use_empty_replaceAllUsesWith {G : Function} {S r : ValueId} (hrS : r ≠ S) :
    use_empty (replaceAllUsesWith G S r) S = true := by
  rw [use_empty_iff]
  intro i hi hm
  obtain ⟨j, _, rfl⟩ := List.mem_map.1 hi
  rw [operands_mapOperands] at hm
  obtain ⟨u, _, hu⟩ := List.mem_map.1 hm
  unfold subst at hu
  split at hu
  · exact hrS hu
  · rename_i hne
    exact hne hu

/-- **C6.** Insert-then-rewire-then-erase keeps the graph structurally valid.
For a well-formed function and a select `S` of it: `rewriteSelect` returns a
result whenever the true value of `S` is not `S` itself, and for every result
`(b, F')` the graph `F'` is well formed and no instruction of `F'` has an
operand that refers to an instruction erased by the call.  When `b` is true, `S`
is no longer in the function; `F'` is the rewire-then-erase tail run on a body
`G` that extends `F` by the new chain, so that `S` has no uses at the moment it
is erased and the other candidate is erased only when it has none; and the
result `r` of the chain is a new min/max intrinsic such that every instruction
of `F` still in `F'` appears there with each operand slot that held `S` now
holding `r`. -/
theorem rewriteSelect_keeps_graph_valid (F : Function) (S C t f : ValueId) (τ : Ty) (blk : Nat)
    (hwf : WellFormed F) (hS : getInst F S = some ⟨S, τ, blk, .select C t f⟩) :
    (t ≠ S → ∃ b F', rewriteSelect F S = some (b, F')) ∧
    ∀ b F', rewriteSelect F S = some (b, F') →
      WellFormed F' ∧
      (∀ v, isLive F v = true → isLive F' v = false → use_empty F' v = true) ∧
      (b = true →
        isLive F' S = false ∧
        ∃ G r dead, (∀ i ∈ F.insts, i ∈ G.insts) ∧ F' = commit G S r dead ∧
          use_empty (replaceAllUsesWith G S r) S = true ∧
          isLive F r = false ∧
          (∃ ty blk' iid x y, getInst F' r = some ⟨r, ty, blk', .intrinsic iid x y⟩) ∧
          ∀ J ∈ F.insts, isLive F' J.id = true →
            J.mapOperands (subst S r) ∈ F'.insts) := by
  refine ⟨rewriteSelect_defined hwf hS, ?_⟩
  intro b F' h
  have hSl : isLive F S = true := isLive_of_getInst hS
  have hSm := (getInst_some hS).1
  cases b
  · have := rewriteSelect_rejected_body h
    subst this
    refine ⟨hwf, ?_, fun hb => by cases hb⟩
    intro v hv hnv
    rw [hv] at hnv
    cases hnv
  · rcases rewriteSelect_true_shape hS h with
      ⟨τi, blki, ci, var, upper, mx, mn, hI, htS, rfl⟩ |
      ⟨pred, lhs, rhs, k, iid, opTy, hC, hk, hop, rfl⟩
    · -- nested chain
      have hIm := (getInst_some hI).1
      have hpvar : present F var :=
        hwf _ hIm var (by simp [Instruction.operands, InstKind.operands])
      have hpup : present F upper :=
        hwf _ hIm upper (by simp [Instruction.operands, InstKind.operands])
      have hplo : present F f :=
        hwf _ hSm f (by simp [Instruction.operands, InstKind.operands])
      have hG1 : WellFormed (insertBefore F S ⟨freshId F, τ, blk, .intrinsic mx var f⟩) := by
        apply WellFormed_insertBefore hwf
        intro v hv
        simp only [Instruction.operands, InstKind.operands, List.mem_cons,
          List.mem_singleton, List.not_mem_nil, or_false] at hv
        rcases hv with rfl | rfl
        · exact present_insertBefore hpvar
        · exact present_insertBefore hplo
      have hS1 : isLive (insertBefore F S ⟨freshId F, τ, blk, .intrinsic mx var f⟩) S = true :=
        isLive_insertBefore hSl
      have ht1 : isLive (insertBefore F S ⟨freshId F, τ, blk, .intrinsic mx var f⟩)
          (freshId F) = true :=
        isLive_insertBefore_new (n := ⟨freshId F, τ, blk, .intrinsic mx var f⟩) hSl
      have hG : WellFormed (withClampChain F S τ blk mx mn var f upper).1 := by
        unfold withClampChain
        apply WellFormed_insertBefore hG1
        intro v hv
        simp only [Instruction.operands, InstKind.operands, List.mem_cons,
          List.mem_singleton, List.not_mem_nil, or_false] at hv
        rcases hv with rfl | rfl
        · exact Or.inl (isLive_insertBefore ht1)
        · exact present_insertBefore (present_insertBefore hpup)
      have hr : isLive (withClampChain F S τ blk mx mn var f upper).1
          (withClampChain F S τ blk mx mn var f upper).2 = true := by
        unfold withClampChain
        exact isLive_insertBefore_new
          (n := ⟨freshId (insertBefore F S ⟨freshId F, τ, blk, .intrinsic mx var f⟩), τ, blk,
            .intrinsic mn (freshId F) upper⟩) hS1
      have hsub : ∀ i ∈ F.insts, i ∈ (withClampChain F S τ blk mx mn var f upper).1.insts :=
        fun i hi => mem_insertBeforeList_of_mem (mem_insertBeforeList_of_mem hi)
      have hrnl1 : ∀ v, isLive (insertBefore F S ⟨freshId F, τ, blk, .intrinsic mx var f⟩) v = true →
          v ≠ (withClampChain F S τ blk mx mn var f upper).2 := by
        intro v hv e
        have := not_isLive_freshId (insertBefore F S ⟨freshId F, τ, blk, .intrinsic mx var f⟩)
        rw [e] at hv
        unfold withClampChain at hv
        rw [this] at hv
        cases hv
      have hrnl : ∀ v, isLive F v = true →
          v ≠ (withClampChain F S τ blk mx mn var f upper).2 :=
        fun v hv => hrnl1 v (isLive_insertBefore hv)
      have hrS : (withClampChain F S τ blk mx mn var f upper).2 ≠ S := fun e => hrnl S hSl e.symm
      obtain ⟨h1, h2, h3, h4⟩ := @commit_valid F _ S _ t hsub hG hr hrS
      refine ⟨h1, h2, fun _ => ⟨h3, (withClampChain F S τ blk mx mn var f upper).1,
        (withClampChain F S τ blk mx mn var f upper).2, t, hsub, rfl,
        use_empty_replaceAllUsesWith hrS, ?_, ?_, h4⟩⟩
      · rw [Bool.eq_false_iff]
        intro hl
        exact hrnl _ hl rfl
      · have hlr : isLive (commit (withClampChain F S τ blk mx mn var f upper).1 S
            (withClampChain F S τ blk mx mn var f upper).2 t)
            (withClampChain F S τ blk mx mn var f upper).2 = true :=
          isLive_commit.2 ⟨hr, hrS, fun _ e => hrnl t (isLive_of_getInst hI) e.symm⟩
        obtain ⟨i, hi⟩ := getInst_isSome_of_isLive hlr
        obtain ⟨him, hid⟩ := getInst_some hi
        obtain ⟨j, hj, _, hij⟩ := mem_rewired.1 (mem_commit him).1
        have hjid : j.id = (withClampChain F S τ blk mx mn var f upper).2 := by
          rw [← hid, hij]; rfl
        unfold withClampChain at hj
        rcases mem_insertBeforeList hj with rfl | hj1
        · rw [hi, hij]
          exact ⟨_, _, _, _, _, rfl⟩
        · exact absurd hjid (hrnl1 _ (isLive_iff.2 ⟨j, hj1, rfl⟩))
    · -- single intrinsic
      obtain ⟨cty, cblk, hCi⟩ := asCmp_some hC
      have hCm := (getInst_some hCi).1
      have hpl : present F lhs :=
        hwf _ hCm lhs (by simp [Instruction.operands, InstKind.operands])
      have hpr : present F rhs :=
        hwf _ hCm rhs (by simp [Instruction.operands, InstKind.operands])
      have hG : WellFormed (insertBefore F S ⟨freshId F, opTy, blk, .intrinsic iid lhs rhs⟩) := by
        apply WellFormed_insertBefore hwf
        intro v hv
        simp only [Instruction.operands, InstKind.operands, List.mem_cons,
          List.mem_singleton, List.not_mem_nil, or_false] at hv
        rcases hv with rfl | rfl
        · exact present_insertBefore hpl
        · exact present_insertBefore hpr
      have hr : isLive (insertBefore F S ⟨freshId F, opTy, blk, .intrinsic iid lhs rhs⟩)
          (freshId F) = true :=
        isLive_insertBefore_new (n := ⟨freshId F, opTy, blk, .intrinsic iid lhs rhs⟩) hSl
      have hrnl : ∀ v, isLive F v = true → v ≠ freshId F := by
        intro v hv e
        rw [e, not_isLive_freshId] at hv
        cases hv
      have hrS : freshId F ≠ S := fun e => hrnl S hSl e.symm
      have hsub : ∀ i ∈ F.insts,
          i ∈ (insertBefore F S ⟨freshId F, opTy, blk, .intrinsic iid lhs rhs⟩).insts :=
        fun i hi => mem_insertBeforeList_of_mem hi
      obtain ⟨h1, h2, h3, h4⟩ := @commit_valid F _ S _ C hsub hG hr hrS
      refine ⟨h1, h2, fun _ => ⟨h3, _, freshId F, C, hsub, rfl,
        use_empty_replaceAllUsesWith hrS, not_isLive_freshId F, ?_, h4⟩⟩
      have hlr : isLive (commit (insertBefore F S ⟨freshId F, opTy, blk, .intrinsic iid lhs rhs⟩)
          S (freshId F) C) (freshId F) = true :=
        isLive_commit.2 ⟨hr, hrS, fun _ e => hrnl C (isLive_of_getInst hCi) e.symm⟩
      obtain ⟨i, hi⟩ := getInst_isSome_of_isLive hlr
      obtain ⟨him, hid⟩ := getInst_some hi
      obtain ⟨j, hj, _, hij⟩ := mem_rewired.1 (mem_commit him).1
      have hjid : j.id = freshId F := by
        rw [← hid, hij]; rfl
      rcases mem_insertBeforeList hj with rfl | hj1
      · rw [hi, hij]
        exact ⟨_, _, _, _, _, rfl⟩
      · exact absurd hjid (hrnl _ (isLive_iff.2 ⟨j, hj1, rfl⟩))

theorem rewriteSelect_keeps_graph_valid_witness :
    WellFormed exSltMax ∧ ∃ b F', rewriteSelect exSltMax 4 = some (b, F') ∧ WellFormed F' :=
  have hwf : WellFormed exSltMax := by
    unfold WellFormed present
    decide
  have hall := rewriteSelect_keeps_graph_valid exSltMax 4 3 2 1 i32 0 hwf (by decide)
  ⟨hwf, by
    obtain ⟨b, F', h⟩ := hall.1 (by decide)
    exact ⟨b, F', h, (hall.2 b F' h).1⟩⟩

/-! ## C7: uses of the select and of the comparison after the rewrite -/

theorem mem_operands_subst {S r C : ValueId} {j : Instruction} (hCr : C ≠ r)
    (h : C ∈ (j.mapOperands (subst S r)).operands) : C ∈ j.operands := by
  rw [operands_mapOperands] at h
  obtain ⟨u, hu, hsu⟩ := List.mem_map.1 h
  unfold subst at hsu
  split at hsu
  · exact absurd hsu.symm hCr
  · rw [← hsu]; exact hu

theorem mem_operands_subst_of {S r C : ValueId} {j : Instruction} (hCS : C ≠ S)
    (h : C ∈ j.operands) : C ∈ (j.mapOperands (subst S r)).operands := by
  rw [operands_mapOperands]
  refine List.mem_map.2 ⟨C, h, ?_⟩
  simp [subst, hCS]

/-- **C7 (counterexample).** In `%3 = icmp slt %1, %2; %4 = select %3, %2, %1;
br %3; ret %4` the rewrite of `%4` succeeds and the comparison `%3` still has a
use (the branch) afterwards. -/
theorem shared_comparison_keeps_its_use :
    getInst exSharedCmp 4 = some ⟨4, i32, 0, .select 3 2 1⟩ ∧
    asCmp exSharedCmp 3 = some (.icmp .ICMP_SLT, 1, 2) ∧
    rewriteSelect exSharedCmp 4 = some (true,
      ⟨[(1, i32), (2, i32)],
       [⟨3, i1, 0, .cmp (.icmp .ICMP_SLT) 1 2⟩, ⟨7, i32, 0, .intrinsic .smax 1 2⟩,
        ⟨5, .other 0, 0, .otherInst 1 [3]⟩, retOf 6 7]⟩) ∧
    use_empty ⟨[(1, i32), (2, i32)],
       [⟨3, i1, 0, .cmp (.icmp .ICMP_SLT) 1 2⟩, ⟨7, i32, 0, .intrinsic .smax 1 2⟩,
        ⟨5, .other 0, 0, .otherInst 1 [3]⟩, retOf 6 7]⟩ 3 = false := by
  decide

/-- **C7 (as amended).** For a select `S = select(C, rhs, lhs)` fed by a
comparison `C = cmp(lhs, rhs)` (in particular a signed less-family one): after
`rewriteSelect(S)` succeeds, `S` is no longer in the function and has zero
remaining uses, and `C` has zero remaining uses exactly when no instruction
other than `S` used it before the call. -/
theorem rewriteSelect_remaining_uses (F F' : Function) (S C lhs rhs : ValueId) (τ : Ty)
    (blk : Nat) (pred : CmpPredicate)
    (hS : getInst F S = some ⟨S, τ, blk, .select C rhs lhs⟩)
    (hC : asCmp F C = some (pred, lhs, rhs))
    (h : rewriteSelect F S = some (true, F')) :
    isLive F' S = false ∧ use_empty F' S = true ∧
    (use_empty F' C = true ↔ ∀ J ∈ F.insts, C ∈ J.operands → J.id = S) := by
  have hSl : isLive F S = true := isLive_of_getInst hS
  obtain ⟨cty, cblk, hCi⟩ := asCmp_some hC
  have hCm := (getInst_some hCi).1
  have hCl : isLive F C = true := isLive_of_getInst hCi
  have hCS : C ≠ S := select_ne_cmp hS hC
  have hfr : ∀ v, isLive F v = true → v ≠ freshId F := by
    intro v hv e
    rw [e, not_isLive_freshId] at hv
    cases hv
  -- the comparison keeps `rhs` as an operand through the rewiring
  have hCuse : ∀ (G : Function) (r : ValueId), (∀ i ∈ F.insts, i ∈ G.insts) → rhs ≠ S →
      use_empty (eraseFromParent (replaceAllUsesWith G S r) S) rhs = false := by
    intro G r hsub hrS
    rw [Bool.eq_false_iff]
    intro hu
    refine (use_empty_iff.1 hu) _ (mem_rewired.2 ⟨_, hsub _ hCm, hCS, rfl⟩) ?_
    exact mem_operands_subst_of hrS (by simp [Instruction.operands, InstKind.operands])
  -- a user of `C` other than `S` survives the rewiring
  have hJuse : ∀ (G : Function) (r : ValueId), (∀ i ∈ F.insts, i ∈ G.insts) →
      ∀ J ∈ F.insts, C ∈ J.operands → J.id ≠ S →
      use_empty (eraseFromParent (replaceAllUsesWith G S r) S) C = false := by
    intro G r hsub J hJ hJC hJS
    rw [Bool.eq_false_iff]
    intro hu
    exact (use_empty_iff.1 hu) _ (mem_rewired.2 ⟨J, hsub J hJ, hJS, rfl⟩)
      (mem_operands_subst_of hCS hJC)
  rcases rewriteSelect_true_shape hS h with
    ⟨τi, blki, ci, var, upper, mx, mn, hI, htS, rfl⟩ |
    ⟨pred', lhs', rhs', k, iid, opTy, hC', hk, hop, rfl⟩
  · -- nested chain: `rhs` is the inner select
    have hIm := (getInst_some hI).1
    have hS1 : isLive (insertBefore F S ⟨freshId F, τ, blk, .intrinsic mx var lhs⟩) S = true :=
      isLive_insertBefore hSl
    have hrnl1 : ∀ v, isLive (insertBefore F S ⟨freshId F, τ, blk, .intrinsic mx var lhs⟩) v = true →
        v ≠ (withClampChain F S τ blk mx mn var lhs upper).2 := by
      intro v hv e
      have := not_isLive_freshId (insertBefore F S ⟨freshId F, τ, blk, .intrinsic mx var lhs⟩)
      rw [e] at hv
      unfold withClampChain at hv
      rw [this] at hv
      cases hv
    have hrnl : ∀ v, isLive F v = true →
        v ≠ (withClampChain F S τ blk mx mn var lhs upper).2 :=
      fun v hv => hrnl1 v (isLive_insertBefore hv)
    have hrS : (withClampChain F S τ blk mx mn var lhs upper).2 ≠ S :=
      fun e => hrnl S hSl e.symm
    have hsub : ∀ i ∈ F.insts, i ∈ (withClampChain F S τ blk mx mn var lhs upper).1.insts :=
      fun i hi => mem_insertBeforeList_of_mem (mem_insertBeforeList_of_mem hi)
    have hkeep := hCuse _ (withClampChain F S τ blk mx mn var lhs upper).2 hsub htS
    refine ⟨?_, use_empty_commit_self hrS, ?_, ?_⟩
    · rw [Bool.eq_false_iff]
      intro hl
      exact (isLive_commit.1 hl).2.1 rfl
    · intro hu J hJ hJC
      by_contra hJS
      have hm : J.mapOperands (subst S (withClampChain F S τ blk mx mn var lhs upper).2) ∈
          (commit (withClampChain F S τ blk mx mn var lhs upper).1 S
            (withClampChain F S τ blk mx mn var lhs upper).2 rhs).insts :=
        mem_commit_of (mem_rewired.2 ⟨J, hsub J hJ, hJS, rfl⟩)
          (fun hd => by rw [hkeep] at hd; cases hd)
      exact (use_empty_iff.1 hu) _ hm (mem_operands_subst_of hCS hJC)
    · intro hall
      rw [use_empty_iff]
      intro i hi hCi'
      obtain ⟨j, hj, hjS, rfl⟩ := mem_rewired.1 (mem_commit hi).1
      have hCj : C ∈ j.operands := mem_operands_subst (hrnl C hCl) hCi'
      unfold withClampChain at hj
      rcases mem_insertBeforeList hj with rfl | hj1
      · simp only [Instruction.operands, InstKind.operands, List.mem_cons,
          List.mem_singleton, List.not_mem_nil, or_false] at hCj
        rcases hCj with e | e
        · exact hfr C hCl e
        · have := hall _ hIm (by simp [Instruction.operands, InstKind.operands, e])
          exact htS this
      · rcases mem_insertBeforeList hj1 with rfl | hj2
        · simp only [Instruction.operands, InstKind.operands, List.mem_cons,
            List.mem_singleton, List.not_mem_nil, or_false] at hCj
          rcases hCj with e | e
          · have := hall _ hIm (by simp [Instruction.operands, InstKind.operands, e])
            exact htS this
          · have := hall _ hCm (by simp [Instruction.operands, InstKind.operands, e])
            exact hCS this
        · exact hjS (hall j hj2 hCj)
  · -- single intrinsic
    rw [hC] at hC'
    simp only [Option.some.injEq, Prod.mk.injEq] at hC'
    obtain ⟨rfl, rfl, rfl⟩ := hC'
    have hrS : freshId F ≠ S := fun e => hfr S hSl e.symm
    have hsub : ∀ i ∈ F.insts,
        i ∈ (insertBefore F S ⟨freshId F, opTy, blk, .intrinsic iid lhs rhs⟩).insts :=
      fun i hi => mem_insertBeforeList_of_mem hi
    refine ⟨?_, use_empty_commit_self hrS, ?_, ?_⟩
    · rw [Bool.eq_false_iff]
      intro hl
      exact (isLive_commit.1 hl).2.1 rfl
    · intro hu J hJ hJC
      by_contra hJS
      have hkeep := hJuse _ (freshId F) hsub J hJ hJC hJS
      have hm : J.mapOperands (subst S (freshId F)) ∈
          (commit (insertBefore F S ⟨freshId F, opTy, blk, .intrinsic iid lhs rhs⟩) S
            (freshId F) C).insts :=
        mem_commit_of (mem_rewired.2 ⟨J, hsub J hJ, hJS, rfl⟩)
          (fun hd => by rw [hkeep] at hd; cases hd)
      exact (use_empty_iff.1 hu) _ hm (mem_operands_subst_of hCS hJC)
    · intro hall
      rw [use_empty_iff]
      intro i hi hCi'
      obtain ⟨j, hj, hjS, rfl⟩ := mem_rewired.1 (mem_commit hi).1
      have hCj : C ∈ j.operands := mem_operands_subst (hfr C hCl) hCi'
      rcases mem_insertBeforeList hj with rfl | hj1
      · have := hall _ hCm (by
          simp only [Instruction.operands, InstKind.operands, List.mem_cons,
            List.mem_singleton, List.not_mem_nil, or_false] at hCj ⊢
          exact hCj)
        exact hCS this
      · exact hjS (hall j hj1 hCj)

theorem rewriteSelect_remaining_uses_witness :
    isLive (commit (insertBefore exSltMax 4 ⟨freshId exSltMax, i32, 0, .intrinsic .smax 1 2⟩) 4
        (freshId exSltMax) 3) 4 = false ∧
    use_empty (commit (insertBefore exSltMax 4 ⟨freshId exSltMax, i32, 0, .intrinsic .smax 1 2⟩) 4
        (freshId exSltMax) 3) 4 = true ∧
    (use_empty (commit (insertBefore exSltMax 4 ⟨freshId exSltMax, i32, 0, .intrinsic .smax 1 2⟩) 4
        (freshId exSltMax) 3) 3 = true ↔
      ∀ J ∈ exSltMax.insts, 3 ∈ J.operands → J.id = 4) :=
  rewriteSelect_remaining_uses exSltMax _ 4 3 1 2 i32 0 (.icmp .ICMP_SLT)
    (by decide) (by decide) (by decide)

/-! ## C9 and C10: the nested clamp through the driver, and its value -/

/-- **C9 (code at the failing input).** On the nested clamp
`inner = select(var <= hi, var, hi); outer = select(var >= lo, inner, lo)`, with
signed or with unsigned predicates, `optimizeClamp` visits `inner` first and
rewrites it by the single pattern to `min(var, hi)`; `outer` then no longer has a
select as true value, matches no pattern, and remains in the function: no max
builtin is created and the uses of `outer` still refer to the select. -/
theorem optimizeClamp_nested_clamp_keeps_outer :
    optimizeClamp (exNestedClamp 32 .ICMP_SLE .ICMP_SGE) = some (true,
      ⟨[(1, .int 32), (2, .int 32), (3, .int 32)],
       [⟨9, .int 32, 0, .intrinsic .smin 1 3⟩, ⟨6, i1, 0, .cmp (.icmp .ICMP_SGE) 1 2⟩,
        ⟨7, .int 32, 0, .select 6 9 2⟩, retOf 8 7]⟩) ∧
    optimizeClamp (exNestedClamp 32 .ICMP_ULE .ICMP_UGE) = some (true,
      ⟨[(1, .int 32), (2, .int 32), (3, .int 32)],
       [⟨9, .int 32, 0, .intrinsic .umin 1 3⟩, ⟨6, i1, 0, .cmp (.icmp .ICMP_UGE) 1 2⟩,
        ⟨7, .int 32, 0, .select 6 9 2⟩, retOf 8 7]⟩) := by
  decide

/-- **C10 (code at the failing input).** For 8-bit `var = 255` (that is -1),
`lo = 0`, `hi = 10` and signed comparisons, the nested select
`select(var >= lo, select(var <= hi, var, hi), lo)` has the value 0, while the
replacement `umin(umax(var, lo), hi)` that `rewriteSelect` puts in its place
through the nested pattern has the value 10. -/
theorem nested_rewrite_changes_signed_value :
    evalValue 8 (exNestedClamp 8 .ICMP_SLE .ICMP_SGE) (clampArgs 255 0 10) 5 7 = some 0 ∧
    rewriteSelect (exNestedClamp 8 .ICMP_SLE .ICMP_SGE) 7 = some (true,
      ⟨[(1, .int 8), (2, .int 8), (3, .int 8)],
       [⟨4, i1, 0, .cmp (.icmp .ICMP_SLE) 1 3⟩, ⟨6, i1, 0, .cmp (.icmp .ICMP_SGE) 1 2⟩,
        ⟨9, .int 8, 0, .intrinsic .umax 1 2⟩, ⟨10, .int 8, 0, .intrinsic .umin 9 3⟩,
        retOf 8 10]⟩) ∧
    evalValue 8
      ⟨[(1, .int 8), (2, .int 8), (3, .int 8)],
       [⟨4, i1, 0, .cmp (.icmp .ICMP_SLE) 1 3⟩, ⟨6, i1, 0, .cmp (.icmp .ICMP_SGE) 1 2⟩,
        ⟨9, .int 8, 0, .intrinsic .umax 1 2⟩, ⟨10, .int 8, 0, .intrinsic .umin 9 3⟩,
        retOf 8 10]⟩ (clampArgs 255 0 10) 5 10 = some 10 := by
  decide

/-! ## C17 and C19: the worklist traversal, and the value of an unsigned clamp -/

/-- **C17 (code at the failing input).** With the outer select of a nested
clamp laid out before the inner one, the worklist is `[%7, %5]`; the rewrite of
`%7` through the nested pattern erases `%7` and, since it is left without uses,
the inner select `%5`; the traversal then reaches the entry `%5`, which is no
longer in the function, and `optimizeClamp` has no defined result. -/
theorem worklist_entry_erased_before_visit :
    selectWorklist exOuterFirst = [7, 5] ∧
    rewriteSelect exOuterFirst 7 = some (true,
      ⟨[(1, i32), (2, i32), (3, i32)],
       [⟨10, .other 0, 0, .otherInst 2 []⟩,
        ⟨6, i1, 1, .cmp (.icmp .ICMP_UGE) 1 2⟩,
        ⟨12, i32, 1, .intrinsic .umax 1 2⟩, ⟨13, i32, 1, .intrinsic .umin 12 3⟩,
        ⟨8, .other 0, 1, .otherInst 0 [13]⟩,
        ⟨4, i1, 2, .cmp (.icmp .ICMP_ULE) 1 3⟩,
        ⟨11, .other 0, 2, .otherInst 2 []⟩]⟩) ∧
    isLive ⟨[(1, i32), (2, i32), (3, i32)],
       [⟨10, .other 0, 0, .otherInst 2 []⟩,
        ⟨6, i1, 1, .cmp (.icmp .ICMP_UGE) 1 2⟩,
        ⟨12, i32, 1, .intrinsic .umax 1 2⟩, ⟨13, i32, 1, .intrinsic .umin 12 3⟩,
        ⟨8, .other 0, 1, .otherInst 0 [13]⟩,
        ⟨4, i1, 2, .cmp (.icmp .ICMP_ULE) 1 3⟩,
        ⟨11, .other 0, 2, .otherInst 2 []⟩]⟩ 5 = false ∧
    optimizeClamp exOuterFirst = none := by
  decide

/-- **C19.** The nested rewrite preserves the value of a genuine unsigned
clamp: with the max and min intrinsics that `rewriteNestedSelectClamp` chooses
for a `w`-bit integer type and `lo ≤ hi`, the chain `min(max(var, lo), hi)` has
the value of `select(var uge lo, select(var ule hi, var, hi), lo)`. -/
theorem nested_rewrite_unsigned_clamp (w var lo hi : Nat) (MaxID MinID : IntrinsicID)
    (hint : nestedIntrinsics (Ty.int w).getScalarType = some (MaxID, MinID))
    (hle : lo ≤ hi) :
    ∃ t, evalIntMinMax w MaxID var lo = some t ∧
      evalIntMinMax w MinID t hi
        = some (if evalICmp w .ICMP_UGE var lo then
                  (if evalICmp w .ICMP_ULE var hi then var else hi)
                else lo) := by
  simp only [Ty.getScalarType, nestedIntrinsics, Ty.isFloatingPointTy, Ty.isIntegerTy,
    Bool.false_eq_true, if_false, if_true, Option.some.injEq, Prod.mk.injEq] at hint
  obtain ⟨rfl, rfl⟩ := hint
  refine ⟨if var < lo then lo else var, rfl, ?_⟩
  simp only [evalIntMinMax, evalICmp, decide_eq_true_eq, Option.some.injEq]
  split_ifs <;> omega

theorem nested_rewrite_unsigned_clamp_witness :
    ∃ t, evalIntMinMax 8 .umax 200 10 = some t ∧
      evalIntMinMax 8 .umin t 100
        = some (if evalICmp 8 .ICMP_UGE 200 10 then
                  (if evalICmp 8 .ICMP_ULE 200 100 then 200 else 100)
                else 10) :=
  nested_rewrite_unsigned_clamp 8 200 10 100 .umax .umin (by decide) (by decide)

/-! ## Facts about the builder of the power rewriter -/

theorem mathGetInst_some {F : MathFunction} {v : ValueId} {i : MathInst}
    (h : mathGetInst F v = some i) : i ∈ F.insts ∧ i.id = v := by
  unfold mathGetInst at h
  refine ⟨List.mem_of_find?_eq_some h, ?_⟩
  have := List.find?_some h
  simpa using this

theorem mathIsLive_iff {F : MathFunction} {v : ValueId} :
    mathIsLive F v = true ↔ ∃ i ∈ F.insts, i.id = v := by
  unfold mathIsLive mathGetInst
  rw [List.find?_isSome]
  simp

theorem find_mathInsertBeforeList_ne {pos v : ValueId} {n : MathInst} (hne : v ≠ n.id)
    (l : List MathInst) :
    (mathInsertBeforeList pos n l).find? (fun i => i.id == v) = l.find? (fun i => i.id == v) := by
  induction l with
  | nil => rfl
  | cons a rest ih =>
    unfold mathInsertBeforeList
    split
    · have hn : (n.id == v) = false := by
        simpa using fun e => hne e.symm
      simp [List.find?_cons, hn]
    · simp only [List.find?_cons, ih]

theorem mathGetInst_insert_ne {F : MathFunction} {pos v : ValueId} {n : MathInst}
    (hne : v ≠ n.id) : mathGetInst (mathInsertBefore F pos n) v = mathGetInst F v :=
  find_mathInsertBeforeList_ne hne F.insts

theorem find_mathInsertBeforeList_eq {pos : ValueId} {n : MathInst} (l : List MathInst)
    (hpos : ∃ j ∈ l, j.id = pos) (hnew : ∀ j ∈ l, j.id ≠ n.id) :
    (mathInsertBeforeList pos n l).find? (fun i => i.id == n.id) = some n := by
  induction l with
  | nil => obtain ⟨j, hj, _⟩ := hpos; cases hj
  | cons a rest ih =>
    unfold mathInsertBeforeList
    split
    · simp [List.find?_cons]
    · rename_i hap
      have ha : (a.id == n.id) = false := by
        simpa using hnew a (List.mem_cons_self _ _)
      rw [List.find?_cons, ha]
      apply ih
      · obtain ⟨j, hj, hid⟩ := hpos
        rcases List.mem_cons.1 hj with rfl | hj'
        · exact absurd hid hap
        · exact ⟨j, hj', hid⟩
      · exact fun j hj => hnew j (List.mem_cons_of_mem _ hj)

theorem mathGetInst_insert_eq {F : MathFunction} {pos : ValueId} {n : MathInst}
    (hpos : mathIsLive F pos = true) (hnew : mathIsLive F n.id = false) :
    mathGetInst (mathInsertBefore F pos n) n.id = some n := by
  apply find_mathInsertBeforeList_eq F.insts (mathIsLive_iff.1 hpos)
  intro j hj e
  rw [Bool.eq_false_iff] at hnew
  exact hnew (mathIsLive_iff.2 ⟨j, hj, e⟩)

theorem mem_mathInsertBeforeList_of_mem {pos : ValueId} {n i : MathInst} {l : List MathInst}
    (h : i ∈ l) : i ∈ mathInsertBeforeList pos n l := by
  induction l with
  | nil => cases h
  | cons a rest ih =>
    unfold mathInsertBeforeList
    split
    · exact List.mem_cons_of_mem _ h
    · rcases List.mem_cons.1 h with rfl | h'
      · exact List.mem_cons_self _ _
      · exact List.mem_cons_of_mem _ (ih h')

theorem foldr_max_le {l : List Nat} {b : Nat} (h : ∀ x ∈ l, x ≤ b) : l.foldr max 0 ≤ b := by
  induction l with
  | nil => exact Nat.zero_le _
  | cons a rest ih =>
    simp only [List.foldr_cons]
    exact max_le (h a (List.mem_cons_self _ _)) (ih fun x hx => h x (List.mem_cons_of_mem _ hx))

theorem bound_le_mathMaxId {F : MathFunction} {i : MathInst} (h : i ∈ F.insts) :
    i.bound ≤ mathMaxId F := by
  unfold mathMaxId
  exact le_trans (le_foldr_max (List.mem_map.2 ⟨i, h, rfl⟩)) (le_max_right _ _)

theorem id_lt_mathFreshId {F : MathFunction} {i : MathInst} (h : i ∈ F.insts) :
    i.id < mathFreshId F :=
  Nat.lt_succ_of_le (le_trans (le_max_left _ _) (bound_le_mathMaxId h))

theorem operand_lt_mathFreshId {F : MathFunction} {i : MathInst} (h : i ∈ F.insts)
    {v : ValueId} (hv : v ∈ i.operands) : v < mathFreshId F :=
  Nat.lt_succ_of_le
    (le_trans (le_trans (le_foldr_max hv) (le_max_right _ _)) (bound_le_mathMaxId h))

theorem not_mathIsLive_of_ge {F : MathFunction} {v : ValueId} (h : mathFreshId F ≤ v) :
    mathIsLive F v = false := by
  rw [Bool.eq_false_iff]
  intro hl
  obtain ⟨i, hi, hid⟩ := mathIsLive_iff.1 hl
  have := id_lt_mathFreshId hi
  (try dsimp only [ValueId] at *); omega

theorem foldr_bound_insert {pos : ValueId} {n : MathInst} (l : List MathInst)
    (hpos : ∃ j ∈ l, j.id = pos) :
    ((mathInsertBeforeList pos n l).map MathInst.bound).foldr max 0
      = max n.bound ((l.map MathInst.bound).foldr max 0) := by
  induction l with
  | nil => obtain ⟨j, hj, _⟩ := hpos; cases hj
  | cons a rest ih =>
    unfold mathInsertBeforeList
    split
    · simp
    · rename_i hap
      have hrest : ∃ j ∈ rest, j.id = pos := by
        obtain ⟨j, hj, hid⟩ := hpos
        rcases List.mem_cons.1 hj with rfl | hj'
        · exact absurd hid hap
        · exact ⟨j, hj', hid⟩
      simp only [List.map_cons, List.foldr_cons, ih hrest]
      (try dsimp only [ValueId] at *); omega

theorem mathFreshId_insert {F : MathFunction} {pos : ValueId} {n : MathInst}
    (hpos : mathIsLive F pos = true) :
    mathFreshId (mathInsertBefore F pos n) = max (mathFreshId F) (n.bound + 1) := by
  unfold mathFreshId mathMaxId mathInsertBefore
  simp only [foldr_bound_insert F.insts (mathIsLive_iff.1 hpos)]
  (try dsimp only [ValueId] at *); omega

theorem mathExtends_refl {pos : ValueId} {F : MathFunction} (h : mathIsLive F pos = true) :
    MathExtends pos F F :=
  ⟨rfl, h, le_refl _, fun _ _ => rfl, fun _ hi => hi⟩

theorem mathExtends_trans {pos : ValueId} {F G H : MathFunction}
    (h1 : MathExtends pos F G) (h2 : MathExtends pos G H) : MathExtends pos F H := by
  obtain ⟨a1, _, c1, d1, e1⟩ := h1
  obtain ⟨a2, b2, c2, d2, e2⟩ := h2
  refine ⟨a2.trans a1, b2, le_trans c1 c2, fun u hu => ?_, fun i hi => e2 i (e1 i hi)⟩
  rw [d2 u (lt_of_lt_of_le hu c1), d1 u hu]

/-- Creating an instruction at `pos` whose operands are known extends the body. -/
theorem mathExtends_insert {pos : ValueId} {F : MathFunction} (k : MathKind)
    (hpos : mathIsLive F pos = true) (hk : ∀ v ∈ k.operands, v < mathFreshId F) :
    MathExtends pos F (mathInsertBefore F pos ⟨mathFreshId F, k⟩) ∧
    mathFreshId (mathInsertBefore F pos ⟨mathFreshId F, k⟩) = mathFreshId F + 1 ∧
    mathGetInst (mathInsertBefore F pos ⟨mathFreshId F, k⟩) (mathFreshId F)
      = some ⟨mathFreshId F, k⟩ := by
  have hfresh : mathFreshId (mathInsertBefore F pos ⟨mathFreshId F, k⟩) = mathFreshId F + 1 := by
    rw [mathFreshId_insert hpos]
    have hb : (⟨mathFreshId F, k⟩ : MathInst).bound = mathFreshId F := by
      unfold MathInst.bound
      apply max_eq_left
      exact foldr_max_le fun x hx => le_of_lt (hk x hx)
    rw [hb]
    (try dsimp only [ValueId] at *); omega
  refine ⟨⟨rfl, ?_, ?_, ?_, ?_⟩, hfresh, ?_⟩
  · obtain ⟨i, hi, hid⟩ := mathIsLive_iff.1 hpos
    exact mathIsLive_iff.2 ⟨i, mem_mathInsertBeforeList_of_mem hi, hid⟩
  · rw [hfresh]; exact Nat.le_succ _
  · intro u hu
    exact mathGetInst_insert_ne (n := ⟨mathFreshId F, k⟩) (by
      show u ≠ mathFreshId F
      exact Nat.ne_of_lt hu)
  · exact fun i hi => mem_mathInsertBeforeList_of_mem hi
  · exact mathGetInst_insert_eq (n := ⟨mathFreshId F, k⟩) hpos (not_mathIsLive_of_ge (le_refl _))

theorem treeOf_succ {F : MathFunction} {X : ValueId} (n : Nat) :
    ∀ (v : ValueId) (T : PowTree), treeOf F X n v = some T → treeOf F X (n + 1) v = some T := by
  induction n with
  | zero => intro v T h; simp [treeOf] at h
  | succ n ih =>
    intro v T h
    unfold treeOf at h ⊢
    split_ifs at h ⊢ with hv
    · exact h
    · split at h
      · rename_i u heq
        simp only [Option.map_eq_some'] at h
        obtain ⟨t, ht, rfl⟩ := h
        simp only [ih u t ht, Option.map_some']
      · rename_i a b heq
        split at h
        · rename_i ta tb ha hb
          simp only [ih a ta ha, ih b tb hb]
          exact h
        · simp at h
      · simp at h

theorem treeOf_le {F : MathFunction} {X v : ValueId} {T : PowTree} {n m : Nat}
    (h : treeOf F X n v = some T) (hnm : n ≤ m) : treeOf F X m v = some T := by
  induction hnm with
  | refl => exact h
  | step _ ih => exact treeOf_succ _ _ _ ih

theorem treeOf_extends {pos X : ValueId} {F F' : MathFunction} (hE : MathExtends pos F F')
    (n : Nat) : ∀ v, v < mathFreshId F → treeOf F' X n v = treeOf F X n v := by
  induction n with
  | zero => intro v _; rfl
  | succ n ih =>
    intro v hv
    unfold treeOf
    rw [hE.2.2.2.1 v hv]
    split_ifs with hvX
    · rfl
    · split
      · rename_i u heq
        have hu : u < mathFreshId F :=
          operand_lt_mathFreshId (mathGetInst_some heq).1
            (by simp [MathInst.operands, MathKind.operands])
        rw [ih u hu]
      · rename_i a b heq
        have ha : a < mathFreshId F :=
          operand_lt_mathFreshId (mathGetInst_some heq).1
            (by simp [MathInst.operands, MathKind.operands])
        have hb : b < mathFreshId F :=
          operand_lt_mathFreshId (mathGetInst_some heq).1
            (by simp [MathInst.operands, MathKind.operands])
        rw [ih a ha, ih b hb]
      · rfl

theorem treeAt_base {pos X : ValueId} {F : MathFunction} (hpos : mathIsLive F pos = true)
    (hX : X < mathFreshId F) : TreeAt pos X F X .x 1 :=
  ⟨hpos, hX, hX, by simp [treeOf]⟩

theorem treeAt_extends {pos X v : ValueId} {F F' : MathFunction} {T : PowTree} {n : Nat}
    (hE : MathExtends pos F F') (h : TreeAt pos X F v T n) : TreeAt pos X F' v T n := by
  obtain ⟨_, hX, hv, ht⟩ := h
  refine ⟨hE.2.1, lt_of_lt_of_le hX hE.2.2.1, lt_of_lt_of_le hv hE.2.2.1, ?_⟩
  rw [treeOf_extends hE n v hv, ht]

theorem treeAt_le {pos X v : ValueId} {F : MathFunction} {T : PowTree} {n m : Nat}
    (h : TreeAt pos X F v T n) (hnm : n ≤ m) : TreeAt pos X F v T m :=
  ⟨h.1, h.2.1, h.2.2.1, treeOf_le h.2.2.2 hnm⟩

theorem treeAt_sqrt {pos X v : ValueId} {F : MathFunction} {T : PowTree} {n : Nat}
    (h : TreeAt pos X F v T n) :
    MathExtends pos F (CreateCallSqrt F pos v).1 ∧
    TreeAt pos X (CreateCallSqrt F pos v).1 (CreateCallSqrt F pos v).2 (.sqrt T) (n + 1) := by
  obtain ⟨hpos, hX, hv, ht⟩ := h
  obtain ⟨hE, hf, hg⟩ := mathExtends_insert (.sqrt v) hpos
    (by
      intro u hu
      simp only [MathKind.operands, List.mem_singleton] at hu
      rw [hu]; exact hv)
  refine ⟨hE, hE.2.1, lt_of_lt_of_le hX hE.2.2.1, ?_, ?_⟩
  · show mathFreshId F < mathFreshId (mathInsertBefore F pos ⟨mathFreshId F, .sqrt v⟩)
    rw [hf]; exact Nat.lt_succ_self _
  · show treeOf (mathInsertBefore F pos ⟨mathFreshId F, .sqrt v⟩) X (n + 1) (mathFreshId F) = _
    unfold treeOf
    rw [if_neg (Nat.ne_of_gt hX), hg]
    simp only
    rw [treeOf_extends hE n v hv, ht]
    rfl

theorem treeAt_fmul {pos X a b : ValueId} {F : MathFunction} {Ta Tb : PowTree} {n : Nat}
    (ha : TreeAt pos X F a Ta n) (hb : TreeAt pos X F b Tb n) :
    MathExtends pos F (CreateFMul F pos a b).1 ∧
    TreeAt pos X (CreateFMul F pos a b).1 (CreateFMul F pos a b).2 (.mul Ta Tb) (n + 1) := by
  obtain ⟨hpos, hX, hav, hat⟩ := ha
  obtain ⟨_, _, hbv, hbt⟩ := hb
  obtain ⟨hE, hf, hg⟩ := mathExtends_insert (.fmul a b) hpos
    (by
      intro u hu
      simp only [MathKind.operands, List.mem_cons, List.mem_singleton, List.not_mem_nil,
        or_false] at hu
      rcases hu with rfl | rfl
      · exact hav
      · exact hbv)
  refine ⟨hE, hE.2.1, lt_of_lt_of_le hX hE.2.2.1, ?_, ?_⟩
  · show mathFreshId F < mathFreshId (mathInsertBefore F pos ⟨mathFreshId F, .fmul a b⟩)
    rw [hf]; exact Nat.lt_succ_self _
  · show treeOf (mathInsertBefore F pos ⟨mathFreshId F, .fmul a b⟩) X (n + 1) (mathFreshId F) = _
    unfold treeOf
    rw [if_neg (Nat.ne_of_gt hX), hg]
    simp only
    rw [treeOf_extends hE n a hav, treeOf_extends hE n b hbv, hat, hbt]

/-- The tree of `k` nested square roots over `T`. -/
theorem treeAt_sqrtN {pos X : ValueId} (k : Nat) :
    ∀ (F : MathFunction) (v : ValueId) (T : PowTree) (n : Nat), TreeAt pos X F v T n →
      MathExtends pos F (sqrtN F pos v k).1 ∧
      TreeAt pos X (sqrtN F pos v k).1 (sqrtN F pos v k).2 (PowTree.sqrt^[k] T) (n + k) := by
  induction k with
  | zero =>
    intro F v T n h
    exact ⟨mathExtends_refl h.1, h⟩
  | succ k ih =>
    intro F v T n h
    obtain ⟨hE1, h1⟩ := treeAt_sqrt h
    obtain ⟨hE2, h2⟩ := ih _ _ _ _ h1
    refine ⟨mathExtends_trans hE1 hE2, ?_⟩
    have : n + 1 + k = n + (k + 1) := by omega
    rw [Function.iterate_succ_apply, ← this]
    exact h2

/-! ## The constants of the table as `double`s

Each constant is written as in the source and compared with its hexadecimal
form (`0x1.5555555555555p-2` is `0x15555555555555 * 2 ^ (-54)`). -/

theorem double_table_constants :
    (1.0 / 3.0 : Double) = .finite 0x15555555555555 (-54) ∧
    (1.2 : Double) = .finite 0x13333333333333 (-52) ∧
    (2.2 : Double) = .finite 0x1199999999999a (-51) ∧
    (2.4 : Double) = .finite 0x13333333333333 (-51) ∧
    (1.8 : Double) = .finite 0x1ccccccccccccd (-52) ∧
    (1.0 / 2.2 : Double) = .finite 0x1d1745d1745d17 (-54) ∧
    (1.0 / 2.4 : Double) = .finite 0x1aaaaaaaaaaaab (-54) ∧
    (1.0 / 1.8 : Double) = .finite 0x11c71c71c71c72 (-53) ∧
    (0.01 : Double) = .finite 0x147ae147ae147b (-59) ∧
    (1e-3 : Double) = .finite 0x10624dd2f1a9fc (-62) ∧
    (0.05 : Double) = .finite 0x1999999999999a (-57) := by
  decide

/-- At the `double` `2.25` the difference `2.25 - 2.2` is
`0x1.999999999998p-5`, below the `double` `0.05`; at `0x1.5f92c5f92c5f9p-2` the
difference from `1.0/3.0` is `0x1.47ae147ae148p-7`, above the `double` `0.01`. -/
theorem double_window_edges :
    (.finite 9 (-2) : Double) - 2.2 = .finite 0x19999999999980 (-57) ∧
    Double.fabs ((.finite 9 (-2) : Double) - 2.2) < 0.05 ∧
    (.finite 0x15f92c5f92c5f9 (-54) : Double) - 1.0 / 3.0 = .finite 0x147ae147ae1480 (-59) ∧
    ¬ Double.fabs ((.finite 0x15f92c5f92c5f9 (-54) : Double) - 1.0 / 3.0) < 0.01 ∧
    specPowerTable (.finite 0x19e4129e4129e4 (-54))
      = some (.mul (.sqrt (.sqrt (.sqrt .x))) (.sqrt .x)) := by
  decide

/-- The first and the last `double` of each window of the table, in the order
of the source: the test fails at the `double` just below the first, holds at
the first and at the last, and fails at the `double` just above the last.  In
decimal the windows run from 0.32333333333333336 to 0.34333333333333327, from
1.199 to 1.2009999999999998, from 2.1500000000000004 to 2.25, from 2.35 to
2.4499999999999997, from 1.7500000000000002 to 1.8499999999999999, from
0.40454545454545454 to 0.5045454545454545, from 0.3666666666666667 to
0.4666666666666667 and from 0.5055555555555556 to 0.6055555555555555. -/
theorem double_window_bounds :
    (¬ Double.fabs ((.finite 0x14b17e4b17e4b1 (-54) : Double) - 1.0 / 3.0) < 0.01 ∧
      Double.fabs ((.finite 0x14b17e4b17e4b2 (-54) : Double) - 1.0 / 3.0) < 0.01 ∧
      Double.fabs ((.finite 0x15f92c5f92c5f8 (-54) : Double) - 1.0 / 3.0) < 0.01 ∧
      ¬ Double.fabs ((.finite 0x15f92c5f92c5f9 (-54) : Double) - 1.0 / 3.0) < 0.01) ∧
    (¬ Double.fabs ((.finite 0x132f1a9fbe76c8 (-52) : Double) - 1.2) < 1e-3 ∧
      Double.fabs ((.finite 0x132f1a9fbe76c9 (-52) : Double) - 1.2) < 1e-3 ∧
      Double.fabs ((.finite 0x13374bc6a7ef9d (-52) : Double) - 1.2) < 1e-3 ∧
      ¬ Double.fabs ((.finite 0x13374bc6a7ef9e (-52) : Double) - 1.2) < 1e-3) ∧
    (¬ Double.fabs ((.finite 0x11333333333333 (-51) : Double) - 2.2) < 0.05 ∧
      Double.fabs ((.finite 0x11333333333334 (-51) : Double) - 2.2) < 0.05 ∧
      Double.fabs ((.finite 0x12000000000000 (-51) : Double) - 2.2) < 0.05 ∧
      ¬ Double.fabs ((.finite 0x12000000000001 (-51) : Double) - 2.2) < 0.05) ∧
    (¬ Double.fabs ((.finite 0x12cccccccccccc (-51) : Double) - 2.4) < 0.05 ∧
      Double.fabs ((.finite 0x12cccccccccccd (-51) : Double) - 2.4) < 0.05 ∧
      Double.fabs ((.finite 0x13999999999999 (-51) : Double) - 2.4) < 0.05 ∧
      ¬ Double.fabs ((.finite 0x1399999999999a (-51) : Double) - 2.4) < 0.05) ∧
    (¬ Double.fabs ((.finite 0x1c000000000000 (-52) : Double) - 1.8) < 0.05 ∧
      Double.fabs ((.finite 0x1c000000000001 (-52) : Double) - 1.8) < 0.05 ∧
      Double.fabs ((.finite 0x1d999999999999 (-52) : Double) - 1.8) < 0.05 ∧
      ¬ Double.fabs ((.finite 0x1d99999999999a (-52) : Double) - 1.8) < 0.05) ∧
    (¬ Double.fabs ((.finite 0x19e4129e4129e3 (-54) : Double) - 1.0 / 2.2) < 0.05 ∧
      Double.fabs ((.finite 0x19e4129e4129e4 (-54) : Double) - 1.0 / 2.2) < 0.05 ∧
      Double.fabs ((.finite 0x10253c8253c825 (-53) : Double) - 1.0 / 2.2) < 0.05 ∧
      ¬ Double.fabs ((.finite 0x10253c8253c826 (-53) : Double) - 1.0 / 2.2) < 0.05) ∧
    (¬ Double.fabs ((.finite 0x17777777777777 (-54) : Double) - 1.0 / 2.4) < 0.05 ∧
      Double.fabs ((.finite 0x17777777777778 (-54) : Double) - 1.0 / 2.4) < 0.05 ∧
      Double.fabs ((.finite 0x1dddddddddddde (-54) : Double) - 1.0 / 2.4) < 0.05 ∧
      ¬ Double.fabs ((.finite 0x1ddddddddddddf (-54) : Double) - 1.0 / 2.4) < 0.05) ∧
    (¬ Double.fabs ((.finite 0x102d82d82d82d8 (-53) : Double) - 1.0 / 1.8) < 0.05 ∧
      Double.fabs ((.finite 0x102d82d82d82d9 (-53) : Double) - 1.0 / 1.8) < 0.05 ∧
      Double.fabs ((.finite 0x1360b60b60b60b (-53) : Double) - 1.0 / 1.8) < 0.05 ∧
      ¬ Double.fabs ((.finite 0x1360b60b60b60c (-53) : Double) - 1.0 / 1.8) < 0.05) := by
  decide

/-! ## The window tests in exact numbers

Rounding to the nearest `double` is followed through the test
`fabs(e - c) < t`: for finite `e` it holds exactly when the distance of `e` and
`c`, as numbers, is below the midpoint of `t` and the `double` before it (or
equal to it, when the significand of `t` is odd and the tie rounds down). -/

/-- No window test holds for an infinity or a NaN. -/
theorem double_window_not_finite (c t : Double) :
    (∀ b, ¬ Double.fabs (Double.inf b - c) < t) ∧ ¬ Double.fabs (Double.nan - c) < t := by
  constructor
  · intro b
    show ¬ Double.lt (Double.fabs (Double.sub (.inf b) c)) t = true
    cases c with
    | finite mc kc => cases t <;> simp [Double.sub, Double.fabs, Double.lt]
    | inf a => cases a <;> cases b <;> cases t <;> simp [Double.sub, Double.fabs, Double.lt]
    | nan => cases t <;> simp [Double.sub, Double.fabs, Double.lt]
  · show ¬ Double.lt (Double.fabs (Double.sub .nan c)) t = true
    cases t <;> simp [Double.sub, Double.fabs, Double.lt]

/-! ## `buildPowerApprox` builds the replacement of the first window that holds -/

/-- With the builder positioned at an instruction `pos` of the function and `X`
a value known to the function: `buildPowerApprox` only adds instructions; if the
table has no entry for `e` it returns no replacement and leaves the body as it
is; otherwise it returns a value computing the table's replacement from `X`. -/
theorem buildPowerApprox_tree (F : MathFunction) (pos X : ValueId) (e : Double)
    (hpos : mathIsLive F pos = true) (hX : X < mathFreshId F) :
    MathExtends pos F (buildPowerApprox F pos X e).1 ∧
    (specPowerTable e = none → buildPowerApprox F pos X e = (F, none)) ∧
    (∀ T, specPowerTable e = some T →
      ∃ r, (buildPowerApprox F pos X e).2 = some r ∧
        treeOf (buildPowerApprox F pos X e).1 X 6 r = some T) := by
  have hb := treeAt_base hpos hX
  by_cases h1 : Double.fabs (e - 1.0 / 3.0) < 0.01
  · simp only [buildPowerApprox, specPowerTable, h1, if_true, if_false]
    obtain ⟨E1, t1⟩ := treeAt_sqrt hb
    obtain ⟨E2, t2⟩ := treeAt_sqrt t1
    obtain ⟨E3, t3⟩ := treeAt_sqrt t2
    obtain ⟨E4, t4⟩ := treeAt_fmul t3 t3
    refine ⟨mathExtends_trans (mathExtends_trans (mathExtends_trans E1 E2) E3) E4,
      fun h => Option.noConfusion h, fun T hT => ⟨_, rfl, ?_⟩⟩
    cases hT
    exact treeOf_le t4.2.2.2 (by decide)
  · by_cases h2 : Double.fabs (e - 1.2) < 1e-3
    · simp only [buildPowerApprox, specPowerTable, h1, h2, if_true, if_false]
      obtain ⟨E1, t1⟩ := treeAt_sqrt hb
      obtain ⟨E2, t2⟩ := treeAt_sqrt t1
      obtain ⟨E3, t3⟩ := treeAt_sqrt t2
      have hb3 := treeAt_le (treeAt_extends (mathExtends_trans (mathExtends_trans E1 E2) E3) hb)
        (show 1 ≤ 4 by decide)
      obtain ⟨E4, t4⟩ := treeAt_fmul hb3 t3
      refine ⟨mathExtends_trans (mathExtends_trans (mathExtends_trans E1 E2) E3) E4,
        fun h => Option.noConfusion h, fun T hT => ⟨_, rfl, ?_⟩⟩
      cases hT
      exact treeOf_le t4.2.2.2 (by decide)
    · by_cases h3 : Double.fabs (e - 2.2) < 0.05
      · simp only [buildPowerApprox, specPowerTable, h1, h2, h3, if_true, if_false]
        obtain ⟨E1, t1⟩ := treeAt_fmul hb hb
        obtain ⟨E2, t2⟩ := treeAt_sqrtN 3 _ _ _ _ (treeAt_extends E1 hb)
        obtain ⟨E3, t3⟩ := treeAt_fmul (treeAt_le (treeAt_extends E2 t1) (show 2 ≤ 4 by decide)) t2
        refine ⟨mathExtends_trans (mathExtends_trans E1 E2) E3,
          fun h => Option.noConfusion h, fun T hT => ⟨_, rfl, ?_⟩⟩
        cases hT
        exact treeOf_le t3.2.2.2 (by decide)
      · by_cases h4 : Double.fabs (e - 2.4) < 0.05
        · simp only [buildPowerApprox, specPowerTable, h1, h2, h3, h4, if_true, if_false]
          obtain ⟨E1, t1⟩ := treeAt_fmul hb hb
          obtain ⟨E2, t2⟩ := treeAt_sqrtN 2 _ _ _ _ (treeAt_extends E1 hb)
          obtain ⟨E3, t3⟩ := treeAt_fmul (treeAt_le (treeAt_extends E2 t1) (show 2 ≤ 3 by decide)) t2
          refine ⟨mathExtends_trans (mathExtends_trans E1 E2) E3,
            fun h => Option.noConfusion h, fun T hT => ⟨_, rfl, ?_⟩⟩
          cases hT
          exact treeOf_le t3.2.2.2 (by decide)
        · by_cases h5 : Double.fabs (e - 1.8) < 0.05
          · simp only [buildPowerApprox, specPowerTable, h1, h2, h3, h4, h5, if_true, if_false]
            obtain ⟨E1, t1⟩ := treeAt_fmul hb hb
            obtain ⟨E2, t2⟩ := treeAt_sqrtN 1 _ _ _ _ (treeAt_extends E1 hb)
            obtain ⟨E3, t3⟩ := treeAt_fmul (treeAt_extends E2 t1) t2
            refine ⟨mathExtends_trans (mathExtends_trans E1 E2) E3,
              fun h => Option.noConfusion h, fun T hT => ⟨_, rfl, ?_⟩⟩
            cases hT
            exact treeOf_le t3.2.2.2 (by decide)
          · by_cases h6 : Double.fabs (e - 1.0 / 2.2) < 0.05
            · simp only [buildPowerApprox, specPowerTable, h1, h2, h3, h4, h5, h6, if_true, if_false]
              obtain ⟨E1, t1⟩ := treeAt_sqrtN 3 _ _ _ _ hb
              obtain ⟨E2, t2⟩ := treeAt_sqrt (treeAt_extends E1 hb)
              obtain ⟨E3, t3⟩ := treeAt_fmul (treeAt_extends E2 t1) (treeAt_le t2 (show 2 ≤ 4 by decide))
              refine ⟨mathExtends_trans (mathExtends_trans E1 E2) E3,
                fun h => Option.noConfusion h, fun T hT => ⟨_, rfl, ?_⟩⟩
              cases hT
              exact treeOf_le t3.2.2.2 (by decide)
            · by_cases h7 : Double.fabs (e - 1.0 / 2.4) < 0.05
              · simp only [buildPowerApprox, specPowerTable, h1, h2, h3, h4, h5, h6, h7, if_true, if_false]
                obtain ⟨E1, t1⟩ := treeAt_sqrtN 3 _ _ _ _ hb
                refine ⟨E1, fun h => Option.noConfusion h, fun T hT => ⟨_, rfl, ?_⟩⟩
                cases hT
                exact treeOf_le t1.2.2.2 (by decide)
              · by_cases h8 : Double.fabs (e - 1.0 / 1.8) < 0.05
                · simp only [buildPowerApprox, specPowerTable, h1, h2, h3, h4, h5, h6, h7, h8, if_true, if_false]
                  obtain ⟨E1, t1⟩ := treeAt_sqrt hb
                  obtain ⟨E2, t2⟩ := treeAt_sqrtN 2 _ _ _ _ (treeAt_extends E1 hb)
                  obtain ⟨E3, t3⟩ := treeAt_fmul (treeAt_le (treeAt_extends E2 t1) (show 2 ≤ 3 by decide)) t2
                  refine ⟨mathExtends_trans (mathExtends_trans E1 E2) E3,
                    fun h => Option.noConfusion h, fun T hT => ⟨_, rfl, ?_⟩⟩
                  cases hT
                  exact treeOf_le t3.2.2.2 (by decide)
                · simp only [buildPowerApprox, specPowerTable, h1, h2, h3, h4, h5, h6, h7, h8, if_true, if_false]
                  exact ⟨mathExtends_refl hpos, fun _ => trivial, fun T hT => Option.noConfusion hT⟩

/-- A replacement returned by `buildPowerApprox` is a new instruction. -/
theorem buildPowerApprox_fresh (F : MathFunction) (pos X : ValueId) (e : Double)
    (hpos : mathIsLive F pos = true) (hX : X < mathFreshId F) :
    ∀ r, (buildPowerApprox F pos X e).2 = some r → mathFreshId F ≤ r := by
  have hb := treeAt_base hpos hX
  intro r hr
  by_cases h1 : Double.fabs (e - 1.0 / 3.0) < 0.01
  · simp only [buildPowerApprox, h1, if_true, if_false, Option.some.injEq] at hr
    rw [← hr]
    obtain ⟨E1, t1⟩ := treeAt_sqrt hb
    obtain ⟨E2, t2⟩ := treeAt_sqrt t1
    obtain ⟨E3, t3⟩ := treeAt_sqrt t2
    exact (mathExtends_trans (mathExtends_trans E1 E2) E3).2.2.1
  · by_cases h2 : Double.fabs (e - 1.2) < 1e-3
    · simp only [buildPowerApprox, h1, h2, if_true, if_false, Option.some.injEq] at hr
      rw [← hr]
      obtain ⟨E1, t1⟩ := treeAt_sqrt hb
      obtain ⟨E2, t2⟩ := treeAt_sqrt t1
      obtain ⟨E3, t3⟩ := treeAt_sqrt t2
      exact (mathExtends_trans (mathExtends_trans E1 E2) E3).2.2.1
    · by_cases h3 : Double.fabs (e - 2.2) < 0.05
      · simp only [buildPowerApprox, h1, h2, h3, if_true, if_false, Option.some.injEq] at hr
        rw [← hr]
        obtain ⟨E1, t1⟩ := treeAt_fmul hb hb
        obtain ⟨E2, t2⟩ := treeAt_sqrtN 3 _ _ _ _ (treeAt_extends E1 hb)
        exact (mathExtends_trans E1 E2).2.2.1
      · by_cases h4 : Double.fabs (e - 2.4) < 0.05
        · simp only [buildPowerApprox, h1, h2, h3, h4, if_true, if_false, Option.some.injEq] at hr
          rw [← hr]
          obtain ⟨E1, t1⟩ := treeAt_fmul hb hb
          obtain ⟨E2, t2⟩ := treeAt_sqrtN 2 _ _ _ _ (treeAt_extends E1 hb)
          exact (mathExtends_trans E1 E2).2.2.1
        · by_cases h5 : Double.fabs (e - 1.8) < 0.05
          · simp only [buildPowerApprox, h1, h2, h3, h4, h5, if_true, if_false, Option.some.injEq] at hr
            rw [← hr]
            obtain ⟨E1, t1⟩ := treeAt_fmul hb hb
            obtain ⟨E2, t2⟩ := treeAt_sqrtN 1 _ _ _ _ (treeAt_extends E1 hb)
            exact (mathExtends_trans E1 E2).2.2.1
          · by_cases h6 : Double.fabs (e - 1.0 / 2.2) < 0.05
            · simp only [buildPowerApprox, h1, h2, h3, h4, h5, h6, if_true, if_false, Option.some.injEq] at hr
              rw [← hr]
              obtain ⟨E1, t1⟩ := treeAt_sqrtN 3 _ _ _ _ hb
              obtain ⟨E2, t2⟩ := treeAt_sqrt (treeAt_extends E1 hb)
              exact (mathExtends_trans E1 E2).2.2.1
            · by_cases h7 : Double.fabs (e - 1.0 / 2.4) < 0.05
              · simp only [buildPowerApprox, h1, h2, h3, h4, h5, h6, h7, if_true, if_false, Option.some.injEq] at hr
                rw [← hr]
                obtain ⟨E1, t1⟩ := treeAt_sqrtN 2 _ _ _ _ hb
                exact E1.2.2.1
              · by_cases h8 : Double.fabs (e - 1.0 / 1.8) < 0.05
                · simp only [buildPowerApprox, h1, h2, h3, h4, h5, h6, h7, h8, if_true, if_false, Option.some.injEq] at hr
                  rw [← hr]
                  obtain ⟨E1, t1⟩ := treeAt_sqrt hb
                  obtain ⟨E2, t2⟩ := treeAt_sqrtN 2 _ _ _ _ (treeAt_extends E1 hb)
                  exact (mathExtends_trans E1 E2).2.2.1
                · simp only [buildPowerApprox, h1, h2, h3, h4, h5, h6, h7, h8, if_false] at hr
                  cases hr

/-! ## C18: the priority table, window by window -/

theorem startsWithChars_iff (p : List Char) :
    ∀ t, startsWithChars p t = true ↔ ∃ suf, t = p ++ suf := by
  induction p with
  | nil => intro t; simp [startsWithChars]
  | cons a ps ih =>
    intro t
    cases t with
    | nil => simp [startsWithChars]
    | cons c cs =>
      simp only [startsWithChars, Bool.and_eq_true, beq_iff_eq, ih cs, List.cons_append,
        List.cons.injEq]
      constructor
      · rintro ⟨rfl, suf, rfl⟩
        exact ⟨suf, rfl, rfl⟩
      · rintro ⟨suf, rfl, rfl⟩
        exact ⟨rfl, suf, rfl⟩

theorem containsChars_iff (p : List Char) :
    ∀ t, containsChars p t = true ↔ ∃ pre suf, t = pre ++ p ++ suf := by
  intro t
  induction t with
  | nil =>
    simp only [containsChars, List.isEmpty_iff]
    constructor
    · rintro rfl
      exact ⟨[], [], rfl⟩
    · rintro ⟨pre, suf, h⟩
      have h' := congrArg List.length h
      simp only [List.length_nil, List.length_append] at h'
      exact List.eq_nil_of_length_eq_zero (by omega)
  | cons c cs ih =>
    simp only [containsChars, Bool.or_eq_true, startsWithChars_iff, ih]
    constructor
    · rintro (⟨suf, h⟩ | ⟨pre, suf, h⟩)
      · exact ⟨[], suf, by simpa using h⟩
      · exact ⟨c :: pre, suf, by simp [h]⟩
    · rintro ⟨pre, suf, h⟩
      cases pre with
      | nil => exact Or.inl ⟨suf, by simpa using h⟩
      | cons d pre' =>
        simp only [List.cons_append, List.cons.injEq] at h
        exact Or.inr ⟨pre', suf, h.2⟩

theorem containsChars_of_contains_longer {a p b t : List Char}
    (h : containsChars (a ++ p ++ b) t = true) : containsChars p t = true := by
  rw [containsChars_iff] at h ⊢
  obtain ⟨pre, suf, rfl⟩ := h
  exact ⟨pre ++ a, b ++ suf, by simp⟩

/-- The four name tests of the source amount to: the name contains `pow`. -/
theorem name_filter_iff (Name : String) :
    (nameContains Name "pow" || nameContains Name "powf" ||
      nameContains Name "llvm.pow" || nameContains Name "cv::pow") = nameContains Name "pow" := by
  unfold nameContains
  have h1 : containsChars "powf".data Name.data = true → containsChars "pow".data Name.data = true :=
    fun h => containsChars_of_contains_longer (a := []) (b := ['f']) h
  have h2 : containsChars "llvm.pow".data Name.data = true →
      containsChars "pow".data Name.data = true :=
    fun h => containsChars_of_contains_longer (a := "llvm.".data) (b := []) h
  have h3 : containsChars "cv::pow".data Name.data = true →
      containsChars "pow".data Name.data = true :=
    fun h => containsChars_of_contains_longer (a := "cv::".data) (b := []) h
  cases hp : containsChars "pow".data Name.data
  · have e1 : containsChars "powf".data Name.data = false := by
      rw [Bool.eq_false_iff]; intro h; rw [h1 h] at hp; cases hp
    have e2 : containsChars "llvm.pow".data Name.data = false := by
      rw [Bool.eq_false_iff]; intro h; rw [h2 h] at hp; cases hp
    have e3 : containsChars "cv::pow".data Name.data = false := by
      rw [Bool.eq_false_iff]; intro h; rw [h3 h] at hp; cases hp
    simp [e1, e2, e3]
  · simp

theorem buildPowerApprox_none_body {F : MathFunction} {pos X : ValueId} {e : Double}
    (hpos : mathIsLive F pos = true) (hX : X < mathFreshId F)
    (h : (buildPowerApprox F pos X e).2 = none) : buildPowerApprox F pos X e = (F, none) := by
  obtain ⟨_, hnone, hsome⟩ := buildPowerApprox_tree F pos X e hpos hX
  cases hT : specPowerTable e with
  | none => exact hnone hT
  | some T =>
    obtain ⟨r, hr, _⟩ := hsome T hT
    rw [h] at hr
    cases hr

theorem loadedInitializer_of_constant {F : MathFunction} {E : ValueId} {q : Double}
    (h : asConstantFP F E = some q) : loadedInitializer F E = none := by
  unfold asConstantFP at h
  split at h
  · cases h
  · rename_i hnone
    simp [loadedInitializer, hnone]

/-- The scan step on a call of a function whose name contains `pow`, with two
arguments: it is `buildPowerApprox` on the resolved exponent, and nothing when
the exponent does not resolve. -/
theorem mathStep_eq {F : MathFunction} {I X E0 : ValueId} {Name : String}
    (hI : mathGetInst F I = some ⟨I, .call (some Name) [X, E0]⟩)
    (hname : nameContains Name "pow" = true) :
    mathStep F I =
      match specConstantResolver F E0 with
      | some q => buildPowerApprox F I X q
      | none => (F, none) := by
  have hpos : mathIsLive F I = true := by simp [mathIsLive, hI]
  have hX : X < mathFreshId F :=
    operand_lt_mathFreshId (mathGetInst_some hI).1
      (by simp [MathInst.operands, MathKind.operands])
  have hfilter : (!(nameContains Name "pow" || nameContains Name "powf" ||
      nameContains Name "llvm.pow" || nameContains Name "cv::pow")) = false := by
    rw [name_filter_iff, hname]
    rfl
  unfold mathStep specConstantResolver
  simp only [hI, hfilter, Bool.false_eq_true, if_false]
  cases hc : asConstantFP F (match mathGetInst F E0 with
        | some ⟨_, .fpext src⟩ => src
        | _ => E0) with
  | some q =>
    simp only
    cases hb : buildPowerApprox F I X q with
    | mk F1 r =>
      cases r with
      | some a => rfl
      | none =>
        have hnb := buildPowerApprox_none_body hpos hX (by rw [hb])
        rw [hb] at hnb
        cases hnb
        simp only [loadedInitializer_of_constant hc]
  | none =>
    simp only

theorem specConstantResolver_literal {F : MathFunction} {E : ValueId} {e : Double}
    (h : specLiteralOperand F E e) : specConstantResolver F E = some e := by
  unfold specConstantResolver
  rcases h with h | ⟨c, hE, hc⟩
  · have hnone : mathGetInst F E = none := by
      unfold asConstantFP at h
      split at h
      · cases h
      · assumption
    simp only [hnone, h]
  · simp only [hE, hc]

theorem specConstantResolver_load {F : MathFunction} {l : ValueId} {c : Bool} {e : Double}
    (h : specLoadOfGlobal F l c e) :
    asConstantFP F l = none ∧ loadedInitializer F l = some e := by
  obtain ⟨g, hl, hg, hv⟩ := h
  constructor
  · simp [asConstantFP, hl]
  · simp [loadedInitializer, hl, hg, hv]

theorem specConstantResolver_global {F : MathFunction} {E : ValueId} {c : Bool} {e : Double}
    (h : specGlobalOperand F E c e) : specConstantResolver F E = some e := by
  unfold specConstantResolver
  rcases h with h | ⟨l, hE, hl⟩
  · obtain ⟨h1, h2⟩ := specConstantResolver_load h
    obtain ⟨g, hl, _, _⟩ := h
    simp only [hl, h1, h2]
  · obtain ⟨h1, h2⟩ := specConstantResolver_load hl
    simp only [hE, h1, h2]

/-- The scan step on a qualifying call whose exponent resolves to `q`: the body
is only extended; without a table entry for `q` nothing happens; with the entry
`T` the step pushes a replacement that computes `T` from the base. -/
theorem mathStep_tree {F : MathFunction} {I X E0 : ValueId} {Name : String} {q : Double}
    (hI : mathGetInst F I = some ⟨I, .call (some Name) [X, E0]⟩)
    (hname : nameContains Name "pow" = true)
    (hres : specConstantResolver F E0 = some q) :
    (specPowerTable q = none → mathStep F I = (F, none)) ∧
    (∀ T, specPowerTable q = some T →
      ∃ r, (mathStep F I).2 = some r ∧ treeOf (mathStep F I).1 X 6 r = some T) := by
  have hpos : mathIsLive F I = true := by simp [mathIsLive, hI]
  have hX : X < mathFreshId F :=
    operand_lt_mathFreshId (mathGetInst_some hI).1
      (by simp [MathInst.operands, MathKind.operands])
  have heq : mathStep F I = buildPowerApprox F I X q := by
    rw [mathStep_eq hI hname, hres]
  rw [heq]
  exact (buildPowerApprox_tree F I X q hpos hX).2

/-! ## Which replacement a power call gets -/

theorem mathStep_isSome_iff {F : MathFunction} {I X E0 : ValueId} {Name : String} {q : Double}
    (hI : mathGetInst F I = some ⟨I, .call (some Name) [X, E0]⟩)
    (hname : nameContains Name "pow" = true)
    (hres : specConstantResolver F E0 = some q) :
    (mathStep F I).2.isSome = (specPowerTable q).isSome := by
  obtain ⟨hnone, hsome⟩ := mathStep_tree hI hname hres
  cases hT : specPowerTable q with
  | none => rw [hnone hT]; rfl
  | some T =>
    obtain ⟨r, hr, _⟩ := hsome T hT
    rw [hr]; rfl

/-! ## C15: calls that do not qualify -/

theorem mathExtends_pos {pos pos' : ValueId} {F G : MathFunction}
    (h : MathExtends pos F G) (hl : mathIsLive F pos' = true) : MathExtends pos' F G := by
  obtain ⟨a, _, c, d, e⟩ := h
  refine ⟨a, ?_, c, d, e⟩
  obtain ⟨i, hi, hid⟩ := mathIsLive_iff.1 hl
  exact mathIsLive_iff.2 ⟨i, e i hi, hid⟩

theorem lt_mathFreshId_of_isLive {F : MathFunction} {v : ValueId}
    (h : mathIsLive F v = true) : v < mathFreshId F := by
  obtain ⟨i, hi, hid⟩ := mathIsLive_iff.1 h
  rw [← hid]
  exact id_lt_mathFreshId hi

/-- The scan step either passes the instruction by, or is `buildPowerApprox` on
a call that passes the name and argument filter and whose exponent resolves. -/
theorem mathStep_cases (F : MathFunction) (I : ValueId) :
    mathStep F I = (F, none) ∨
    ∃ Name X E0 q, mathGetInst F I = some ⟨I, .call (some Name) [X, E0]⟩ ∧
      nameContains Name "pow" = true ∧ specConstantResolver F E0 = some q ∧
      mathStep F I = buildPowerApprox F I X q := by
  cases hI : mathGetInst F I with
  | none => left; simp [mathStep, hI]
  | some i =>
    obtain ⟨id, k⟩ := i
    have hid : id = I := (mathGetInst_some hI).2
    subst hid
    cases k with
    | call callee args =>
      cases callee with
      | none => left; simp [mathStep, hI]
      | some Name =>
        match args, hI with
        | [], hI => left; simp [mathStep, hI]
        | [_], hI => left; simp [mathStep, hI]
        | _ :: _ :: _ :: _, hI => left; simp [mathStep, hI]
        | [X, E0], hI =>
          cases hn : nameContains Name "pow" with
          | false =>
            left
            have hfilter : (!(nameContains Name "pow" || nameContains Name "powf" ||
                nameContains Name "llvm.pow" || nameContains Name "cv::pow")) = true := by
              rw [name_filter_iff, hn]
              rfl
            simp only [mathStep, hI, hfilter, if_true]
          | true =>
            have heq := mathStep_eq hI hn
            cases hr : specConstantResolver F E0 with
            | none =>
              left
              rw [heq, hr]
            | some q =>
              right
              refine ⟨Name, X, E0, q, rfl, hn, hr, ?_⟩
              rw [heq, hr]
    | fpext s => left; simp [mathStep, hI]
    | load p => left; simp [mathStep, hI]
    | sqrt x => left; simp [mathStep, hI]
    | fmul a b => left; simp [mathStep, hI]
    | otherMath t ops => left; simp [mathStep, hI]

theorem mathStep_extends {F : MathFunction} {I : ValueId} (hl : mathIsLive F I = true) :
    MathExtends I F (mathStep F I).1 := by
  rcases mathStep_cases F I with h | ⟨Name, X, E0, q, hI, hn, hr, h⟩
  · rw [h]
    exact mathExtends_refl hl
  · rw [h]
    have hX : X < mathFreshId F :=
      operand_lt_mathFreshId (mathGetInst_some hI).1
        (by simp [MathInst.operands, MathKind.operands])
    exact (buildPowerApprox_tree F I X q hl hX).1

theorem asConstantFP_congr {pos : ValueId} {F G : MathFunction} (h : MathExtends pos F G)
    {v : ValueId} (hv : v < mathFreshId F) : asConstantFP G v = asConstantFP F v := by
  unfold asConstantFP
  rw [h.2.2.2.1 v hv, h.1]

theorem loadedInitializer_congr {pos : ValueId} {F G : MathFunction} (h : MathExtends pos F G)
    {v : ValueId} (hv : v < mathFreshId F) : loadedInitializer G v = loadedInitializer F v := by
  unfold loadedInitializer
  rw [h.2.2.2.1 v hv]
  split
  · rename_i ptr heq
    have hp : ptr < mathFreshId F :=
      operand_lt_mathFreshId (mathGetInst_some heq).1
        (by simp [MathInst.operands, MathKind.operands])
    rw [h.2.2.2.1 ptr hp, h.1]
  · rfl

theorem specConstantResolver_congr {pos : ValueId} {F G : MathFunction}
    (h : MathExtends pos F G) {E0 : ValueId} (hv : E0 < mathFreshId F) :
    specConstantResolver G E0 = specConstantResolver F E0 := by
  unfold specConstantResolver
  rw [h.2.2.2.1 E0 hv]
  dsimp only
  have hE : (match mathGetInst F E0 with
      | some ⟨_, .fpext src⟩ => src
      | _ => E0) < mathFreshId F := by
    split
    · rename_i src heq
      exact operand_lt_mathFreshId (mathGetInst_some heq).1
        (by simp [MathInst.operands, MathKind.operands])
    · exact hv
  rw [asConstantFP_congr h hE, loadedInitializer_congr h hE]

/-- What the scan keeps true of the body and of the replacement list. -/
theorem mathScan_spec {F : MathFunction} (L : List ValueId) :
    ∀ (G : MathFunction) (R : List (ValueId × ValueId)) (Changed : Bool),
      (∀ I ∈ L, mathIsLive F I = true) →
      (∀ pos, mathIsLive F pos = true → MathExtends pos F G) →
      (∀ p ∈ R, specQualifies F p.1 ∧ mathFreshId F ≤ p.2) →
      (∀ pos, mathIsLive F pos = true → MathExtends pos F (mathScan L G R Changed).1) ∧
      (∀ p ∈ (mathScan L G R Changed).2.1, specQualifies F p.1 ∧ mathFreshId F ≤ p.2) ∧
      (∀ p ∈ R, p ∈ (mathScan L G R Changed).2.1) ∧
      (∀ I ∈ L, specQualifies F I → I ∈ (mathScan L G R Changed).2.1.map Prod.fst) := by
  induction L with
  | nil =>
    intro G R Changed _ hE hR
    exact ⟨hE, hR, fun p hp => hp, fun I hI => by cases hI⟩
  | cons I rest ih =>
    intro G R Changed hL hE hR
    have hIl : mathIsLive F I = true := hL I (List.mem_cons_self _ _)
    have hEI := hE I hIl
    have hrest : ∀ J ∈ rest, mathIsLive F J = true :=
      fun J hJ => hL J (List.mem_cons_of_mem _ hJ)
    have hstepE := mathStep_extends hEI.2.1
    have hE' : ∀ pos, mathIsLive F pos = true → MathExtends pos F (mathStep G I).1 :=
      fun pos hp => mathExtends_pos (mathExtends_trans hEI hstepE) hp
    have hIlt := lt_mathFreshId_of_isLive hIl
    -- what the step at `I` says about `F`
    have hqual : ∀ Name X E0 q, mathGetInst G I = some ⟨I, .call (some Name) [X, E0]⟩ →
        nameContains Name "pow" = true → specConstantResolver G E0 = some q →
        mathGetInst F I = some ⟨I, .call (some Name) [X, E0]⟩ ∧
          specConstantResolver F E0 = some q := by
      intro Name X E0 q hI hn hr
      have hIF : mathGetInst F I = some ⟨I, .call (some Name) [X, E0]⟩ := by
        rw [← hEI.2.2.2.1 I hIlt]; exact hI
      have hE0 : E0 < mathFreshId F :=
        operand_lt_mathFreshId (mathGetInst_some hIF).1
          (by simp [MathInst.operands, MathKind.operands])
      exact ⟨hIF, by rw [← specConstantResolver_congr hEI hE0]; exact hr⟩
    unfold mathScan
    cases hs : mathStep G I with
    | mk F1 r =>
      rw [hs] at hE' hstepE
      cases r with
      | none =>
        obtain ⟨a, b, c, d⟩ := ih F1 R Changed hrest hE' hR
        refine ⟨a, b, c, ?_⟩
        intro J hJ hq
        rcases List.mem_cons.1 hJ with rfl | hJ'
        · exfalso
          obtain ⟨Name, X, E0, q, T, hIF, hn, hr, hT⟩ := hq
          have hIG : mathGetInst G J = some ⟨J, .call (some Name) [X, E0]⟩ := by
            rw [hEI.2.2.2.1 J hIlt]; exact hIF
          have hE0 : E0 < mathFreshId F :=
            operand_lt_mathFreshId (mathGetInst_some hIF).1
              (by simp [MathInst.operands, MathKind.operands])
          have hrG : specConstantResolver G E0 = some q := by
            rw [specConstantResolver_congr hEI hE0]; exact hr
          obtain ⟨r', hr', _⟩ := (mathStep_tree hIG hn hrG).2 T hT
          rw [hs] at hr'
          cases hr'
        · exact d J hJ' hq
      | some Approx =>
        have hnew : specQualifies F I ∧ mathFreshId F ≤ Approx := by
          rcases mathStep_cases G I with h | ⟨Name, X, E0, q, hI, hn, hr, h⟩
          · rw [hs] at h
            cases h
          · obtain ⟨hIF, hrF⟩ := hqual Name X E0 q hI hn hr
            have hX : X < mathFreshId G :=
              operand_lt_mathFreshId (mathGetInst_some hI).1
                (by simp [MathInst.operands, MathKind.operands])
            obtain ⟨_, hnone, hsome⟩ := buildPowerApprox_tree G I X q hEI.2.1 hX
            cases hT : specPowerTable q with
            | none =>
              rw [hs] at h
              rw [hnone hT] at h
              cases h
            | some T =>
              refine ⟨⟨Name, X, E0, q, T, hIF, hn, hrF, hT⟩, ?_⟩
              -- the replacement is a new instruction
              have hfr := buildPowerApprox_fresh G I X q hEI.2.1 hX Approx (by rw [← h, hs])
              exact le_trans hEI.2.2.1 hfr
        have hR' : ∀ p ∈ R ++ [(I, Approx)], specQualifies F p.1 ∧ mathFreshId F ≤ p.2 := by
          intro p hp
          rcases List.mem_append.1 hp with hp | hp
          · exact hR p hp
          · rw [List.mem_singleton.1 hp]
            exact hnew
        obtain ⟨a, b, c, d⟩ := ih F1 (R ++ [(I, Approx)]) true hrest hE' hR'
        refine ⟨a, b, fun p hp => c p (List.mem_append_left _ hp), ?_⟩
        intro J hJ hq
        rcases List.mem_cons.1 hJ with rfl | hJ'
        · exact List.mem_map.2 ⟨(J, Approx), c _ (List.mem_append_right _ (List.mem_singleton_self _)), rfl⟩
        · exact d J hJ' hq

theorem mathInst_id_mapOperands (g : ValueId → ValueId) (i : MathInst) :
    (i.mapOperands g).id = i.id := rfl

theorem find_rewired (a b v : ValueId) (hv : v ≠ a) (L : List MathInst) :
    ((L.map (MathInst.mapOperands (subst a b))).filter (fun i => i.id != a)).find?
        (fun i => i.id == v)
      = (L.find? (fun i => i.id == v)).map (MathInst.mapOperands (subst a b)) := by
  induction L with
  | nil => rfl
  | cons i rest ih =>
    rw [List.map_cons]
    by_cases hia : i.id = a
    · have h1 : ((MathInst.mapOperands (subst a b) i).id != a) = false := by
        rw [mathInst_id_mapOperands]; simp [hia]
      have h2 : (i.id == v) = false := by
        rw [hia]; simp; exact fun h => hv h.symm
      rw [List.filter_cons, h1]
      simp only [Bool.false_eq_true, if_false]
      rw [ih, List.find?_cons, h2]
    · have h1 : ((MathInst.mapOperands (subst a b) i).id != a) = true := by
        rw [mathInst_id_mapOperands]; simp [hia]
      rw [List.filter_cons, h1]
      simp only [if_true]
      rw [List.find?_cons, List.find?_cons, mathInst_id_mapOperands]
      by_cases hiv : (i.id == v) = true
      · rw [hiv]; rfl
      · have hiv2 : (i.id == v) = false := by simpa using hiv
        rw [hiv2]
        exact ih

theorem mathGetInst_rewired {G : MathFunction} {a b v : ValueId} (hv : v ≠ a) :
    mathGetInst (mathEraseFromParent (mathReplaceAllUsesWith G a b) a) v
      = (mathGetInst G v).map (MathInst.mapOperands (subst a b)) :=
  find_rewired a b v hv G.insts

theorem mathInst_mapOperands_comp (g h : ValueId → ValueId) (i : MathInst) :
    (i.mapOperands g).mapOperands h = i.mapOperands (h ∘ g) := by
  obtain ⟨id, k⟩ := i
  cases k <;> simp [MathInst.mapOperands, MathKind.mapOperands, List.map_map]

theorem mathInst_operands_mapOperands (g : ValueId → ValueId) (i : MathInst) :
    (i.mapOperands g).operands = i.operands.map g := by
  obtain ⟨id, k⟩ := i
  cases k <;> rfl

theorem redirect_fixes (R : List (ValueId × ValueId)) :
    ∀ v, v ∉ R.map Prod.fst → redirect R v = v := by
  induction R with
  | nil => intro v _; rfl
  | cons p rest ih =>
    intro v hv
    obtain ⟨a, b⟩ := p
    simp only [List.map_cons, List.mem_cons, not_or] at hv
    unfold redirect
    have : subst a b v = v := by simp [subst, hv.1]
    rw [this]
    exact ih v hv.2

/-- An instruction that is not replaced is still there after the replacement
loop, its operands redirected. -/
theorem applyReplacements_keeps (R : List (ValueId × ValueId)) :
    ∀ (G : MathFunction) (J : MathInst), mathGetInst G J.id = some J →
      J.id ∉ R.map Prod.fst →
      mathGetInst (applyReplacements R G) J.id = some (J.mapOperands (redirect R)) := by
  induction R with
  | nil =>
    intro G J hJ _
    obtain ⟨id, k⟩ := J
    have : (⟨id, k⟩ : MathInst).mapOperands (redirect []) = ⟨id, k⟩ := by
      cases k <;> simp [MathInst.mapOperands, MathKind.mapOperands, redirect]
    rw [this]
    exact hJ
  | cons p rest ih =>
    intro G J hJ hnot
    obtain ⟨a, b⟩ := p
    simp only [List.map_cons, List.mem_cons, not_or] at hnot
    unfold applyReplacements
    have h1 : mathGetInst (mathEraseFromParent (mathReplaceAllUsesWith G a b) a) J.id
        = some (J.mapOperands (subst a b)) := by
      rw [mathGetInst_rewired hnot.1, hJ]
      rfl
    have h2 := ih _ (J.mapOperands (subst a b)) h1 hnot.2
    rw [mathInst_mapOperands_comp] at h2
    exact h2

/-- After the replacement loop no operand refers to `x`, if none did before or
`x` was replaced, and no replacement value is `x`. -/
theorem applyReplacements_no_operand (R : List (ValueId × ValueId)) :
    ∀ (G : MathFunction) (x : ValueId),
      ((∀ i ∈ G.insts, x ∉ i.operands) ∨ x ∈ R.map Prod.fst) →
      (∀ p ∈ R, p.2 ≠ x) →
      ∀ i ∈ (applyReplacements R G).insts, x ∉ i.operands := by
  induction R with
  | nil =>
    intro G x h _
    rcases h with h | h
    · exact h
    · cases h
  | cons p rest ih =>
    intro G x h hne
    obtain ⟨a, b⟩ := p
    unfold applyReplacements
    have hb : b ≠ x := hne (a, b) (List.mem_cons_self _ _)
    have hrest : ∀ p ∈ rest, p.2 ≠ x := fun p hp => hne p (List.mem_cons_of_mem _ hp)
    by_cases hax : x = a
    · subst hax
      apply ih _ x (Or.inl ?_) hrest
      intro i hi hx
      have hm := (List.mem_filter.1 hi).1
      obtain ⟨j, _, rfl⟩ := List.mem_map.1 hm
      rw [mathInst_operands_mapOperands] at hx
      obtain ⟨u, _, hu⟩ := List.mem_map.1 hx
      unfold subst at hu
      split at hu
      · exact hb hu
      · rename_i hux
        exact hux hu
    · rcases h with h | h
      · apply ih _ x (Or.inl ?_) hrest
        intro i hi hx
        have hm := (List.mem_filter.1 hi).1
        obtain ⟨j, hj, rfl⟩ := List.mem_map.1 hm
        rw [mathInst_operands_mapOperands] at hx
        obtain ⟨u, hu, hsu⟩ := List.mem_map.1 hx
        unfold subst at hsu
        split at hsu
        · exact hb hsu
        · rw [hsu] at hu
          exact h j hj hu
      · simp only [List.map_cons, List.mem_cons] at h
        rcases h with h | h
        · exact absurd h hax
        · exact ih _ x (Or.inr h) hrest

theorem mathScan_initial (F : MathFunction) :
    (∀ pos, mathIsLive F pos = true →
      MathExtends pos F (mathScan (F.insts.map MathInst.id) F [] false).1) ∧
    (∀ p ∈ replacements F, specQualifies F p.1 ∧ mathFreshId F ≤ p.2) ∧
    (∀ I, mathIsLive F I = true → specQualifies F I → I ∈ (replacements F).map Prod.fst) := by
  have hL : ∀ I ∈ F.insts.map MathInst.id, mathIsLive F I = true := by
    intro I hI
    obtain ⟨i, hi, rfl⟩ := List.mem_map.1 hI
    exact mathIsLive_iff.2 ⟨i, hi, rfl⟩
  obtain ⟨a, b, _, d⟩ := mathScan_spec (F.insts.map MathInst.id) F [] false hL
    (fun pos hp => mathExtends_refl hp) (fun p hp => by cases hp)
  refine ⟨a, b, fun I hI hq => d I ?_ hq⟩
  obtain ⟨i, hi, hid⟩ := mathIsLive_iff.1 hI
  exact List.mem_map.2 ⟨i, hi, hid⟩

/-- The uses of a replaced call end up at its replacement. -/
theorem redirect_replaced (R : List (ValueId × ValueId)) :
    ∀ (I : ValueId), I ∈ R.map Prod.fst → (∀ p ∈ R, p.2 ∉ R.map Prod.fst) →
      (I, redirect R I) ∈ R := by
  induction R with
  | nil => intro I h; cases h
  | cons p rest ih =>
    intro I h hfresh
    obtain ⟨a, b⟩ := p
    have hrest : ∀ p ∈ rest, p.2 ∉ rest.map Prod.fst := by
      intro p hp hm
      exact hfresh p (List.mem_cons_of_mem _ hp) (List.mem_cons_of_mem _ hm)
    unfold redirect
    by_cases hIa : I = a
    · subst hIa
      have hs : subst I b I = b := by simp [subst]
      have hb : b ∉ rest.map Prod.fst := by
        intro hm
        exact hfresh (I, b) (List.mem_cons_self _ _) (List.mem_cons_of_mem _ hm)
      rw [hs, redirect_fixes rest b hb]
      exact List.mem_cons_self _ _
    · have hs : subst a b I = I := by simp [subst, hIa]
      rw [hs]
      simp only [List.map_cons, List.mem_cons] at h
      rcases h with h | h
      · exact absurd h hIa
      · exact List.mem_cons_of_mem _ (ih I h hrest)

/-- An instruction that does not qualify is still in the function after the
pass, its operands redirected. -/
theorem optimizeMathFunctions_keeps_lookup {F : MathFunction} {J : MathInst}
    (hJ : mathGetInst F J.id = some J) (hnq : ¬ specQualifies F J.id) :
    mathGetInst (optimizeMathFunctions F).2 J.id
      = some (J.mapOperands (redirect (replacements F))) := by
  obtain ⟨hE, hR, _⟩ := mathScan_initial F
  have hJl : mathIsLive F J.id = true := by simp [mathIsLive, hJ]
  have hnot : J.id ∉ (replacements F).map Prod.fst := by
    intro hm
    obtain ⟨p, hp, hpe⟩ := List.mem_map.1 hm
    exact hnq (hpe ▸ (hR p hp).1)
  have hJG : mathGetInst (mathScan (F.insts.map MathInst.id) F [] false).1 J.id = some J := by
    rw [(hE J.id hJl).2.2.2.1 J.id (lt_mathFreshId_of_isLive hJl)]
    exact hJ
  exact applyReplacements_keeps (replacements F) _ J hJG hnot

/-- **C15 (as amended).** Calls that do not qualify are not replaced.  Every
call that `optimizeMathFunctions` replaces qualifies: its callee is a known
function whose name contains `pow`, it has exactly two arguments, and its
exponent resolves to a constant for which a window test of the table holds (as
the source evaluates it, in `double` arithmetic).  Every other
instruction of the function, in particular every other call, is still in the
function after the pass, and an operand slot of it has changed only where it
held a replaced call, which it now holds the replacement of. -/
theorem optimizeMathFunctions_keeps_other_calls (F : MathFunction) :
    (∀ p ∈ replacements F, specQualifies F p.1) ∧
    (∀ v, v ∉ (replacements F).map Prod.fst → redirect (replacements F) v = v) ∧
    (∀ v, v ∈ (replacements F).map Prod.fst →
      (v, redirect (replacements F) v) ∈ replacements F) ∧
    (∀ J, mathGetInst F J.id = some J → ¬ specQualifies F J.id →
      J.mapOperands (redirect (replacements F)) ∈ (optimizeMathFunctions F).2.insts) := by
  obtain ⟨hE, hR, _⟩ := mathScan_initial F
  refine ⟨fun p hp => (hR p hp).1, redirect_fixes _, ?_,
    fun J hJ hnq => (mathGetInst_some (optimizeMathFunctions_keeps_lookup hJ hnq)).1⟩
  intro v hv
  apply redirect_replaced (replacements F) v hv
  intro p hp hm
  obtain ⟨p', hp', he⟩ := List.mem_map.1 hm
  obtain ⟨Name, X', E0, q, T', hI, _⟩ := (hR p' hp').1
  have h1 : p'.1 < mathFreshId F := lt_mathFreshId_of_isLive (by simp [mathIsLive, hI])
  have h2 := (hR p hp).2
  rw [he] at h1
  exact absurd (lt_of_lt_of_le h1 h2) (lt_irrefl _)

theorem exPowUser_printf_not_qualifies : ¬ specQualifies exPowUser 4 := by
  rintro ⟨Name, X, E0, q, T, hI, hn, _, _⟩
  have h4 : mathGetInst exPowUser 4 = some ⟨4, .call (some "printf") [3]⟩ := rfl
  rw [h4] at hI
  simp only [Option.some.injEq, MathInst.mk.injEq, MathKind.call.injEq, true_and] at hI
  obtain ⟨hname, _⟩ := hI
  rw [← hname] at hn
  exact absurd hn (by decide)

/-- **C15 (witness).** In `%3 = call pow(%1, 2.2); %4 = call printf(%3)` the call
of `printf` does not qualify and is still in the function after the pass, its
operand redirected to the replacement `%9` of the call of `pow`. -/
theorem optimizeMathFunctions_keeps_other_calls_witness :
    mathGetInst exPowUser 4 = some ⟨4, .call (some "printf") [3]⟩ ∧
    ¬ specQualifies exPowUser 4 ∧
    redirect (replacements exPowUser) 3 = 9 ∧
    (⟨4, .call (some "printf") [redirect (replacements exPowUser) 3]⟩ : MathInst)
      ∈ (optimizeMathFunctions exPowUser).2.insts :=
  ⟨rfl, exPowUser_printf_not_qualifies, by decide,
    (optimizeMathFunctions_keeps_other_calls exPowUser).2.2.2
      ⟨4, .call (some "printf") [3]⟩ rfl exPowUser_printf_not_qualifies⟩

/-- **C15 (counterexample).** In `%3 = call pow(%1, 2.2); %4 = call printf(%3)`
the call of `printf` does not qualify, and after the pass it is no longer in the
function with the operand `%3`: no instruction refers to the replaced call, and
the call of `printf` has the replacement `%9` as its operand.  And the window
tests are those of the source, in `double` arithmetic: `pow(x, 2.25)` is
replaced although `2.25` is in no window of the table read over exact
rationals. -/
theorem other_call_operand_redirected :
    ¬ specQualifies exPowUser 4 ∧
    (⟨4, .call (some "printf") [3]⟩ : MathInst) ∈ exPowUser.insts ∧
    (⟨4, .call (some "printf") [3]⟩ : MathInst) ∉ (optimizeMathFunctions exPowUser).2.insts ∧
    optimizeMathFunctions exPowUser =
      (true, ⟨[(1, .otherValue), (2, .constantFP 2.2)],
        [⟨5, .fmul 1 1⟩, ⟨6, .sqrt 1⟩, ⟨7, .sqrt 6⟩, ⟨8, .sqrt 7⟩, ⟨9, .fmul 5 8⟩,
         ⟨4, .call (some "printf") [9]⟩]⟩) ∧
    Double.toRat (.finite 9 (-2)) = some (9 / 4) ∧
    specExactTable (9 / 4) = none ∧
    optimizeMathFunctions (exPowLiteral (.finite 9 (-2))) =
      (true, ⟨[(1, .otherValue), (2, .constantFP (.finite 9 (-2)))],
        [⟨5, .fmul 1 1⟩, ⟨6, .sqrt 1⟩, ⟨7, .sqrt 6⟩, ⟨8, .sqrt 7⟩, ⟨9, .fmul 5 8⟩,
         ⟨4, .otherMath 0 [9]⟩]⟩) := by
  refine ⟨exPowUser_printf_not_qualifies, by decide, by decide, by decide, ?_, ?_, by decide⟩
  · simp only [Double.toRat, Option.some.injEq]
    norm_num
  · unfold specExactTable
    norm_num [abs_lt]

/-! ## Lookups after a rewrite -/

theorem find_insertBeforeList_ne {pos v : ValueId} {n : Instruction} (hne : v ≠ n.id)
    (l : List Instruction) :
    (insertBeforeList pos n l).find? (fun i => i.id == v) = l.find? (fun i => i.id == v) := by
  induction l with
  | nil => rfl
  | cons a rest ih =>
    unfold insertBeforeList
    split
    · have hn : (n.id == v) = false := by
        simpa using fun e => hne e.symm
      simp [List.find?_cons, hn]
    · simp only [List.find?_cons, ih]

theorem getInst_insertBefore_ne {F : Function} {pos v : ValueId} {n : Instruction}
    (hne : v ≠ n.id) : getInst (insertBefore F pos n) v = getInst F v :=
  find_insertBeforeList_ne hne F.insts

theorem instruction_id_mapOperands (g : ValueId → ValueId) (i : Instruction) :
    (i.mapOperands g).id = i.id := rfl

theorem find_rewired_inst (a b v : ValueId) (hv : v ≠ a) (L : List Instruction) :
    ((L.map (Instruction.mapOperands (subst a b))).filter (fun i => i.id != a)).find?
        (fun i => i.id == v)
      = (L.find? (fun i => i.id == v)).map (Instruction.mapOperands (subst a b)) := by
  induction L with
  | nil => rfl
  | cons i rest ih =>
    rw [List.map_cons]
    by_cases hia : i.id = a
    · have h1 : ((Instruction.mapOperands (subst a b) i).id != a) = false := by
        rw [instruction_id_mapOperands]; simp [hia]
      have h2 : (i.id == v) = false := by
        rw [hia]; simp; exact fun h => hv h.symm
      rw [List.filter_cons, h1]
      simp only [Bool.false_eq_true, if_false]
      rw [ih, List.find?_cons, h2]
    · have h1 : ((Instruction.mapOperands (subst a b) i).id != a) = true := by
        rw [instruction_id_mapOperands]; simp [hia]
      rw [List.filter_cons, h1]
      simp only [if_true]
      rw [List.find?_cons, List.find?_cons, instruction_id_mapOperands]
      by_cases hiv : (i.id == v) = true
      · rw [hiv]; rfl
      · have hiv2 : (i.id == v) = false := by simpa using hiv
        rw [hiv2]
        exact ih

theorem getInst_rewired {G : Function} {a b v : ValueId} (hv : v ≠ a) :
    getInst (eraseFromParent (replaceAllUsesWith G a b) a) v
      = (getInst G v).map (Instruction.mapOperands (subst a b)) :=
  find_rewired_inst a b v hv G.insts

theorem find_filter_ne (d v : ValueId) (L : List Instruction) :
    (L.filter (fun i => i.id != d)).find? (fun i => i.id == v)
      = if v = d then none else L.find? (fun i => i.id == v) := by
  induction L with
  | nil => simp
  | cons i rest ih =>
    by_cases hid : i.id = d
    · have h1 : (i.id != d) = false := by simp [hid]
      rw [List.filter_cons, h1]
      simp only [Bool.false_eq_true, if_false]
      rw [ih]
      by_cases hvd : v = d
      · simp [hvd]
      · have h2 : (i.id == v) = false := by
          rw [hid]; simp; exact fun h => hvd h.symm
        simp only [hvd, if_false]
        rw [List.find?_cons, h2]
    · have h1 : (i.id != d) = true := by simp [hid]
      rw [List.filter_cons, h1]
      simp only [if_true]
      rw [List.find?_cons, ih]
      by_cases hvd : v = d
      · have h2 : (i.id == v) = false := by
          rw [hvd]; simpa using hid
        rw [h2]
        simp [hvd]
      · simp only [hvd, if_false]
        rw [List.find?_cons]

theorem getInst_eraseFromParent (G : Function) (d v : ValueId) :
    getInst (eraseFromParent G d) v = if v = d then none else getInst G v :=
  find_filter_ne d v G.insts

/-- Lookup after the rewire-then-erase tail. -/
theorem getInst_commit {G : Function} {S r dead v : ValueId} (hv : v ≠ S) :
    getInst (commit G S r dead) v =
      if use_empty (eraseFromParent (replaceAllUsesWith G S r) S) dead = true ∧ v = dead
      then none else (getInst G v).map (Instruction.mapOperands (subst S r)) := by
  rw [commit_eq]
  by_cases hu : use_empty (eraseFromParent (replaceAllUsesWith G S r) S) dead = true
  · simp only [hu, if_true, true_and]
    rw [getInst_eraseFromParent, getInst_rewired hv]
  · simp only [hu, if_false, false_and]
    exact getInst_rewired hv

theorem mapOperands_subst_of_not_mem {S r : ValueId} {i : Instruction}
    (h : S ∉ i.operands) : i.mapOperands (subst S r) = i := by
  obtain ⟨id, ty, blk, k⟩ := i
  have hs : ∀ v, v ≠ S → subst S r v = v := fun v hv => by simp [subst, hv]
  cases k with
  | select c t f =>
    simp only [Instruction.operands, InstKind.operands, List.mem_cons, List.mem_singleton,
      List.not_mem_nil, or_false, not_or] at h
    simp [Instruction.mapOperands, InstKind.mapOperands, hs c (Ne.symm h.1),
      hs t (Ne.symm h.2.1), hs f (Ne.symm h.2.2)]
  | cmp p l x =>
    simp only [Instruction.operands, InstKind.operands, List.mem_cons, List.mem_singleton,
      List.not_mem_nil, or_false, not_or] at h
    simp [Instruction.mapOperands, InstKind.mapOperands, hs l (Ne.symm h.1), hs x (Ne.symm h.2)]
  | binary o l x =>
    simp only [Instruction.operands, InstKind.operands, List.mem_cons, List.mem_singleton,
      List.not_mem_nil, or_false, not_or] at h
    simp [Instruction.mapOperands, InstKind.mapOperands, hs l (Ne.symm h.1), hs x (Ne.symm h.2)]
  | intrinsic o l x =>
    simp only [Instruction.operands, InstKind.operands, List.mem_cons, List.mem_singleton,
      List.not_mem_nil, or_false, not_or] at h
    simp [Instruction.mapOperands, InstKind.mapOperands, hs l (Ne.symm h.1), hs x (Ne.symm h.2)]
  | otherInst tg ops =>
    simp only [Instruction.operands, InstKind.operands] at h
    simp only [Instruction.mapOperands, InstKind.mapOperands]
    congr 2
    conv_rhs => rw [← List.map_id ops]
    apply List.map_congr_left
    intro v hv
    exact hs v (fun e => h (e ▸ hv))

theorem operand_lt_freshId {F : Function} {i : Instruction} (h : i ∈ F.insts)
    {v : ValueId} (hv : v ∈ i.operands) : v < freshId F := by
  unfold freshId maxId
  apply Nat.lt_succ_of_le
  apply le_foldr_max
  apply List.mem_append_right
  exact List.mem_flatten.2 ⟨i.operands, List.mem_map.2 ⟨i, h, rfl⟩, hv⟩

theorem getType_congr {G G' : Function} {v : ValueId} (hval : G'.values = G.values)
    (h : getInst G' v = getInst G v) : getType G' v = getType G v := by
  unfold getType
  rw [h, hval]

/-! ## Ranks: the scan order as a number -/

theorem scanRank_eq_zero {L : List Instruction} {v : ValueId}
    (h : v ∉ L.map Instruction.id) : scanRank L v = 0 := by
  induction L with
  | nil => rfl
  | cons i rest ih =>
    simp only [List.map_cons, List.mem_cons, not_or] at h
    unfold scanRank
    rw [if_neg h.1, ih h.2]
    rfl

theorem scanRank_pos {L : List Instruction} {v : ValueId}
    (h : v ∈ L.map Instruction.id) : 0 < scanRank L v := by
  induction L with
  | nil => cases h
  | cons i rest ih =>
    unfold scanRank
    by_cases hv : v = i.id
    · rw [if_pos hv]; exact Nat.one_pos
    · rw [if_neg hv]
      simp only [List.map_cons, List.mem_cons] at h
      rcases h with h | h
      · exact absurd h hv
      · have := ih h
        rw [if_neg (Nat.ne_of_gt this)]
        exact Nat.succ_pos _

theorem scanRank_cons_of_mem {i : Instruction} {rest : List Instruction} {v : ValueId}
    (hne : v ≠ i.id) (h : v ∈ rest.map Instruction.id) :
    scanRank (i :: rest) v = scanRank rest v + 1 := by
  have := scanRank_pos h
  conv_lhs => unfold scanRank
  rw [if_neg hne, if_neg (Nat.ne_of_gt this)]

theorem scanRank_cons_of_not_mem {i : Instruction} {rest : List Instruction} {v : ValueId}
    (hne : v ≠ i.id) (h : v ∉ rest.map Instruction.id) :
    scanRank (i :: rest) v = 0 := by
  conv_lhs => unfold scanRank
  rw [if_neg hne, if_pos (scanRank_eq_zero h)]

theorem scanRank_cons_self (i : Instruction) (rest : List Instruction) :
    scanRank (i :: rest) i.id = 1 := by
  conv_lhs => unfold scanRank
  rw [if_pos rfl]

theorem scanRank_ranked (L : List Instruction) (nd : (L.map Instruction.id).Nodup)
    (hself : ∀ i ∈ L, i.id ∉ i.operands)
    (hord : L.Pairwise (fun i j => j.id ∉ i.operands)) :
    ∀ i ∈ L, ∀ v ∈ i.operands, scanRank L v < scanRank L i.id := by
  induction L with
  | nil => intro i hi; cases hi
  | cons a rest ih =>
    rw [List.map_cons, List.nodup_cons] at nd
    rw [List.pairwise_cons] at hord
    have ih' := ih nd.2 (fun i hi => hself i (List.mem_cons_of_mem _ hi)) hord.2
    intro i hi v hv
    rcases List.mem_cons.1 hi with rfl | hi'
    · have hva : v ≠ i.id := fun e => hself i (List.mem_cons_self _ _) (e ▸ hv)
      have hvr : v ∉ rest.map Instruction.id := by
        intro hm
        obtain ⟨j, hj, hjid⟩ := List.mem_map.1 hm
        exact hord.1 j hj (hjid ▸ hv)
      rw [scanRank_cons_of_not_mem hva hvr, scanRank_cons_self]
      exact Nat.one_pos
    · have him : i.id ∈ rest.map Instruction.id := List.mem_map.2 ⟨i, hi', rfl⟩
      have hia : i.id ≠ a.id := fun e => nd.1 (e ▸ him)
      rw [scanRank_cons_of_mem hia him]
      by_cases hva : v = a.id
      · rw [hva, scanRank_cons_self]
        exact Nat.succ_lt_succ (scanRank_pos him)
      · by_cases hvm : v ∈ rest.map Instruction.id
        · rw [scanRank_cons_of_mem hva hvm]
          exact Nat.succ_lt_succ (ih' i hi' v hv)
        · rw [scanRank_cons_of_not_mem hva hvm]
          exact Nat.succ_pos _

theorem scanRank_increasing (L : List Instruction) (nd : (L.map Instruction.id).Nodup) :
    L.Pairwise (fun i j => scanRank L i.id < scanRank L j.id) := by
  induction L with
  | nil => exact List.Pairwise.nil
  | cons a rest ih =>
    rw [List.map_cons, List.nodup_cons] at nd
    rw [List.pairwise_cons]
    have hne : ∀ j ∈ rest, j.id ≠ a.id :=
      fun j hj e => nd.1 (e ▸ List.mem_map.2 ⟨j, hj, rfl⟩)
    constructor
    · intro j hj
      have hjm : j.id ∈ rest.map Instruction.id := List.mem_map.2 ⟨j, hj, rfl⟩
      rw [scanRank_cons_self, scanRank_cons_of_mem (hne j hj) hjm]
      exact Nat.succ_lt_succ (scanRank_pos hjm)
    · apply (ih nd.2).imp_of_mem
      intro i j hi hj hlt
      rw [scanRank_cons_of_mem (hne i hi) (List.mem_map.2 ⟨i, hi, rfl⟩),
        scanRank_cons_of_mem (hne j hj) (List.mem_map.2 ⟨j, hj, rfl⟩)]
      exact Nat.succ_lt_succ hlt

theorem mem_selectWorklist {G : Function} {s : ValueId} :
    s ∈ selectWorklist G ↔ ∃ i ∈ G.insts, i.id = s ∧ ∃ c t f, i.kind = .select c t f := by
  unfold selectWorklist
  rw [List.mem_filterMap]
  constructor
  · rintro ⟨i, hi, h⟩
    split at h
    · rename_i c t f hk
      exact ⟨i, hi, by simpa using h, c, t, f, hk⟩
    · cases h
  · rintro ⟨i, hi, hid, c, t, f, hk⟩
    refine ⟨i, hi, ?_⟩
    rw [hk, hid]

theorem find_of_mem_nodup {L : List Instruction} (nd : (L.map Instruction.id).Nodup)
    {i : Instruction} (hi : i ∈ L) : L.find? (fun j => j.id == i.id) = some i := by
  induction L with
  | nil => cases hi
  | cons a rest ih =>
    rw [List.map_cons, List.nodup_cons] at nd
    rcases List.mem_cons.1 hi with rfl | hi'
    · simp [List.find?_cons]
    · have hne : (a.id == i.id) = false := by
        simpa using fun e : a.id = i.id => nd.1 (e ▸ List.mem_map.2 ⟨i, hi', rfl⟩)
      rw [List.find?_cons, hne]
      exact ih nd.2 hi'

/-- What the premise of the idempotence claim gives the loop to start from. -/
theorem defBeforeUse_rank {F : Function} (h : DefBeforeUse F) :
    ∃ rk : ValueId → ℚ, Ranked rk F ∧
      (selectWorklist F).Pairwise (fun a b => rk a < rk b) ∧
      ∀ S ∈ selectWorklist F, IsSelect F S := by
  obtain ⟨nd, hself, hord⟩ := h
  refine ⟨fun v => (scanRank F.insts v : ℚ), ?_, ?_, ?_⟩
  · intro i hi v hv
    exact Nat.cast_lt.2 (scanRank_ranked F.insts nd hself hord i hi v hv)
  · unfold selectWorklist
    apply List.Pairwise.filterMap _ _ (scanRank_increasing F.insts nd)
    intro i j hlt a ha b hb
    have hia : i.id = a := by
      split at ha
      · simpa using ha
      · cases ha
    have hjb : j.id = b := by
      split at hb
      · simpa using hb
      · cases hb
    rw [← hia, ← hjb]
    exact Nat.cast_lt.2 hlt
  · intro S hS
    obtain ⟨i, hi, hid, c, t, f, hk⟩ := mem_selectWorklist.1 hS
    obtain ⟨id, ty, blk, k⟩ := i
    simp only at hid hk
    subst hid hk
    exact ⟨ty, blk, c, t, f, find_of_mem_nodup nd hi⟩

/-! ## One rewrite of the loop -/

theorem ranked_congr {rk rk' : ValueId → ℚ} {G : Function}
    (h : Ranked rk G) (hag : ∀ v, v < freshId G → rk' v = rk v) : Ranked rk' G := by
  intro i hi v hv
  rw [hag v (operand_lt_freshId hi hv), hag i.id (id_lt_freshId hi)]
  exact h i hi v hv

theorem ranked_insertBefore {rk : ValueId → ℚ} {G : Function} {p : ValueId} {n : Instruction}
    (h : Ranked rk G) (hn : ∀ v ∈ n.operands, rk v < rk n.id) :
    Ranked rk (insertBefore G p n) := by
  intro i hi v hv
  rcases mem_insertBeforeList hi with rfl | hi'
  · exact hn v hv
  · exact h i hi' v hv

theorem ranked_commit {rk : ValueId → ℚ} {G : Function} {S r dead : ValueId}
    (h : Ranked rk G) (hr : rk r ≤ rk S) : Ranked rk (commit G S r dead) := by
  intro i hi v hv
  obtain ⟨j, hj, _, rfl⟩ := mem_rewired.1 (mem_commit hi).1
  rw [operands_mapOperands] at hv
  obtain ⟨u, hu, rfl⟩ := List.mem_map.1 hv
  have := h j hj u hu
  show rk (subst S r u) < rk j.id
  unfold subst
  split
  · rename_i e
    rw [e] at this
    exact lt_of_le_of_lt hr this
  · exact this

theorem ranked_irrefl {rk : ValueId → ℚ} {G : Function} (h : Ranked rk G)
    {i : Instruction} (hi : i ∈ G.insts) : i.id ∉ i.operands :=
  fun hm => lt_irrefl _ (h i hi i.id hm)

/-- Everything reached from `s` ranks at most as high as `s`. -/
theorem reach_rank_le {rk : ValueId → ℚ} {G : Function} (h : Ranked rk G) {s v : ValueId}
    (hr : Reach G s v) : rk v ≤ rk s := by
  induction hr with
  | here => exact le_refl _
  | step _ hi hv ih =>
    obtain ⟨him, hid⟩ := getInst_some hi
    have := h _ him _ hv
    rw [hid] at this
    exact le_of_lt (lt_of_lt_of_le this ih)

theorem rewriteStep_values {G G' : Function} {S r dead : ValueId}
    (h : RewriteStep G G' S r dead) : G'.values = G.values := by
  obtain ⟨Gi, rfl, hval, _⟩ := h
  rw [commit_values, hval]

/-- Lookup of an old instruction, other than `S` and `dead`, after a rewrite. -/
theorem rewriteStep_getInst {G G' : Function} {S r dead v : ValueId}
    (h : RewriteStep G G' S r dead) (hv : v < freshId G) (hS : v ≠ S) (hd : v ≠ dead) :
    getInst G' v = (getInst G v).map (Instruction.mapOperands (subst S r)) := by
  obtain ⟨Gi, rfl, _, hold, _⟩ := h
  rw [getInst_commit hS, hold v hv]
  simp [hd]

/-- Lookup of an old instruction that is still there, or still used, after a
rewrite. -/
theorem rewriteStep_getInst_used {G G' : Function} {S r dead v : ValueId}
    (h : RewriteStep G G' S r dead) (hv : v < freshId G) (hS : v ≠ S)
    (hu : isLive G' v = true ∨ ∃ i ∈ G'.insts, v ∈ i.operands) :
    getInst G' v = (getInst G v).map (Instruction.mapOperands (subst S r)) := by
  by_cases hd : v = dead
  · obtain ⟨Gi, rfl, _, hold, _⟩ := h
    have hc := @getInst_commit Gi S r dead v hS
    by_cases hue : use_empty (eraseFromParent (replaceAllUsesWith Gi S r) S) dead = true
    · exfalso
      rcases hu with hl | ⟨i, hi, hvi⟩
      · have := (isLive_commit.1 hl).2.2 hue
        exact this hd
      · exact (use_empty_iff.1 hue) i (mem_commit hi).1 (hd ▸ hvi)
    · rw [hc, hold v hv]
      simp [hue]
  · exact rewriteStep_getInst h hv hS hd

/-- No select is created by a rewrite, and the rewritten one is gone. -/
theorem rewriteStep_selects {G G' : Function} {S r dead s : ValueId}
    (h : RewriteStep G G' S r dead) (hs : s ∈ selectWorklist G') :
    s ∈ selectWorklist G ∧ s ≠ S := by
  obtain ⟨Gi, rfl, _, _, hnew, _⟩ := h
  obtain ⟨i, hi, hid, c, t, f, hk⟩ := mem_selectWorklist.1 hs
  obtain ⟨j, hj, hjS, rfl⟩ := mem_rewired.1 (mem_commit hi).1
  have hjid : j.id = s := hid
  have hjk : ∃ c t f, j.kind = .select c t f := by
    obtain ⟨jid, jty, jblk, jk⟩ := j
    cases jk <;> simp [Instruction.mapOperands, InstKind.mapOperands] at hk ⊢
  refine ⟨?_, hjid ▸ hjS⟩
  rcases hnew j hj with hjG | ⟨_, iid, a, b, hint⟩
  · exact mem_selectWorklist.2 ⟨j, hjG, hjid, hjk⟩
  · obtain ⟨c', t', f', hsel⟩ := hjk
    rw [hint] at hsel
    cases hsel

theorem freshId_lt_freshId_insert {G : Function} {S : ValueId} {n : Instruction}
    (hS : isLive G S = true) (hn : n.id = freshId G) :
    freshId G < freshId (insertBefore G S n) := by
  have hm : n ∈ (insertBefore G S n).insts := new_mem_insertBeforeList (isLive_iff.1 hS)
  have := id_lt_freshId hm
  rw [hn] at this
  exact this

/-- A successful rewrite is a rewrite step whose second erased instruction, if
any, is the inner select or the comparison of the select. -/
theorem rewriteSelect_true_step {G G' : Function} {S C t f : ValueId} {τ : Ty} {blk : Nat}
    (hS : getInst G S = some ⟨S, τ, blk, .select C t f⟩)
    (h : rewriteSelect G S = some (true, G')) :
    ∃ r dead, RewriteStep G G' S r dead ∧
      ((dead = t ∧ IsSelect G t) ∨
       (dead = C ∧ ∃ ty b p l x, getInst G C = some ⟨C, ty, b, .cmp p l x⟩)) := by
  have hSl : isLive G S = true := isLive_of_getInst hS
  rcases rewriteSelect_true_shape hS h with
    ⟨τi, blki, ci, var, upper, mx, mn, hI, htS, rfl⟩ |
    ⟨pred, lhs, rhs, k, iid, opTy, hC, hk, hop, rfl⟩
  · have hlt := @freshId_lt_freshId_insert G S ⟨freshId G, τ, blk, .intrinsic mx var f⟩ hSl rfl
    refine ⟨(withClampChain G S τ blk mx mn var f upper).2, t,
      ⟨(withClampChain G S τ blk mx mn var f upper).1, rfl, rfl, ?_, ?_, ?_⟩,
      Or.inl ⟨rfl, τi, blki, ci, var, upper, hI⟩⟩
    · intro v hv
      unfold withClampChain
      dsimp only
      rw [getInst_insertBefore_ne, getInst_insertBefore_ne]
      · exact Nat.ne_of_lt hv
      · exact Nat.ne_of_lt (lt_trans hv hlt)
    · intro i hi
      unfold withClampChain at hi
      rcases mem_insertBeforeList hi with rfl | hi1
      · exact Or.inr ⟨le_of_lt hlt, _, _, _, rfl⟩
      · rcases mem_insertBeforeList hi1 with rfl | hi0
        · exact Or.inr ⟨le_refl _, _, _, _, rfl⟩
        · exact Or.inl hi0
    · exact le_of_lt hlt
  · obtain ⟨cty, cblk, hCi⟩ := asCmp_some hC
    refine ⟨freshId G, C,
      ⟨insertBefore G S ⟨freshId G, opTy, blk, .intrinsic iid lhs rhs⟩, rfl, rfl, ?_, ?_, le_refl _⟩,
      Or.inr ⟨rfl, cty, cblk, pred, lhs, rhs, hCi⟩⟩
    · intro v hv
      exact getInst_insertBefore_ne (Nat.ne_of_lt hv)
    · intro i hi
      rcases mem_insertBeforeList hi with rfl | hi0
      · exact Or.inr ⟨le_refl _, _, _, _, rfl⟩
      · exact Or.inl hi0

/-- A successful rewrite keeps the graph well formed. -/
theorem rewriteSelect_true_wellFormed {G G' : Function} {S C t f : ValueId} {τ : Ty}
    {blk : Nat} (hwf : WellFormed G)
    (hS : getInst G S = some ⟨S, τ, blk, .select C t f⟩)
    (h : rewriteSelect G S = some (true, G')) : WellFormed G' := by
  have hSl : isLive G S = true := isLive_of_getInst hS
  have hSm := (getInst_some hS).1
  rcases rewriteSelect_true_shape hS h with
    ⟨τi, blki, ci, var, upper, mx, mn, hI, htS, rfl⟩ |
    ⟨pred, lhs, rhs, k, iid, opTy, hC, hk, hop, rfl⟩
  · have hIm := (getInst_some hI).1
    have hpvar : present G var :=
      hwf _ hIm var (by simp [Instruction.operands, InstKind.operands])
    have hpup : present G upper :=
      hwf _ hIm upper (by simp [Instruction.operands, InstKind.operands])
    have hplo : present G f :=
      hwf _ hSm f (by simp [Instruction.operands, InstKind.operands])
    have hG1 : WellFormed (insertBefore G S ⟨freshId G, τ, blk, .intrinsic mx var f⟩) := by
      apply WellFormed_insertBefore hwf
      intro v hv
      simp only [Instruction.operands, InstKind.operands, List.mem_cons,
        List.mem_singleton, List.not_mem_nil, or_false] at hv
      rcases hv with rfl | rfl
      · exact present_insertBefore hpvar
      · exact present_insertBefore hplo
    have hS1 : isLive (insertBefore G S ⟨freshId G, τ, blk, .intrinsic mx var f⟩) S = true :=
      isLive_insertBefore hSl
    have ht1 : isLive (insertBefore G S ⟨freshId G, τ, blk, .intrinsic mx var f⟩)
        (freshId G) = true :=
      isLive_insertBefore_new (n := ⟨freshId G, τ, blk, .intrinsic mx var f⟩) hSl
    have hG : WellFormed (withClampChain G S τ blk mx mn var f upper).1 := by
      unfold withClampChain
      apply WellFormed_insertBefore hG1
      intro v hv
      simp only [Instruction.operands, InstKind.operands, List.mem_cons,
        List.mem_singleton, List.not_mem_nil, or_false] at hv
      rcases hv with rfl | rfl
      · exact Or.inl (isLive_insertBefore ht1)
      · exact present_insertBefore (present_insertBefore hpup)
    have hr : isLive (withClampChain G S τ blk mx mn var f upper).1
        (withClampChain G S τ blk mx mn var f upper).2 = true := by
      unfold withClampChain
      exact isLive_insertBefore_new
        (n := ⟨freshId (insertBefore G S ⟨freshId G, τ, blk, .intrinsic mx var f⟩), τ, blk,
          .intrinsic mn (freshId G) upper⟩) hS1
    have hrS : (withClampChain G S τ blk mx mn var f upper).2 ≠ S := by
      intro e
      have := not_isLive_freshId (insertBefore G S ⟨freshId G, τ, blk, .intrinsic mx var f⟩)
      unfold withClampChain at e
      dsimp only at e
      rw [e, hS1] at this
      cases this
    exact WellFormed_commit hG (Or.inl hr) hrS
  · obtain ⟨cty, cblk, hCi⟩ := asCmp_some hC
    have hCm := (getInst_some hCi).1
    have hpl : present G lhs :=
      hwf _ hCm lhs (by simp [Instruction.operands, InstKind.operands])
    have hpr : present G rhs :=
      hwf _ hCm rhs (by simp [Instruction.operands, InstKind.operands])
    have hG : WellFormed (insertBefore G S ⟨freshId G, opTy, blk, .intrinsic iid lhs rhs⟩) := by
      apply WellFormed_insertBefore hwf
      intro v hv
      simp only [Instruction.operands, InstKind.operands, List.mem_cons,
        List.mem_singleton, List.not_mem_nil, or_false] at hv
      rcases hv with rfl | rfl
      · exact present_insertBefore hpl
      · exact present_insertBefore hpr
    have hr : isLive (insertBefore G S ⟨freshId G, opTy, blk, .intrinsic iid lhs rhs⟩)
        (freshId G) = true :=
      isLive_insertBefore_new (n := ⟨freshId G, opTy, blk, .intrinsic iid lhs rhs⟩) hSl
    have hrS : freshId G ≠ S := by
      intro e
      have := not_isLive_freshId G
      rw [e, hSl] at this
      cases this
    exact WellFormed_commit hG (Or.inl hr) hrS

/-- A successful rewrite keeps the body ranked, with the rank of every old
value as it was. -/
theorem rewriteSelect_true_ranked {G G' : Function} {S C t f : ValueId} {τ : Ty}
    {blk : Nat} {rk : ValueId → ℚ} (hrk : Ranked rk G)
    (hS : getInst G S = some ⟨S, τ, blk, .select C t f⟩)
    (h : rewriteSelect G S = some (true, G')) :
    ∃ rk' : ValueId → ℚ, Ranked rk' G' ∧ ∀ v, v < freshId G → rk' v = rk v := by
  have hSl : isLive G S = true := isLive_of_getInst hS
  have hSm := (getInst_some hS).1
  have hSf : S < freshId G := id_lt_freshId hSm
  have hCS : rk C < rk S :=
    hrk _ hSm C (by simp [Instruction.operands, InstKind.operands])
  have htS' : rk t < rk S :=
    hrk _ hSm t (by simp [Instruction.operands, InstKind.operands])
  have hfS : rk f < rk S :=
    hrk _ hSm f (by simp [Instruction.operands, InstKind.operands])
  rcases rewriteSelect_true_shape hS h with
    ⟨τi, blki, ci, var, upper, mx, mn, hI, htS, rfl⟩ |
    ⟨pred, lhs, rhs, k, iid, opTy, hC, hk, hop, rfl⟩
  · have hIm := (getInst_some hI).1
    have hvar : rk var < rk S := lt_trans
      (hrk _ hIm var (by simp [Instruction.operands, InstKind.operands])) htS'
    have hup : rk upper < rk S := lt_trans
      (hrk _ hIm upper (by simp [Instruction.operands, InstKind.operands])) htS'
    have hvarf : var < freshId G :=
      operand_lt_freshId hIm (by simp [Instruction.operands, InstKind.operands])
    have hupf : upper < freshId G :=
      operand_lt_freshId hIm (by simp [Instruction.operands, InstKind.operands])
    have hff : f < freshId G :=
      operand_lt_freshId hSm (by simp [Instruction.operands, InstKind.operands])
    have hlt := @freshId_lt_freshId_insert G S ⟨freshId G, τ, blk, .intrinsic mx var f⟩ hSl rfl
    let r1 := freshId G
    let r2 := freshId (insertBefore G S ⟨freshId G, τ, blk, .intrinsic mx var f⟩)
    let m : ℚ := (max (rk var) (rk f) + rk S) / 2
    have hmax : max (rk var) (rk f) < rk S := max_lt hvar hfS
    have hm1 : max (rk var) (rk f) < m := by
      show max (rk var) (rk f) < (max (rk var) (rk f) + rk S) / 2
      linarith
    have hm2 : m < rk S := by
      show (max (rk var) (rk f) + rk S) / 2 < rk S
      linarith
    let rk' : ValueId → ℚ := fun v => if v = r2 then rk S else if v = r1 then m else rk v
    have hold : ∀ v, v < freshId G → rk' v = rk v := by
      intro v hv
      have h1 : v ≠ r1 := Nat.ne_of_lt hv
      have h2 : v ≠ r2 := Nat.ne_of_lt (lt_trans hv hlt)
      show (if v = r2 then rk S else if v = r1 then m else rk v) = rk v
      rw [if_neg h2, if_neg h1]
    have hr2 : rk' r2 = rk S := by
      show (if r2 = r2 then rk S else if r2 = r1 then m else rk r2) = rk S
      rw [if_pos rfl]
    have hr1 : rk' r1 = m := by
      have h2 : r1 ≠ r2 := Nat.ne_of_lt hlt
      show (if r1 = r2 then rk S else if r1 = r1 then m else rk r1) = m
      rw [if_neg h2, if_pos rfl]
    refine ⟨rk', ?_, hold⟩
    apply ranked_commit
    · unfold withClampChain
      apply ranked_insertBefore
      · apply ranked_insertBefore (ranked_congr hrk hold)
        intro v hv
        simp only [Instruction.operands, InstKind.operands, List.mem_cons,
          List.mem_singleton, List.not_mem_nil, or_false] at hv
        show rk' v < rk' r1
        rw [hr1]
        rcases hv with rfl | rfl
        · rw [hold _ hvarf]
          exact lt_of_le_of_lt (le_max_left _ _) hm1
        · rw [hold _ hff]
          exact lt_of_le_of_lt (le_max_right _ _) hm1
      · intro v hv
        simp only [Instruction.operands, InstKind.operands, List.mem_cons,
          List.mem_singleton, List.not_mem_nil, or_false] at hv
        show rk' v < rk' r2
        rw [hr2]
        rcases hv with rfl | rfl
        · rw [hr1]; exact hm2
        · rw [hold _ hupf]; exact hup
    · show rk' r2 ≤ rk' S
      rw [hr2, hold S hSf]
  · obtain ⟨cty, cblk, hCi⟩ := asCmp_some hC
    have hCm := (getInst_some hCi).1
    have hl : rk lhs < rk S := lt_trans
      (hrk _ hCm lhs (by simp [Instruction.operands, InstKind.operands])) hCS
    have hr : rk rhs < rk S := lt_trans
      (hrk _ hCm rhs (by simp [Instruction.operands, InstKind.operands])) hCS
    have hlf : lhs < freshId G :=
      operand_lt_freshId hCm (by simp [Instruction.operands, InstKind.operands])
    have hrf : rhs < freshId G :=
      operand_lt_freshId hCm (by simp [Instruction.operands, InstKind.operands])
    let rk' : ValueId → ℚ := fun v => if v = freshId G then rk S else rk v
    have hold : ∀ v, v < freshId G → rk' v = rk v := by
      intro v hv
      have h1 : v ≠ freshId G := Nat.ne_of_lt hv
      show (if v = freshId G then rk S else rk v) = rk v
      rw [if_neg h1]
    have hr1 : rk' (freshId G) = rk S := by
      show (if freshId G = freshId G then rk S else rk (freshId G)) = rk S
      rw [if_pos rfl]
    refine ⟨rk', ?_, hold⟩
    apply ranked_commit
    · apply ranked_insertBefore (ranked_congr hrk hold)
      intro v hv
      simp only [Instruction.operands, InstKind.operands, List.mem_cons,
        List.mem_singleton, List.not_mem_nil, or_false] at hv
      show rk' v < rk' (freshId G)
      rw [hr1]
      rcases hv with rfl | rfl
      · rw [hold _ hlf]; exact hl
      · rw [hold _ hrf]; exact hr
    · show rk' (freshId G) ≤ rk' S
      rw [hr1, hold S hSf]

/-! ## A rejected select stays rejected -/

theorem isSelect_of_rewriteSelect {G : Function} {s : ValueId} {x : Bool × Function}
    (h : rewriteSelect G s = some x) : IsSelect G s := by
  cases hg : getInst G s with
  | none => simp [rewriteSelect, rewriteNestedSelectClamp, hg] at h
  | some i =>
    obtain ⟨id, ty, blk, k⟩ := i
    cases k with
    | select c t f =>
      have := getInst_select_id hg
      subst this
      exact ⟨ty, blk, c, t, f, hg⟩
    | cmp p l r => simp [rewriteSelect, rewriteNestedSelectClamp, hg] at h
    | binary o l r => simp [rewriteSelect, rewriteNestedSelectClamp, hg] at h
    | intrinsic o l r => simp [rewriteSelect, rewriteNestedSelectClamp, hg] at h
    | otherInst tg ops => simp [rewriteSelect, rewriteNestedSelectClamp, hg] at h

theorem asCmp_congr {G G' : Function} {v : ValueId} (h : getInst G' v = getInst G v) :
    asCmp G' v = asCmp G v := by
  unfold asCmp
  rw [h]

theorem hasCmpWith_congr {G G' : Function} {c val : ValueId}
    (hc : getInst G' c = getInst G c)
    (hops : ∀ i, getInst G c = some i → ∀ v ∈ i.operands, getInst G' v = getInst G v) :
    hasCmpWith G' c val = hasCmpWith G c val := by
  unfold hasCmpWith
  rw [hc]
  cases hg : getInst G c with
  | none => rfl
  | some i =>
    obtain ⟨id, ty, blk, k⟩ := i
    cases k with
    | binary op x y =>
      cases op with
      | And =>
        have hx := asCmp_congr
          (hops _ hg x (by simp [Instruction.operands, InstKind.operands]))
        have hy := asCmp_congr
          (hops _ hg y (by simp [Instruction.operands, InstKind.operands]))
        simp only [hx, hy]
      | otherOp tg => rfl
    | select c t f => rfl
    | cmp p l r => rfl
    | intrinsic o l r => rfl
    | otherInst tg ops => rfl

theorem rewriteNestedSelectClamp_rejected_congr {G G' : Function} {s : ValueId}
    (hval : G'.values = G.values)
    (hag : ∀ v, Reach G s v → getInst G' v = getInst G v)
    (hN : rewriteNestedSelectClamp G s = some (false, G)) :
    rewriteNestedSelectClamp G' s = some (false, G') := by
  cases hg : getInst G s with
  | none => simp [rewriteNestedSelectClamp, hg] at hN
  | some i =>
    obtain ⟨id, τ, blk, k⟩ := i
    cases k with
    | select C t f =>
      have hs' := (hag s Reach.here).trans hg
      have rC : Reach G s C :=
        Reach.step Reach.here hg (by simp [Instruction.operands, InstKind.operands])
      have rt : Reach G s t :=
        Reach.step Reach.here hg (by simp [Instruction.operands, InstKind.operands])
      have rf : Reach G s f :=
        Reach.step Reach.here hg (by simp [Instruction.operands, InstKind.operands])
      unfold rewriteNestedSelectClamp at hN ⊢
      simp only [hg] at hN
      simp only [hs']
      rw [hag t rt]
      cases ht : getInst G t with
      | none => rfl
      | some it =>
        obtain ⟨tid, tty, tb, tk⟩ := it
        cases tk with
        | select ci var upper =>
          have rvar : Reach G s var :=
            Reach.step rt ht (by simp [Instruction.operands, InstKind.operands])
          have rup : Reach G s upper :=
            Reach.step rt ht (by simp [Instruction.operands, InstKind.operands])
          have rci : Reach G s ci :=
            Reach.step rt ht (by simp [Instruction.operands, InstKind.operands])
          simp only [ht] at hN
          simp only []
          rw [getType_congr hval (hag var rvar), getType_congr hval (hag upper rup),
            getType_congr hval (hag f rf),
            hasCmpWith_congr (hag C rC) (fun i hi v hv => hag v (Reach.step rC hi hv)),
            hasCmpWith_congr (hag ci rci) (fun i hi v hv => hag v (Reach.step rci hi hv))]
          by_cases h1 : getType G var ≠ some τ ∨ getType G upper ≠ some τ ∨ getType G f ≠ some τ
          · rw [if_pos h1]
          · rw [if_neg h1] at hN ⊢
            by_cases h2 : (!hasCmpWith G C var || !hasCmpWith G ci var) = true
            · rw [if_pos h2]
            · rw [if_neg h2] at hN ⊢
              cases hn : nestedIntrinsics τ.getScalarType with
              | none => rfl
              | some p =>
                obtain ⟨mx, mn⟩ := p
                rw [hn] at hN
                simp only [] at hN
                split_ifs at hN <;> simp at hN
        | cmp p l r => rfl
        | binary o l r => rfl
        | intrinsic o l r => rfl
        | otherInst tg ops => rfl
    | cmp p l r => simp [rewriteNestedSelectClamp, hg] at hN
    | binary o l r => simp [rewriteNestedSelectClamp, hg] at hN
    | intrinsic o l r => simp [rewriteNestedSelectClamp, hg] at hN
    | otherInst tg ops => simp [rewriteNestedSelectClamp, hg] at hN

/-- The verdict "rejected" of `rewriteSelect` on `s` depends only on what is
reached from `s`. -/
theorem rewriteSelect_rejected_congr {G G' : Function} {s : ValueId}
    (hval : G'.values = G.values)
    (hag : ∀ v, Reach G s v → getInst G' v = getInst G v)
    (h : rewriteSelect G s = some (false, G)) :
    rewriteSelect G' s = some (false, G') := by
  obtain ⟨τ, blk, C, t, f, hs⟩ := isSelect_of_rewriteSelect h
  have hs' := (hag s Reach.here).trans hs
  have rC : Reach G s C :=
    Reach.step Reach.here hs (by simp [Instruction.operands, InstKind.operands])
  have hN : rewriteNestedSelectClamp G s = some (false, G) := by
    unfold rewriteSelect at h
    split at h
    · cases h
    · simp at h
    · rename_i F0 hn
      have := rewriteNestedSelectClamp_false hn
      subst this
      exact hn
  have hN' := rewriteNestedSelectClamp_rejected_congr hval hag hN
  unfold rewriteSelect at h ⊢
  rw [hN] at h
  rw [hN']
  simp only [hs] at h
  simp only [hs']
  rw [asCmp_congr (hag C rC)]
  cases hc : asCmp G C with
  | none => rfl
  | some p =>
    obtain ⟨pred, lhs, rhs⟩ := p
    rw [hc] at h
    simp only [] at h ⊢
    by_cases h1 : (!τ.getScalarType.isIntegerTy && !τ.getScalarType.isFloatingPointTy) = true
    · rw [if_pos h1]
    · rw [if_neg h1] at h ⊢
      cases hk : singleIntrinsic pred t f lhs rhs with
      | none => rfl
      | some q =>
        obtain ⟨kk, iid⟩ := q
        rw [hk] at h
        simp only [] at h
        exfalso
        cases hty : getType G lhs with
        | none => rw [hty] at h; simp at h
        | some opTy =>
          rw [hty] at h
          simp only [] at h
          split_ifs at h <;> simp at h

/-! ## C11: idempotence of the select rewriter -/

theorem map_subst_of_rank_lt {rk : ValueId → ℚ} {G : Function} (hrk : Ranked rk G)
    {S r v : ValueId} (hlt : rk v < rk S) :
    (getInst G v).map (Instruction.mapOperands (subst S r)) = getInst G v := by
  cases hg : getInst G v with
  | none => rfl
  | some j =>
    obtain ⟨hjm, hjid⟩ := getInst_some hg
    have hn : S ∉ j.operands := by
      intro hm
      have := hrk j hjm S hm
      rw [hjid] at this
      exact lt_irrefl _ (lt_trans this hlt)
    simp only [Option.map_some', mapOperands_subst_of_not_mem hn]

/-- After a rewrite of `S`, what is reached from an instruction `s` that ranks
below `S` and is still in the body is as it was. -/
theorem rewriteStep_reach_stable {G G' : Function} {S r dead s : ValueId} {rk : ValueId → ℚ}
    (hrk : Ranked rk G) (hst : RewriteStep G G' S r dead)
    (hsl : isLive G s = true) (hsl' : isLive G' s = true) (hlt : rk s < rk S) :
    ∀ v, Reach G s v → getInst G' v = getInst G v := by
  intro v hv
  induction hv with
  | here =>
    obtain ⟨i, hi, hid⟩ := isLive_iff.1 hsl
    have hsf : s < freshId G := hid ▸ id_lt_freshId hi
    have hsS : s ≠ S := fun e => lt_irrefl _ (e ▸ hlt)
    rw [rewriteStep_getInst_used hst hsf hsS (Or.inl hsl')]
    exact map_subst_of_rank_lt hrk hlt
  | step hu hi hv ih =>
    rename_i u v i
    have hvr : Reach G s v := Reach.step hu hi hv
    have hvlt : rk v < rk S := lt_of_le_of_lt (reach_rank_le hrk hvr) hlt
    have him := (getInst_some hi).1
    have hvf : v < freshId G := operand_lt_freshId him hv
    have hvS : v ≠ S := fun e => lt_irrefl _ (e ▸ hvlt)
    have him' : i ∈ G'.insts := (getInst_some (ih.trans hi)).1
    rw [rewriteStep_getInst_used hst hvf hvS (Or.inr ⟨i, him', hv⟩)]
    exact map_subst_of_rank_lt hrk hvlt

/-- The loop of `optimizeClamp` runs to its end from a state that satisfies the
invariant, and the invariant holds at the end. -/
theorem clampLoop_inv : ∀ (todo : List ValueId) (G : Function) (c : Bool),
    LoopInv G todo → ∃ c' G', clampLoop todo c G = some (c', G') ∧ LoopInv G' [] := by
  intro todo
  induction todo with
  | nil => intro G c h; exact ⟨c, G, rfl, h⟩
  | cons S rest ih =>
    intro G c h
    obtain ⟨hwf, rk, hrk, hpw, hsel, hrej⟩ := h
    obtain ⟨τ, blk, C, t, f, hS⟩ := hsel S (List.mem_cons_self _ _)
    have hSm := (getInst_some hS).1
    have htS : t ≠ S := by
      intro e
      exact ranked_irrefl hrk hSm (by simp [Instruction.operands, InstKind.operands, e])
    obtain ⟨b, G1, hr⟩ := rewriteSelect_defined hwf hS htS
    rw [List.pairwise_cons] at hpw
    unfold clampLoop
    rw [hr]
    cases b with
    | false =>
      have := rewriteSelect_rejected_body hr
      subst this
      apply ih
      refine ⟨hwf, rk, hrk, hpw.2, fun S' h' => hsel S' (List.mem_cons_of_mem _ h'), ?_⟩
      intro s hs
      rcases hrej s hs with hm | ⟨hr', hlt⟩
      · rcases List.mem_cons.1 hm with rfl | hm'
        · exact Or.inr ⟨hr, hpw.1⟩
        · exact Or.inl hm'
      · exact Or.inr ⟨hr', fun S' hS' => hlt S' (List.mem_cons_of_mem _ hS')⟩
    | true =>
      obtain ⟨r, dead, hst, hdead⟩ := rewriteSelect_true_step hS hr
      have hwf' := rewriteSelect_true_wellFormed hwf hS hr
      obtain ⟨rk', hrk', hold⟩ := rewriteSelect_true_ranked hrk hS hr
      have hlive : ∀ v, isLive G v = true → rk' v = rk v := by
        intro v hv
        obtain ⟨i, hi, hid⟩ := isLive_iff.1 hv
        exact hold v (hid ▸ id_lt_freshId hi)
      have hrestl : ∀ S' ∈ rest, isLive G S' = true := by
        intro S' hS'
        obtain ⟨_, _, _, _, _, hg⟩ := hsel S' (List.mem_cons_of_mem _ hS')
        exact isLive_of_getInst hg
      have hdlt : rk dead < rk S := by
        rcases hdead with ⟨rfl, _⟩ | ⟨rfl, _⟩
        · exact hrk _ hSm _ (by simp [Instruction.operands, InstKind.operands])
        · exact hrk _ hSm _ (by simp [Instruction.operands, InstKind.operands])
      apply ih
      refine ⟨hwf', rk', hrk', ?_, ?_, ?_⟩
      · apply hpw.2.imp_of_mem
        intro a b ha hb hab
        rw [hlive a (hrestl a ha), hlive b (hrestl b hb)]
        exact hab
      · intro S' hS'
        obtain ⟨τ', blk', c', t', f', hg⟩ := hsel S' (List.mem_cons_of_mem _ hS')
        have hlt := hpw.1 S' hS'
        have hS'S : S' ≠ S := fun e => lt_irrefl _ (e ▸ hlt)
        have hS'd : S' ≠ dead := fun e => lt_irrefl _ (lt_trans (e ▸ hlt) hdlt)
        have hS'f : S' < freshId G := id_lt_freshId (getInst_some hg).1
        have := rewriteStep_getInst hst hS'f hS'S hS'd
        rw [hg] at this
        exact ⟨τ', blk', _, _, _, this⟩
      · intro s hs
        obtain ⟨hsG, hsS⟩ := rewriteStep_selects hst hs
        rcases hrej s hsG with hm | ⟨hr', hlt⟩
        · rcases List.mem_cons.1 hm with e | hm'
          · exact absurd e hsS
          · exact Or.inl hm'
        · right
          obtain ⟨_, _, _, _, _, hg⟩ := isSelect_of_rewriteSelect hr'
          have hsl : isLive G s = true := isLive_of_getInst hg
          have hsl' : isLive G1 s = true := by
            obtain ⟨i, hi, hid, _⟩ := mem_selectWorklist.1 hs
            exact isLive_iff.2 ⟨i, hi, hid⟩
          refine ⟨rewriteSelect_rejected_congr (rewriteStep_values hst)
            (rewriteStep_reach_stable hrk hst hsl hsl' (hlt S (List.mem_cons_self _ _))) hr', ?_⟩
          intro S' hS'
          rw [hlive s hsl, hlive S' (hrestl S' hS')]
          exact hlt S' (List.mem_cons_of_mem _ hS')

/-- **C11.** Idempotence of the select rewriter.  For every well-formed
function whose scan order respects uses, `optimizeClamp` runs to its end, and
on the body it leaves, a second run rewrites no select (every select of the
body is rejected), returns false and leaves the body as it is. -/
theorem optimizeClamp_idempotent (F : Function) (hwf : WellFormed F) (hord : DefBeforeUse F) :
    ∃ b F', optimizeClamp F = some (b, F') ∧
      (∀ s ∈ selectWorklist F', rewriteSelect F' s = some (false, F')) ∧
      optimizeClamp F' = some (false, F') := by
  obtain ⟨rk, hrk, hpw, hsel⟩ := defBeforeUse_rank hord
  obtain ⟨c', G', hloop, hinv⟩ := clampLoop_inv (selectWorklist F) F false
    ⟨hwf, rk, hrk, hpw, hsel, fun s hs => Or.inl hs⟩
  obtain ⟨_, _, _, _, _, hall⟩ := hinv
  have hrej : ∀ s ∈ selectWorklist G', rewriteSelect G' s = some (false, G') := by
    intro s hs
    rcases hall s hs with hm | h
    · cases hm
    · exact h.1
  exact ⟨c', G', hloop, hrej, clampLoop_all_rejected _ false hrej⟩

/-- **C11 (witness).** The nested clamp
`select(var >= lo, select(var <= hi, var, hi), lo)` is such a function. -/
theorem optimizeClamp_idempotent_witness :
    WellFormed (exNestedClamp 32 .ICMP_SLE .ICMP_SGE) ∧
    DefBeforeUse (exNestedClamp 32 .ICMP_SLE .ICMP_SGE) ∧
    ∃ b F', optimizeClamp (exNestedClamp 32 .ICMP_SLE .ICMP_SGE) = some (b, F') ∧
      (∀ s ∈ selectWorklist F', rewriteSelect F' s = some (false, F')) ∧
      optimizeClamp F' = some (false, F') :=
  ⟨by unfold WellFormed present; decide, by unfold DefBeforeUse; decide,
    optimizeClamp_idempotent _ (by unfold WellFormed present; decide) (by unfold DefBeforeUse; decide)⟩

/-! ## C16: the driver -/

theorem instruction_mapOperands_comp (g h : ValueId → ValueId) (i : Instruction) :
    (i.mapOperands g).mapOperands h = i.mapOperands (h ∘ g) := by
  obtain ⟨id, ty, blk, k⟩ := i
  cases k <;> simp [Instruction.mapOperands, InstKind.mapOperands, List.map_map]

theorem instruction_mapOperands_id (i : Instruction) : i.mapOperands (fun v => v) = i := by
  obtain ⟨id, ty, blk, k⟩ := i
  cases k <;> simp [Instruction.mapOperands, InstKind.mapOperands]

theorem clampLoopCount_clampLoop : ∀ (todo : List ValueId) (c : Bool) (n : Nat) (G : Function),
    (clampLoopCount todo c n G).map (fun x => (x.1, x.2.2)) = clampLoop todo c G := by
  intro todo
  induction todo with
  | nil => intro c n G; rfl
  | cons S rest ih =>
    intro c n G
    unfold clampLoopCount clampLoop
    cases hr : rewriteSelect G S with
    | none => rfl
    | some p =>
      obtain ⟨b, G1⟩ := p
      cases b with
      | false => exact ih c n G1
      | true => exact ih true (n + 1) G1

theorem clampLoopCount_flag : ∀ (todo : List ValueId) (c : Bool) (n : Nat) (G : Function)
    (c' : Bool) (n' : Nat) (G' : Function),
    clampLoopCount todo c n G = some (c', n', G') →
      n ≤ n' ∧ (c' = true ↔ c = true ∨ n < n') := by
  intro todo
  induction todo with
  | nil =>
    intro c n G c' n' G' h
    simp only [clampLoopCount, Option.some.injEq, Prod.mk.injEq] at h
    obtain ⟨rfl, rfl, _⟩ := h
    simp
  | cons S rest ih =>
    intro c n G c' n' G' h
    unfold clampLoopCount at h
    cases hr : rewriteSelect G S with
    | none => rw [hr] at h; cases h
    | some p =>
      obtain ⟨b, G1⟩ := p
      rw [hr] at h
      cases b with
      | false => exact ih c n G1 c' n' G' h
      | true =>
        obtain ⟨hle, hiff⟩ := ih true (n + 1) G1 c' n' G' h
        refine ⟨Nat.le_of_succ_le hle, ?_⟩
        constructor
        · intro _
          exact Or.inr (Nat.lt_of_succ_le hle)
        · intro _
          exact hiff.2 (Or.inl rfl)

/-- What the loop of `optimizeClamp` leaves of the instructions that are
neither selects nor comparisons. -/
theorem clampLoop_keeps : ∀ (todo : List ValueId) (G : Function) (c c' : Bool) (G' : Function),
    clampLoop todo c G = some (c', G') →
    ∃ g : ValueId → ValueId, (∀ x, x ∉ todo → g x = x) ∧
      ∀ J, getInst G J.id = some J → (∀ a t f, J.kind ≠ .select a t f) →
        (∀ p l r, J.kind ≠ .cmp p l r) → getInst G' J.id = some (J.mapOperands g) := by
  intro todo
  induction todo with
  | nil =>
    intro G c c' G' h
    simp only [clampLoop, Option.some.injEq, Prod.mk.injEq] at h
    obtain ⟨_, rfl⟩ := h
    refine ⟨fun v => v, fun _ _ => rfl, fun J hJ _ _ => ?_⟩
    rw [instruction_mapOperands_id]
    exact hJ
  | cons S rest ih =>
    intro G c c' G' h
    unfold clampLoop at h
    cases hr : rewriteSelect G S with
    | none => rw [hr] at h; cases h
    | some p =>
      obtain ⟨b, G1⟩ := p
      rw [hr] at h
      cases b with
      | false =>
        have := rewriteSelect_rejected_body hr
        subst this
        obtain ⟨g, hg, hk⟩ := ih G1 c c' G' h
        exact ⟨g, fun x hx => hg x (fun hm => hx (List.mem_cons_of_mem _ hm)), hk⟩
      | true =>
        obtain ⟨τ, blk, C, t, f, hS⟩ := isSelect_of_rewriteSelect hr
        obtain ⟨r, dead, hst, hdead⟩ := rewriteSelect_true_step hS hr
        obtain ⟨g, hg, hk⟩ := ih G1 true c' G' h
        refine ⟨g ∘ subst S r, ?_, ?_⟩
        · intro x hx
          simp only [List.mem_cons, not_or] at hx
          show g (subst S r x) = x
          have : subst S r x = x := by simp [subst, hx.1]
          rw [this]
          exact hg x hx.2
        · intro J hJ hns hnc
          have hJS : J.id ≠ S := by
            intro e
            rw [e, hS] at hJ
            exact hns C t f (by rw [← Option.some.inj hJ])
          have hJd : J.id ≠ dead := by
            intro e
            rcases hdead with ⟨rfl, τi, bi, ci, x, y, hI⟩ | ⟨rfl, cty, cb, p, l, x, hC⟩
            · rw [e, hI] at hJ
              exact hns ci x y (by rw [← Option.some.inj hJ])
            · rw [e, hC] at hJ
              exact hnc p l x (by rw [← Option.some.inj hJ])
          have hJf : J.id < freshId G := id_lt_freshId (getInst_some hJ).1
          have h1 := rewriteStep_getInst hst hJf hJS hJd
          rw [hJ] at h1
          have h2 := hk (J.mapOperands (subst S r)) h1
            (by
              intro a t' f' hk'
              obtain ⟨jid, jty, jblk, jk⟩ := J
              cases jk <;> simp [Instruction.mapOperands, InstKind.mapOperands] at hk'
              exact hns _ _ _ rfl)
            (by
              intro p l x hk'
              obtain ⟨jid, jty, jblk, jk⟩ := J
              cases jk <;> simp [Instruction.mapOperands, InstKind.mapOperands] at hk'
              exact hnc _ _ _ rfl)
          rw [instruction_mapOperands_comp] at h2
          exact h2

/-- **C16 (as amended).** The driver with the power step disabled.  `run` calls
`optimizeClamp` only.  It returns on every well-formed function whose scan order
respects uses; whenever it returns, the verdict is "no analyses preserved" if
the count of rewritten selects is at least one and "all analyses preserved"
otherwise; every instruction that is neither a select nor a comparison, in
particular every call, is still in the function, and an operand slot of it has
changed only where it held a select of `F`; and a function all of whose selects
are rejected is left as it is, with the verdict "all analyses preserved". -/
theorem run_verdict_and_calls (F : Function) :
    (WellFormed F → DefBeforeUse F → ∃ v F', run F = some (v, F')) ∧
    (optimizeClamp F = (optimizeClampCount F).map (fun x => (x.1, x.2.2))) ∧
    (∀ c n F', optimizeClampCount F = some (c, n, F') →
      run F = some (if 1 ≤ n then PreservedAnalyses.none else PreservedAnalyses.all, F')) ∧
    (∀ v F', run F = some (v, F') →
      ∃ g : ValueId → ValueId, (∀ x, x ∉ selectWorklist F → g x = x) ∧
        ∀ J, getInst F J.id = some J → (∀ a t f, J.kind ≠ .select a t f) →
          (∀ p l r, J.kind ≠ .cmp p l r) → getInst F' J.id = some (J.mapOperands g)) ∧
    ((∀ s ∈ selectWorklist F, rewriteSelect F s = some (false, F)) →
      run F = some (PreservedAnalyses.all, F)) := by
  have hproj := clampLoopCount_clampLoop (selectWorklist F) false 0 F
  refine ⟨?_, hproj.symm, ?_, ?_, ?_⟩
  · intro hwf hord
    obtain ⟨rk, hrk, hpw, hsel⟩ := defBeforeUse_rank hord
    obtain ⟨c', G', hloop, _⟩ := clampLoop_inv (selectWorklist F) F false
      ⟨hwf, rk, hrk, hpw, hsel, fun s hs => Or.inl hs⟩
    unfold run optimizeClamp
    rw [hloop]
    cases c'
    · exact ⟨_, _, rfl⟩
    · exact ⟨_, _, rfl⟩
  · intro c n F' h
    have hflag := (clampLoopCount_flag _ _ _ _ _ _ _ h).2
    unfold optimizeClampCount at h
    rw [h] at hproj
    unfold run optimizeClamp
    rw [← hproj]
    simp only [Option.map_some']
    cases c with
    | false =>
      have hn : ¬ 1 ≤ n := by
        intro h1
        have := hflag.2 (Or.inr (Nat.lt_of_succ_le h1))
        cases this
      simp [hn]
    | true =>
      have hn : 1 ≤ n := by
        rcases hflag.1 rfl with h0 | h0
        · cases h0
        · exact h0
      simp [hn]
  · intro v F' h
    unfold run at h
    cases ho : optimizeClamp F with
    | none => rw [ho] at h; cases h
    | some p =>
      obtain ⟨c, G'⟩ := p
      rw [ho] at h
      have hF : G' = F' := by
        cases c <;> simp at h <;> exact h.2
      subst hF
      exact clampLoop_keeps _ _ _ _ _ ho
  · intro hall
    unfold run optimizeClamp
    rw [clampLoop_all_rejected _ false hall]
    rfl

/-- **C16 (witness).** The function with `pow(x, 2.2)` and a select that is not
rewritable is left unchanged, with the verdict "all analyses preserved". -/
theorem run_verdict_and_calls_witness :
    (∀ s ∈ selectWorklist exPowCall, rewriteSelect exPowCall s = some (false, exPowCall)) ∧
    run exPowCall = some (PreservedAnalyses.all, exPowCall) :=
  ⟨by decide, (run_verdict_and_calls exPowCall).2.2.2.2 (by decide)⟩

/-- **C16 (counterexample).** In `%4 = select(%1 < %2, %2, %1); %5 = call @use(%4)`
the select is rewritten to `%6 = smax(%1, %2)`, and the call, which is in the
function before `run`, is changed by it: afterwards it is `call @use(%6)`. -/
theorem call_operand_changed_by_run :
    (⟨5, .other 0, 0, .otherInst 3 [4]⟩ : Instruction) ∈ exCallOfSelect.insts ∧
    run exCallOfSelect = some (PreservedAnalyses.none,
      ⟨[(1, i32), (2, i32)],
       [⟨6, i32, 0, .intrinsic .smax 1 2⟩, ⟨5, .other 0, 0, .otherInst 3 [6]⟩]⟩) := by
  decide

/-! ## The power rewriter as a whole pass -/

/-- The instruction `v` is not one that `treeOf` follows. -/
theorem treeOf_some_cases {G : MathFunction} {X v : ValueId} {n : Nat} {T : PowTree}
    (h : treeOf G X n v = some T) :
    v = X ∨ (∃ u, mathGetInst G v = some ⟨v, .sqrt u⟩) ∨
      ∃ a b, mathGetInst G v = some ⟨v, .fmul a b⟩ := by
  cases n with
  | zero => simp [treeOf] at h
  | succ n =>
    unfold treeOf at h
    by_cases hv : v = X
    · exact Or.inl hv
    · right
      rw [if_neg hv] at h
      cases hg : mathGetInst G v with
      | none => rw [hg] at h; cases h
      | some i =>
        obtain ⟨id, k⟩ := i
        have hid : id = v := (mathGetInst_some hg).2
        subst hid
        cases k with
        | sqrt u => exact Or.inl ⟨u, rfl⟩
        | fmul a b => exact Or.inr ⟨a, b, rfl⟩
        | call c args => rw [hg] at h; cases h
        | fpext s => rw [hg] at h; cases h
        | load p => rw [hg] at h; cases h
        | otherMath t ops => rw [hg] at h; cases h

theorem lt_mathFreshId_of_treeOf {G : MathFunction} {X v : ValueId} {n : Nat} {T : PowTree}
    (hX : X < mathFreshId G) (h : treeOf G X n v = some T) : v < mathFreshId G := by
  rcases treeOf_some_cases h with rfl | ⟨u, hu⟩ | ⟨a, b, hab⟩
  · exact hX
  · exact lt_mathFreshId_of_isLive (by simp [mathIsLive, hu])
  · exact lt_mathFreshId_of_isLive (by simp [mathIsLive, hab])

theorem ne_of_treeOf {G : MathFunction} {X v a : ValueId} {n : Nat} {T : PowTree}
    (hXa : X ≠ a) (ha : NotNode G a) (h : treeOf G X n v = some T) : v ≠ a := by
  rintro rfl
  rcases treeOf_some_cases h with e | ⟨u, hu⟩ | ⟨x, y, hxy⟩
  · exact hXa e.symm
  · exact ha.1 u hu
  · exact ha.2 x y hxy

/-- Replacing and erasing `a` leaves the trees over another base as they are,
when `a` is not an instruction that they follow. -/
theorem treeOf_rewired {G : MathFunction} {X a b : ValueId} (hXa : X ≠ a) (ha : NotNode G a)
    (n : Nat) : ∀ (v : ValueId) (T : PowTree), treeOf G X n v = some T →
      treeOf (mathEraseFromParent (mathReplaceAllUsesWith G a b) a) X n v = some T := by
  induction n with
  | zero => intro v T h; simp [treeOf] at h
  | succ n ih =>
    intro v T h
    have hva := ne_of_treeOf hXa ha h
    unfold treeOf at h ⊢
    by_cases hv : v = X
    · rw [if_pos hv] at h ⊢
      exact h
    · rw [if_neg hv] at h ⊢
      rw [mathGetInst_rewired hva]
      cases hg : mathGetInst G v with
      | none => rw [hg] at h; cases h
      | some i =>
        obtain ⟨id, k⟩ := i
        rw [hg] at h
        cases k with
        | sqrt u =>
          simp only [Option.map_some', MathInst.mapOperands, MathKind.mapOperands] at h ⊢
          cases hu : treeOf G X n u with
          | none => rw [hu] at h; cases h
          | some Tu =>
            have hua := ne_of_treeOf hXa ha hu
            have hs : subst a b u = u := by simp [subst, hua]
            rw [hs, ih u Tu hu]
            rw [hu] at h
            exact h
        | fmul x y =>
          simp only [Option.map_some', MathInst.mapOperands, MathKind.mapOperands] at h ⊢
          cases hx : treeOf G X n x with
          | none => rw [hx] at h; cases h
          | some Tx =>
            cases hy : treeOf G X n y with
            | none => rw [hx, hy] at h; cases h
            | some Ty =>
              have hxa := ne_of_treeOf hXa ha hx
              have hya := ne_of_treeOf hXa ha hy
              have hsx : subst a b x = x := by simp [subst, hxa]
              have hsy : subst a b y = y := by simp [subst, hya]
              rw [hsx, hsy, ih x Tx hx, ih y Ty hy]
              rw [hx, hy] at h
              exact h
        | call c args => cases h
        | fpext s => cases h
        | load p => cases h
        | otherMath t ops => cases h

theorem notNode_rewired {G : MathFunction} {a b c : ValueId} (hc : NotNode G c) :
    NotNode (mathEraseFromParent (mathReplaceAllUsesWith G a b) a) c := by
  by_cases hca : c = a
  · subst hca
    have hnone : mathGetInst (mathEraseFromParent (mathReplaceAllUsesWith G c b) c) c = none := by
      cases hg : mathGetInst (mathEraseFromParent (mathReplaceAllUsesWith G c b) c) c with
      | none => rfl
      | some i =>
        have hm := (mathGetInst_some hg).1
        have hid := (mathGetInst_some hg).2
        have := (List.mem_filter.1 hm).2
        simp [hid] at this
    constructor
    · intro u h; rw [hnone] at h; cases h
    · intro x y h; rw [hnone] at h; cases h
  · rw [NotNode, mathGetInst_rewired hca]
    constructor
    · intro u h
      cases hg : mathGetInst G c with
      | none => rw [hg] at h; cases h
      | some i =>
        obtain ⟨id, k⟩ := i
        have hid : id = c := (mathGetInst_some hg).2
        subst hid
        rw [hg] at h
        cases k <;> simp [MathInst.mapOperands, MathKind.mapOperands] at h
        exact hc.1 _ hg
    · intro x y h
      cases hg : mathGetInst G c with
      | none => rw [hg] at h; cases h
      | some i =>
        obtain ⟨id, k⟩ := i
        have hid : id = c := (mathGetInst_some hg).2
        subst hid
        rw [hg] at h
        cases k <;> simp [MathInst.mapOperands, MathKind.mapOperands] at h
        exact hc.2 _ _ hg

/-- The replacement loop leaves the trees over a base that is not replaced as
they are. -/
theorem applyReplacements_tree (R : List (ValueId × ValueId)) :
    ∀ (G : MathFunction) (X : ValueId), X ∉ R.map Prod.fst →
      (∀ p ∈ R, NotNode G p.1) →
      ∀ (n : Nat) (v : ValueId) (T : PowTree), treeOf G X n v = some T →
        treeOf (applyReplacements R G) X n v = some T := by
  induction R with
  | nil => intro G X _ _ n v T h; exact h
  | cons p rest ih =>
    intro G X hX hR n v T h
    obtain ⟨a, b⟩ := p
    simp only [List.map_cons, List.mem_cons, not_or] at hX
    unfold applyReplacements
    apply ih _ X hX.2
    · intro p hp
      exact notNode_rewired (hR p (List.mem_cons_of_mem _ hp))
    · exact treeOf_rewired hX.1 (hR (a, b) (List.mem_cons_self _ _)) n v T h

theorem applyReplacements_not_live (R : List (ValueId × ValueId)) :
    ∀ (G : MathFunction) (I : ValueId), mathIsLive G I = false →
      mathIsLive (applyReplacements R G) I = false := by
  induction R with
  | nil => intro G I h; exact h
  | cons p rest ih =>
    intro G I h
    obtain ⟨a, b⟩ := p
    unfold applyReplacements
    apply ih
    rw [Bool.eq_false_iff] at h ⊢
    intro hl
    apply h
    obtain ⟨i, hi, hid⟩ := mathIsLive_iff.1 hl
    obtain ⟨j, hj, rfl⟩ := List.mem_map.1 (List.mem_filter.1 hi).1
    exact mathIsLive_iff.2 ⟨j, hj, hid⟩

/-- A replaced call is no longer in the function after the replacement loop. -/
theorem applyReplacements_erased (R : List (ValueId × ValueId)) :
    ∀ (G : MathFunction) (I : ValueId), I ∈ R.map Prod.fst →
      mathIsLive (applyReplacements R G) I = false := by
  induction R with
  | nil => intro G I h; cases h
  | cons p rest ih =>
    intro G I h
    obtain ⟨a, b⟩ := p
    simp only [List.map_cons, List.mem_cons] at h
    unfold applyReplacements
    by_cases hIa : I = a
    · subst hIa
      apply applyReplacements_not_live
      rw [Bool.eq_false_iff]
      intro hl
      obtain ⟨i, hi, hid⟩ := mathIsLive_iff.1 hl
      have := (List.mem_filter.1 hi).2
      simp [hid] at this
    · rcases h with h | h
      · exact absurd h hIa
      · exact ih _ I h

theorem mathScan_flag (L : List ValueId) :
    ∀ (G : MathFunction) (R : List (ValueId × ValueId)) (c : Bool),
      R.length ≤ (mathScan L G R c).2.1.length ∧
      ((mathScan L G R c).2.2 = true ↔
        c = true ∨ R.length < (mathScan L G R c).2.1.length) := by
  induction L with
  | nil =>
    intro G R c
    simp [mathScan]
  | cons I rest ih =>
    intro G R c
    unfold mathScan
    cases hs : mathStep G I with
    | mk F1 r =>
      cases r with
      | none => exact ih F1 R c
      | some Approx =>
        obtain ⟨hle, hiff⟩ := ih F1 (R ++ [(I, Approx)]) true
        simp only [List.length_append, List.length_singleton] at hle
        refine ⟨Nat.le_of_succ_le hle, ?_⟩
        constructor
        · intro _
          exact Or.inr (Nat.lt_of_succ_le hle)
        · intro _
          exact hiff.2 (Or.inl rfl)

theorem specQualifies_of_qualifiesWith {F : MathFunction} {I X : ValueId} {T : PowTree}
    (h : QualifiesWith F I X T) : specQualifies F I := by
  obtain ⟨Name, E0, q, hI, hn, hr, hT⟩ := h
  exact ⟨Name, X, E0, q, T, hI, hn, hr, hT⟩

theorem qualifiesWith_unique {F : MathFunction} {I X X' : ValueId} {T T' : PowTree}
    (h : QualifiesWith F I X T) (h' : QualifiesWith F I X' T') : X' = X ∧ T' = T := by
  obtain ⟨Name, E0, q, hI, _, hr, hT⟩ := h
  obtain ⟨Name', E0', q', hI', _, hr', hT'⟩ := h'
  rw [hI] at hI'
  simp only [Option.some.injEq, MathInst.mk.injEq, MathKind.call.injEq, List.cons.injEq,
    and_true, true_and] at hI'
  obtain ⟨_, hX, hE⟩ := hI'
  subst hX hE
  rw [hr] at hr'
  cases hr'
  rw [hT] at hT'
  cases hT'
  exact ⟨rfl, rfl⟩

/-- Every replacement that the scan collects computes the table entry of its
call from the base of the call. -/
theorem mathScan_trees {F : MathFunction} (L : List ValueId) :
    ∀ (G : MathFunction) (R : List (ValueId × ValueId)) (Changed : Bool),
      (∀ I ∈ L, mathIsLive F I = true) →
      (∀ pos, mathIsLive F pos = true → MathExtends pos F G) →
      (∀ p ∈ R, ∃ X T, QualifiesWith F p.1 X T ∧ treeOf G X 6 p.2 = some T) →
      ∀ p ∈ (mathScan L G R Changed).2.1,
        ∃ X T, QualifiesWith F p.1 X T ∧ treeOf (mathScan L G R Changed).1 X 6 p.2 = some T := by
  induction L with
  | nil => intro G R Changed _ _ hR; exact hR
  | cons I rest ih =>
    intro G R Changed hL hE hR
    have hIl : mathIsLive F I = true := hL I (List.mem_cons_self _ _)
    have hEI := hE I hIl
    have hrest : ∀ J ∈ rest, mathIsLive F J = true :=
      fun J hJ => hL J (List.mem_cons_of_mem _ hJ)
    have hstepE := mathStep_extends hEI.2.1
    have hE' : ∀ pos, mathIsLive F pos = true → MathExtends pos F (mathStep G I).1 :=
      fun pos hp => mathExtends_pos (mathExtends_trans hEI hstepE) hp
    have hIlt := lt_mathFreshId_of_isLive hIl
    have hkeep : ∀ p ∈ R, ∃ X T, QualifiesWith F p.1 X T ∧
        treeOf (mathStep G I).1 X 6 p.2 = some T := by
      intro p hp
      obtain ⟨X, T, hq, ht⟩ := hR p hp
      refine ⟨X, T, hq, ?_⟩
      obtain ⟨Name, E0, q, hI, _⟩ := hq
      have hXF : X < mathFreshId F :=
        operand_lt_mathFreshId (mathGetInst_some hI).1
          (by simp [MathInst.operands, MathKind.operands])
      have hXG : X < mathFreshId G := lt_of_lt_of_le hXF hEI.2.2.1
      rw [treeOf_extends hstepE 6 p.2 (lt_mathFreshId_of_treeOf hXG ht)]
      exact ht
    unfold mathScan
    cases hs : mathStep G I with
    | mk F1 r =>
      rw [hs] at hE' hkeep
      cases r with
      | none => exact ih F1 R Changed hrest hE' hkeep
      | some Approx =>
        apply ih F1 (R ++ [(I, Approx)]) true hrest hE'
        intro p hp
        rcases List.mem_append.1 hp with hp | hp
        · exact hkeep p hp
        · rw [List.mem_singleton.1 hp]
          rcases mathStep_cases G I with h | ⟨Name, X, E0, q, hI, hn, hr, h⟩
          · rw [hs] at h
            cases h
          · have hIF : mathGetInst F I = some ⟨I, .call (some Name) [X, E0]⟩ := by
              rw [← hEI.2.2.2.1 I hIlt]; exact hI
            have hE0 : E0 < mathFreshId F :=
              operand_lt_mathFreshId (mathGetInst_some hIF).1
                (by simp [MathInst.operands, MathKind.operands])
            have hrF : specConstantResolver F E0 = some q := by
              rw [← specConstantResolver_congr hEI hE0]; exact hr
            obtain ⟨hnone, hsome⟩ := mathStep_tree hI hn hr
            cases hT : specPowerTable q with
            | none =>
              have := hnone hT
              rw [hs] at this
              cases this
            | some T =>
              obtain ⟨r', hr', ht'⟩ := hsome T hT
              rw [hs] at hr' ht'
              cases hr'
              exact ⟨X, T, ⟨Name, E0, q, hIF, hn, hrF, hT⟩, ht'⟩

/-- **The pass on a qualifying call.**  When the call `I` of `F` qualifies with
base `X` and table entry `T`, `optimizeMathFunctions` reports a change, `I` is no
longer in the function and nothing refers to it, the uses of `I` are redirected
to a new value `r` from the replacement list, and `r` computes `T` from `X` in
the body after the pass (when `X` is not itself a replaced call). -/
theorem optimizeMathFunctions_replaces {F : MathFunction} {I X : ValueId} {T : PowTree}
    (hq : QualifiesWith F I X T) :
    (optimizeMathFunctions F).1 = true ∧
    mathIsLive (optimizeMathFunctions F).2 I = false ∧
    (∀ i ∈ (optimizeMathFunctions F).2.insts, I ∉ i.operands) ∧
    (I, redirect (replacements F) I) ∈ replacements F ∧
    mathFreshId F ≤ redirect (replacements F) I ∧
    (¬ specQualifies F X →
      treeOf (optimizeMathFunctions F).2 X 6 (redirect (replacements F) I) = some T) := by
  obtain ⟨hE, hR, hin⟩ := mathScan_initial F
  have hIl : mathIsLive F I = true := by
    obtain ⟨Name, E0, q, hI, _⟩ := hq
    simp [mathIsLive, hI]
  have hL : ∀ J ∈ F.insts.map MathInst.id, mathIsLive F J = true := by
    intro J hJ
    obtain ⟨i, hi, rfl⟩ := List.mem_map.1 hJ
    exact mathIsLive_iff.2 ⟨i, hi, rfl⟩
  have htrees := mathScan_trees (F.insts.map MathInst.id) F [] false hL
    (fun pos hp => mathExtends_refl hp) (fun p hp => by cases hp)
  have hmem : I ∈ (replacements F).map Prod.fst := hin I hIl (specQualifies_of_qualifiesWith hq)
  have hfirst_lt : ∀ p ∈ replacements F, p.1 < mathFreshId F := by
    intro p hp
    obtain ⟨Name, X', E0, q, T', hI, _⟩ := (hR p hp).1
    exact lt_mathFreshId_of_isLive (by simp [mathIsLive, hI])
  have hfresh : ∀ p ∈ replacements F, p.2 ∉ (replacements F).map Prod.fst := by
    intro p hp hm
    obtain ⟨p', hp', he⟩ := List.mem_map.1 hm
    have h1 := hfirst_lt p' hp'
    have h2 := (hR p hp).2
    rw [he] at h1
    exact absurd (lt_of_lt_of_le h1 h2) (lt_irrefl _)
  have hpair := redirect_replaced (replacements F) I hmem hfresh
  have hflag : (optimizeMathFunctions F).1 = true := by
    have := (mathScan_flag (F.insts.map MathInst.id) F [] false).2
    show (mathScan (F.insts.map MathInst.id) F [] false).2.2 = true
    rw [this]
    right
    show 0 < (replacements F).length
    exact List.length_pos_of_mem hpair
  refine ⟨hflag, applyReplacements_erased _ _ I hmem, ?_, hpair, (hR _ hpair).2, ?_⟩
  · apply applyReplacements_no_operand (replacements F) _ I (Or.inr hmem)
    intro p hp e
    have := (hR p hp).2
    rw [e] at this
    exact absurd (lt_of_lt_of_le (lt_mathFreshId_of_isLive hIl) this) (lt_irrefl _)
  · intro hXq
    obtain ⟨X', T', hq', ht⟩ := htrees _ hpair
    obtain ⟨rfl, rfl⟩ := qualifiesWith_unique hq hq'
    have hXn : X' ∉ (replacements F).map Prod.fst := by
      intro hm
      obtain ⟨p, hp, he⟩ := List.mem_map.1 hm
      exact hXq (he ▸ (hR p hp).1)
    apply applyReplacements_tree (replacements F) _ X' hXn _ 6 _ T' ht
    intro p hp
    obtain ⟨Name, X'', E0, q, T'', hI, _⟩ := (hR p hp).1
    have hlt : p.1 < mathFreshId F := hfirst_lt p hp
    have hG : mathGetInst (mathScan (F.insts.map MathInst.id) F [] false).1 p.1
        = some ⟨p.1, .call (some Name) [X'', E0]⟩ := by
      have hpl : mathIsLive F p.1 = true := by simp [mathIsLive, hI]
      rw [(hE p.1 hpl).2.2.2.1 p.1 hlt]
      exact hI
    constructor
    · intro u h; rw [hG] at h; cases h
    · intro x y h; rw [hG] at h; cases h

/-! ## C12, C13, C14, C20: which replacement a power call gets -/

theorem specQualifies_iff_table {F : MathFunction} {I X E0 : ValueId} {Name : String} {q : Double}
    (hI : mathGetInst F I = some ⟨I, .call (some Name) [X, E0]⟩)
    (hname : nameContains Name "pow" = true)
    (hres : specConstantResolver F E0 = some q) :
    specQualifies F I ↔ ∃ T, specPowerTable q = some T := by
  constructor
  · rintro ⟨Name', X', E0', q', T, hI', _, hr', hT⟩
    rw [hI] at hI'
    simp only [Option.some.injEq, MathInst.mk.injEq, MathKind.call.injEq, List.cons.injEq,
      and_true, true_and] at hI'
    obtain ⟨_, _, hE⟩ := hI'
    subst hE
    rw [hres] at hr'
    cases hr'
    exact ⟨T, hT⟩
  · rintro ⟨T, hT⟩
    exact ⟨Name, X, E0, q, T, hI, hname, hres, hT⟩

theorem replaced_iff_qualifies {F : MathFunction} {I : ValueId} (hl : mathIsLive F I = true) :
    I ∈ (replacements F).map Prod.fst ↔ specQualifies F I := by
  obtain ⟨_, hR, hin⟩ := mathScan_initial F
  constructor
  · intro hm
    obtain ⟨p, hp, he⟩ := List.mem_map.1 hm
    exact he ▸ (hR p hp).1
  · exact hin I hl

/-- **C12 (code at the failing input).** For the literal exponent `1/2.4` (the
`double` `1.0/2.4`) the test `fabs(e - 1.0/2.2) < 0.05` holds and comes first in
the table: the scan step on `%3 = call pow(%1, 1/2.4)` pushes a replacement that
computes `sqrt(sqrt(sqrt(x))) * sqrt(x)`, not `sqrt(sqrt(sqrt(x)))`, and after
the pass the call is gone and its use refers to a value that computes that
product. -/
theorem pow_inv24_literal_is_rewritten_as_inv22 :
    |(1 / 2.4 : ℚ) - 1 / 2.2| < 0.05 ∧
    Double.fabs ((1.0 / 2.4 : Double) - 1.0 / 2.2) < 0.05 ∧
    (∃ r, (mathStep (exPowLiteral (1.0 / 2.4)) 3).2 = some r ∧
      treeOf (mathStep (exPowLiteral (1.0 / 2.4)) 3).1 1 6 r
        = some (.mul (.sqrt (.sqrt (.sqrt .x))) (.sqrt .x))) ∧
    (optimizeMathFunctions (exPowLiteral (1.0 / 2.4))).1 = true ∧
    mathIsLive (optimizeMathFunctions (exPowLiteral (1.0 / 2.4))).2 3 = false ∧
    (⟨4, .otherMath 0 [redirect (replacements (exPowLiteral (1.0 / 2.4))) 3]⟩ : MathInst)
      ∈ (optimizeMathFunctions (exPowLiteral (1.0 / 2.4))).2.insts ∧
    treeOf (optimizeMathFunctions (exPowLiteral (1.0 / 2.4))).2 1 6
        (redirect (replacements (exPowLiteral (1.0 / 2.4))) 3)
      = some (.mul (.sqrt (.sqrt (.sqrt .x))) (.sqrt .x)) ∧
    optimizeMathFunctions (exPowLiteral (1.0 / 2.4)) =
      (true, ⟨[(1, .otherValue), (2, .constantFP (1.0 / 2.4))],
        [⟨5, .sqrt 1⟩, ⟨6, .sqrt 5⟩, ⟨7, .sqrt 6⟩, ⟨8, .sqrt 1⟩, ⟨9, .fmul 7 8⟩,
         ⟨4, .otherMath 0 [9]⟩]⟩) := by
  refine ⟨by norm_num [abs_lt], by decide, ⟨9, by decide, by decide⟩, by decide, by decide,
    by decide, by decide, by decide⟩

/-- **C13 (counterexample).** The literal exponent `0.5` lies in the window
around `1/2.2`: the test `fabs(0.5 - 1.0/2.2) < 0.05` of the source holds, the
scan step on `%3 = call pow(%1, 0.5)` pushes a replacement, which computes
`sqrt(sqrt(sqrt(x))) * sqrt(x)`; the pass reports a change and the call is no
longer in the function.  The window tests are those of the source, in `double`
arithmetic: the exponent `2.25`, which is in no window of the table read over
exact rationals, is rewritten as well. -/
theorem pow_half_is_rewritten :
    |(0.5 : ℚ) - 1 / 2.2| < 0.05 ∧
    Double.fabs ((0.5 : Double) - 1.0 / 2.2) < 0.05 ∧
    (∃ r, (mathStep (exPowLiteral 0.5) 3).2 = some r ∧
      treeOf (mathStep (exPowLiteral 0.5) 3).1 1 6 r
        = some (.mul (.sqrt (.sqrt (.sqrt .x))) (.sqrt .x))) ∧
    (optimizeMathFunctions (exPowLiteral 0.5)).1 = true ∧
    mathIsLive (optimizeMathFunctions (exPowLiteral 0.5)).2 3 = false ∧
    optimizeMathFunctions (exPowLiteral 0.5) =
      (true, ⟨[(1, .otherValue), (2, .constantFP 0.5)],
        [⟨5, .sqrt 1⟩, ⟨6, .sqrt 5⟩, ⟨7, .sqrt 6⟩, ⟨8, .sqrt 1⟩, ⟨9, .fmul 7 8⟩,
         ⟨4, .otherMath 0 [9]⟩]⟩) ∧
    Double.toRat (.finite 9 (-2)) = some (9 / 4) ∧
    specExactTable (9 / 4) = none ∧
    optimizeMathFunctions (exPowLiteral (.finite 9 (-2))) =
      (true, ⟨[(1, .otherValue), (2, .constantFP (.finite 9 (-2)))],
        [⟨5, .fmul 1 1⟩, ⟨6, .sqrt 1⟩, ⟨7, .sqrt 6⟩, ⟨8, .sqrt 7⟩, ⟨9, .fmul 5 8⟩,
         ⟨4, .otherMath 0 [9]⟩]⟩) := by
  refine ⟨by norm_num [abs_lt], by decide, ⟨9, by decide, by decide⟩, by decide, by decide,
    by decide, ?_, ?_, by decide⟩
  · simp only [Double.toRat, Option.some.injEq]
    norm_num
  · unfold specExactTable
    norm_num [abs_lt]

/-- **C13 (as amended).** On a call of a function whose name contains `pow`,
with two arguments and an exponent that resolves to the `double` `q`: if `q` is
`0.5` the call gets the replacement `sqrt(sqrt(sqrt(x))) * sqrt(x)` of the
window around `1/2.2`; if no window test of the table holds for `q` (the tests
evaluated as the source writes them, in `double` arithmetic),
`buildPowerApprox` returns no replacement, the scan of `optimizeMathFunctions`
passes the call by with the body, the replacement list and the changed flag as
they were, and the call is still in the function after the pass. -/
theorem pow_without_window_left_intact (F : MathFunction) (I X E0 : ValueId) (Name : String)
    (q : Double)
    (hI : mathGetInst F I = some ⟨I, .call (some Name) [X, E0]⟩)
    (hname : nameContains Name "pow" = true)
    (hres : specConstantResolver F E0 = some q) :
    (q = 0.5 →
      (∃ r, (mathStep F I).2 = some r ∧
        treeOf (mathStep F I).1 X 6 r = some (.mul (.sqrt (.sqrt (.sqrt .x))) (.sqrt .x))) ∧
      (optimizeMathFunctions F).1 = true ∧
      mathIsLive (optimizeMathFunctions F).2 I = false) ∧
    (specPowerTable q = none →
      buildPowerApprox F I X q = (F, none) ∧
      (∀ rest Replacements Changed,
        mathScan (I :: rest) F Replacements Changed = mathScan rest F Replacements Changed) ∧
      I ∉ (replacements F).map Prod.fst ∧
      mathGetInst (optimizeMathFunctions F).2 I
        = some ⟨I, .call (some Name)
            [redirect (replacements F) X, redirect (replacements F) E0]⟩) := by
  obtain ⟨hnone, hsome⟩ := mathStep_tree hI hname hres
  have hIl : mathIsLive F I = true := by simp [mathIsLive, hI]
  constructor
  · rintro rfl
    have hT : specPowerTable 0.5 = some (.mul (.sqrt (.sqrt (.sqrt .x))) (.sqrt .x)) := by
      decide
    obtain ⟨h1, h2, _⟩ := optimizeMathFunctions_replaces
      (show QualifiesWith F I X _ from ⟨Name, E0, 0.5, hI, hname, hres, hT⟩)
    exact ⟨hsome _ hT, h1, h2⟩
  · intro hT
    have hstep := hnone hT
    have hnq : ¬ specQualifies F I := by
      rw [specQualifies_iff_table hI hname hres]
      rintro ⟨T, hT'⟩
      rw [hT] at hT'
      cases hT'
    refine ⟨?_, fun rest R Changed => ?_, ?_, ?_⟩
    · rw [← hstep, mathStep_eq hI hname, hres]
    · conv_lhs => unfold mathScan
      rw [hstep]
    · rw [replaced_iff_qualifies hIl]
      exact hnq
    · exact @optimizeMathFunctions_keeps_lookup F ⟨I, .call (some Name) [X, E0]⟩ hI hnq

/-- **C13 (witness).** No window test holds for the exponent `3.0`, and
`pow(x, 3.0)` is left as it is: the pass reports no change and the body is the
one before. -/
theorem pow_without_window_left_intact_witness :
    specPowerTable 3.0 = none ∧
    (buildPowerApprox (exPowLiteral 3.0) 3 1 3.0 = (exPowLiteral 3.0, none) ∧
    (∀ rest Replacements Changed,
      mathScan (3 :: rest) (exPowLiteral 3.0) Replacements Changed
        = mathScan rest (exPowLiteral 3.0) Replacements Changed) ∧
    3 ∉ (replacements (exPowLiteral 3.0)).map Prod.fst ∧
    mathGetInst (optimizeMathFunctions (exPowLiteral 3.0)).2 3
      = some ⟨3, .call (some "pow")
          [redirect (replacements (exPowLiteral 3.0)) 1,
           redirect (replacements (exPowLiteral 3.0)) 2]⟩) ∧
    optimizeMathFunctions (exPowLiteral 3.0) = (false, exPowLiteral 3.0) :=
  ⟨by decide,
    (pow_without_window_left_intact (exPowLiteral 3.0) 3 1 2 "pow" 3.0 rfl (by decide) rfl).2
      (by decide),
    by decide⟩

/-- **C14.** Literal and indirect exponents give the same rewrite: for a call
whose exponent is the literal `e` (possibly under one float-extension cast) and
a call whose exponent is a load from a global with initializer `e` (the load
possibly under one float-extension cast), the scan step rewrites one exactly
when it rewrites the other, and the two replacements compute the same
expression tree from their bases; the pass replaces one exactly when it
replaces the other, and then the values that the uses of the two calls are
redirected to compute the same expression tree from their bases in the bodies
after the pass (for bases that are not replaced calls themselves). -/
theorem literal_and_global_same_rewrite (F1 F2 : MathFunction)
    (I1 X1 E1 I2 X2 E2 : ValueId) (N1 N2 : String) (c : Bool) (e : Double)
    (h1 : mathGetInst F1 I1 = some ⟨I1, .call (some N1) [X1, E1]⟩)
    (hn1 : nameContains N1 "pow" = true)
    (h2 : mathGetInst F2 I2 = some ⟨I2, .call (some N2) [X2, E2]⟩)
    (hn2 : nameContains N2 "pow" = true)
    (hlit : specLiteralOperand F1 E1 e) (hglob : specGlobalOperand F2 E2 c e) :
    (mathStep F1 I1).2.isSome = (mathStep F2 I2).2.isSome ∧
    (∀ r1, (mathStep F1 I1).2 = some r1 →
      ∃ r2 T, (mathStep F2 I2).2 = some r2 ∧
        treeOf (mathStep F1 I1).1 X1 6 r1 = some T ∧
        treeOf (mathStep F2 I2).1 X2 6 r2 = some T) ∧
    (I1 ∈ (replacements F1).map Prod.fst ↔ I2 ∈ (replacements F2).map Prod.fst) ∧
    (I1 ∈ (replacements F1).map Prod.fst →
      mathIsLive (optimizeMathFunctions F1).2 I1 = false ∧
      mathIsLive (optimizeMathFunctions F2).2 I2 = false ∧
      (¬ specQualifies F1 X1 → ¬ specQualifies F2 X2 →
        ∃ T, treeOf (optimizeMathFunctions F1).2 X1 6 (redirect (replacements F1) I1) = some T ∧
          treeOf (optimizeMathFunctions F2).2 X2 6 (redirect (replacements F2) I2) = some T)) := by
  have hr1 := specConstantResolver_literal hlit
  have hr2 := specConstantResolver_global hglob
  have hl1 : mathIsLive F1 I1 = true := by simp [mathIsLive, h1]
  have hl2 : mathIsLive F2 I2 = true := by simp [mathIsLive, h2]
  have hiff : I1 ∈ (replacements F1).map Prod.fst ↔ I2 ∈ (replacements F2).map Prod.fst := by
    rw [replaced_iff_qualifies hl1, replaced_iff_qualifies hl2,
      specQualifies_iff_table h1 hn1 hr1, specQualifies_iff_table h2 hn2 hr2]
  refine ⟨by rw [mathStep_isSome_iff h1 hn1 hr1, mathStep_isSome_iff h2 hn2 hr2], ?_, hiff, ?_⟩
  · intro r1 hs1
    obtain ⟨hnone1, hsome1⟩ := mathStep_tree h1 hn1 hr1
    obtain ⟨_, hsome2⟩ := mathStep_tree h2 hn2 hr2
    cases hT : specPowerTable e with
    | none =>
      rw [hnone1 hT] at hs1
      cases hs1
    | some T =>
      obtain ⟨r1', hr1', ht1⟩ := hsome1 T hT
      obtain ⟨r2, hr2', ht2⟩ := hsome2 T hT
      rw [hs1] at hr1'
      cases hr1'
      exact ⟨r2, T, hr2', ht1, ht2⟩
  · intro hm
    obtain ⟨T, hT⟩ := (specQualifies_iff_table h1 hn1 hr1).1 ((replaced_iff_qualifies hl1).1 hm)
    obtain ⟨_, a2, _, _, _, a6⟩ := optimizeMathFunctions_replaces
      (show QualifiesWith F1 I1 X1 T from ⟨N1, E1, e, h1, hn1, hr1, hT⟩)
    obtain ⟨_, b2, _, _, _, b6⟩ := optimizeMathFunctions_replaces
      (show QualifiesWith F2 I2 X2 T from ⟨N2, E2, e, h2, hn2, hr2, hT⟩)
    exact ⟨a2, b2, fun hx1 hx2 => ⟨T, a6 hx1, b6 hx2⟩⟩

theorem literal_and_global_same_rewrite_witness :
    (mathStep (exPowLiteral 2.2) 3).2.isSome = (mathStep (exPowGlobal true 2.2) 3).2.isSome ∧
    (∀ r1, (mathStep (exPowLiteral 2.2) 3).2 = some r1 →
      ∃ r2 T, (mathStep (exPowGlobal true 2.2) 3).2 = some r2 ∧
        treeOf (mathStep (exPowLiteral 2.2) 3).1 1 6 r1 = some T ∧
        treeOf (mathStep (exPowGlobal true 2.2) 3).1 1 6 r2 = some T) ∧
    (3 ∈ (replacements (exPowLiteral 2.2)).map Prod.fst ↔
      3 ∈ (replacements (exPowGlobal true 2.2)).map Prod.fst) ∧
    (3 ∈ (replacements (exPowLiteral 2.2)).map Prod.fst →
      mathIsLive (optimizeMathFunctions (exPowLiteral 2.2)).2 3 = false ∧
      mathIsLive (optimizeMathFunctions (exPowGlobal true 2.2)).2 3 = false ∧
      (¬ specQualifies (exPowLiteral 2.2) 1 → ¬ specQualifies (exPowGlobal true 2.2) 1 →
        ∃ T, treeOf (optimizeMathFunctions (exPowLiteral 2.2)).2 1 6
              (redirect (replacements (exPowLiteral 2.2)) 3) = some T ∧
          treeOf (optimizeMathFunctions (exPowGlobal true 2.2)).2 1 6
              (redirect (replacements (exPowGlobal true 2.2)) 3) = some T)) :=
  literal_and_global_same_rewrite (exPowLiteral 2.2) (exPowGlobal true 2.2) 3 1 2 3 1 5
    "pow" "pow" true 2.2 rfl (by decide) rfl (by decide) (Or.inl rfl)
    (Or.inl ⟨2, rfl, rfl, rfl⟩)

end ImgOpt
